import Mathlib

set_option maxHeartbeats 1000000

/-!
Shallow embedding of the pointlander/pagerank package over exact rational
arithmetic.  The concurrent variant (`Node64` / `Graph64`) is embedded with a
deterministic sequential schedule of its worker units; the `weight [2]float64`
ping-pong buffer is kept as two explicit slots selected by a `Bool` (`false`
is Go's index `0`).  The convergence loop `for Δ > ε` is embedded with an
explicit fuel parameter: `none` means the loop did not exit within `fuel`
iterations.  The sequential variant (`Graph`) is embedded further below with
its maps as insertion-ordered association lists.
-/

/-- Association-list lookup: first entry with the given key (Go map read). -/
def assocFind {β : Type} (l : List (Nat × β)) (k : Nat) : Option β :=
  match l with
  | [] => none
  | p :: rest => if p.1 = k then some p.2 else assocFind rest k

/-- Association-list update of the first entry with the given key
(no-op when the key is absent). -/
def assocModify {β : Type} (l : List (Nat × β)) (k : Nat) (f : β → β) : List (Nat × β) :=
  match l with
  | [] => []
  | p :: rest => if p.1 = k then (p.1, f p.2) :: rest else p :: assocModify rest k f

/-- Go's `m[k] += w` on a rational-valued map: add to the entry if present,
otherwise create it. -/
def bump (l : List (Nat × ℚ)) (k : Nat) (w : ℚ) : List (Nat × ℚ) :=
  match l with
  | [] => [(k, w)]
  | p :: rest => if p.1 = k then (p.1, p.2 + w) :: rest else p :: bump rest k w

/-- Total weight of the entries of a rational-valued map. -/
def valSum (l : List (Nat × ℚ)) : ℚ := (l.map (fun e => e.2)).sum

/-- Total weight of the entries with key `t` (0 if absent). -/
def keySum (l : List (Nat × ℚ)) (t : Nat) : ℚ :=
  (l.map (fun e => if e.1 = t then e.2 else 0)).sum

/-- `Node64` from the source: two rank-mass slots (`weight [2]float64`),
the raw outbound total, and the outgoing edge map keyed by dense index. -/
structure Node64 where
  weight0 : ℚ := 0
  weight1 : ℚ := 0
  outbound : ℚ := 0
  edges : List (Nat × ℚ) := []
deriving DecidableEq

/-- Slot read: `n.weight[a]` with `false` for Go's index 0. -/
def Node64.w (n : Node64) (b : Bool) : ℚ := if b then n.weight1 else n.weight0

/-- Slot write: `n.weight[a] = v`. -/
def Node64.setW (n : Node64) (b : Bool) (v : ℚ) : Node64 :=
  if b then { n with weight1 := v } else { n with weight0 := v }

/-- `Graph64` from the source: dense node count, external-id index and the
node slice. -/
structure Graph64 where
  count : Nat := 0
  index : List (Nat × Nat) := []
  nodes : List Node64 := []
deriving DecidableEq

/-- `NewGraph64` (capacity hints have no semantic effect). -/
def emptyG64 : Graph64 := {}

/-- `g.nodes[i]` (the default node stands for the out-of-range read that the
source would panic on; it is proved unreachable for `Link`-built graphs). -/
def nodeAt (ns : List Node64) (i : Nat) : Node64 := ns.getD i {}

/-- In-place update of `g.nodes[i]` (no-op when out of range). -/
def modifyNode (ns : List Node64) (i : Nat) (f : Node64 → Node64) : List Node64 :=
  ns.set i (f (nodeAt ns i))

/-- The index lookup-or-create prefix of `Graph64.Link` for one endpoint:
return the dense index, appending a fresh zero node when the id is new. -/
def ensure64 (g : Graph64) (id : Nat) : Graph64 × Nat :=
  match assocFind g.index id with
  | some i => (g, i)
  | none =>
    ({ count := g.count + 1, index := g.index ++ [(id, g.count)],
       nodes := g.nodes ++ [{}] }, g.count)

/-- The first half of `Graph64.Link`: ensure the source node exists, then
`g.nodes[s].outbound += weight`; also carries the source's dense index. -/
def linkStep1 (g : Graph64) (src : Nat) (wt : ℚ) : Graph64 × Nat :=
  ({ (ensure64 g src).1 with nodes := modifyNode (ensure64 g src).1.nodes (ensure64 g src).2 (fun n => { n with outbound := n.outbound + wt }) }, (ensure64 g src).2)

/-- The second half of `Graph64.Link`: ensure the target node exists, then
`g.nodes[s].edges[t] += weight`. -/
def linkStep2 (gs : Graph64 × Nat) (tgt : Nat) (wt : ℚ) : Graph64 :=
  { (ensure64 gs.1 tgt).1 with nodes := modifyNode (ensure64 gs.1 tgt).1.nodes gs.2 (fun n => { n with edges := bump n.edges (ensure64 gs.1 tgt).2 wt }) }

/-- `Graph64.Link`: ensure the source, add the weight to its outbound total,
ensure the target, then add the weight to the source's edge entry. -/
def Graph64.Link (g : Graph64) (source target : Nat) (weight : ℚ) : Graph64 :=
  linkStep2 (linkStep1 g source weight) target weight

/-- A graph built by a sequence of `Link` calls on a fresh graph. -/
def buildG64 (ts : List (Nat × Nat × ℚ)) : Graph64 :=
  ts.foldl (fun g e => g.Link e.1 e.2.1 e.2.2) emptyG64

/-- `inverse := 1 / float64(len(nodes))` (in ℚ this is `0` when there are no
nodes; the value is never consumed in that case). -/
def Graph64.inv (g : Graph64) : ℚ := 1 / (g.nodes.length : ℚ)

/-- The normalization body: divide every outgoing edge weight by the node's
outbound total when that total is positive. -/
def normNode (n : Node64) : Node64 :=
  if 0 < n.outbound then { n with edges := n.edges.map (fun e => (e.1, e.2 / n.outbound)) }
  else n

/-- The normalization pass of `Graph64.Rank` over all nodes. -/
def normalizePass (ns : List Node64) : List Node64 := ns.map normNode

/-- The initialization pass: every node's slot 0 (`a = 0`) is set to `1/N`. -/
def initPass (inv : ℚ) (ns : List Node64) : List Node64 :=
  ns.map (fun n => { n with weight0 := inv })

/-- The initial `leak`: `1/N` accumulated over every dangling node. -/
def initLeak (inv : ℚ) (ns : List Node64) : ℚ :=
  ns.foldl (fun l n => if n.outbound = 0 then l + inv else l) 0

/-- Modify slot `b` of `ns[i]` by `f` (no-op when out of range). -/
def modifyW (ns : List Node64) (i : Nat) (b : Bool) (f : ℚ → ℚ) : List Node64 :=
  ns.set i ((nodeAt ns i).setW b (f ((nodeAt ns i).w b)))

/-- One `update` worker unit for node `s`: read `aa = α * weight[a]`, push
`aa * weight` along every outgoing edge into the target's slot `b = !a`, then
add the iteration's adjustment to the node's own slot `b`. -/
def updateNode (α adj : ℚ) (a : Bool) (ns : List Node64) (s : Nat) : List Node64 :=
  let aa := α * (nodeAt ns s).w a
  let ns2 := (nodeAt ns s).edges.foldl
    (fun ms e => modifyW ms e.1 (!a) (fun x => x + aa * e.2)) ns
  modifyW ns2 s (!a) (fun x => x + adj)

/-- The update pass: every node's worker unit, in a deterministic sequential
schedule (the result is schedule-independent in exact arithmetic). -/
def updatePass (α adj : ℚ) (a : Bool) (ns : List Node64) : List Node64 :=
  (List.range ns.length).foldl (updateNode α adj a) ns

/-- The per-iteration adjustment `(1-α)*inverse + α*leak*inverse`. -/
def adjOf (α inv leak : ℚ) : ℚ := (1 - α) * inv + α * leak * inv

/-- One step of the convergence-monitor loop for node `s`: accumulate `Δ`
(via the sign branch of the source, on `difference = weight[a] - weight[b]`),
accumulate the new `leak` when the node is dangling, and zero `weight[a]`. -/
def deltaStep (a : Bool) (acc : ℚ × ℚ × List Node64) (s : Nat) : ℚ × ℚ × List Node64 :=
  ((if (nodeAt acc.2.2 s).w a - (nodeAt acc.2.2 s).w (!a) < 0
    then acc.1 - ((nodeAt acc.2.2 s).w a - (nodeAt acc.2.2 s).w (!a))
    else acc.1 + ((nodeAt acc.2.2 s).w a - (nodeAt acc.2.2 s).w (!a))),
   (if (nodeAt acc.2.2 s).outbound = 0 then acc.2.1 + (nodeAt acc.2.2 s).w (!a) else acc.2.1),
   modifyW acc.2.2 s a (fun _ => 0))

/-- The convergence-monitor pass: `Δ`, the new `leak`, and the node slice
with slot `a` zeroed. -/
def deltaPass (a : Bool) (ns : List Node64) : ℚ × ℚ × List Node64 :=
  (List.range ns.length).foldl (deltaStep a) (0, 0, ns)

/-- The loop state of `Graph64.Rank`: which slot is `a` (current), the last
`Δ`, the carried `leak`, and the node slice. -/
structure RState where
  a : Bool
  delta : ℚ
  leak : ℚ
  nodes : List Node64
deriving DecidableEq

/-- One iteration of the ranking loop: update pass, then delta/leak pass,
then the slot swap `a, b = b, a`. -/
def iterBody (α inv : ℚ) (st : RState) : RState :=
  let adj := adjOf α inv st.leak
  let ns := updatePass α adj st.a st.nodes
  let r := deltaPass st.a ns
  { a := !st.a, delta := r.1, leak := r.2.1, nodes := r.2.2 }

/-- The state right before the loop: normalized edges, slot 0 holding the
uniform prior, `Δ = 1`, and the initial dangling `leak`. -/
def initSt (g : Graph64) : RState :=
  let ns := normalizePass g.nodes
  let ns1 := initPass g.inv ns
  { a := false, delta := 1, leak := initLeak g.inv ns1, nodes := ns1 }

/-- The state after `k` iterations of the loop body (whether or not the
guard would have stopped earlier). -/
def iterState64 (g : Graph64) (α : ℚ) (k : Nat) : RState :=
  (iterBody α g.inv)^[k] (initSt g)

/-- The `for Δ > ε` loop with fuel: one fuel unit per executed iteration. -/
def rankLoop (α ε inv : ℚ) : Nat → RState → Option RState
  | 0, st => if st.delta ≤ ε then some st else none
  | f + 1, st => if st.delta ≤ ε then some st else rankLoop α ε inv f (iterBody α inv st)

/-- `Graph64.Rank`, also exposing the final slot flag: the emitted
`(id, rank)` pairs in index order, the mutated graph, and which slot holds
the final ranks. -/
def rankRunA (g : Graph64) (α ε : ℚ) (fuel : Nat) :
    Option (List (Nat × ℚ) × Graph64 × Bool) :=
  (rankLoop α ε g.inv fuel (initSt g)).map (fun st =>
    (g.index.map (fun p => (p.1, (nodeAt st.nodes p.2).w st.a)),
     { g with nodes := st.nodes }, st.a))

/-- `Graph64.Rank`: callback output and the graph as left in memory. -/
def rankRun64 (g : Graph64) (α ε : ℚ) (fuel : Nat) :
    Option (List (Nat × ℚ) × Graph64) :=
  (rankRunA g α ε fuel).map (fun p => (p.1, p.2.1))

/-- Rank of a given id in an emitted output list. -/
def rankOf (out : List (Nat × ℚ)) (id : Nat) : ℚ := (assocFind out id).getD 0

/-- Slot-`a` (current) value of node `s` in a loop state. -/
def curW (st : RState) (s : Nat) : ℚ := (nodeAt st.nodes s).w st.a

/-- Sum of the current slots over all nodes of a loop state. -/
def sumCur (st : RState) : ℚ :=
  Finset.sum (Finset.range st.nodes.length) (fun s => curW st s)

/-- Dangling (zero-outbound) rank mass of the current slots of a state. -/
def dangMass (st : RState) : ℚ :=
  Finset.sum ((Finset.range st.nodes.length).filter
    (fun s => (nodeAt st.nodes s).outbound = 0)) (fun s => curW st s)

/-- Number of dangling nodes of a node slice. -/
def danglingCount (ns : List Node64) : Nat :=
  (ns.filter (fun n => n.outbound = 0)).length

/-- The adjustment used by the very first loop iteration of `Graph64.Rank`. -/
def firstAdjustment (g : Graph64) (α : ℚ) : ℚ := adjOf α g.inv (initSt g).leak

/-- Observed outbound total of an external id (0 when the id is unknown). -/
def outOf (g : Graph64) (src : Nat) : ℚ :=
  match assocFind g.index src with
  | some s => (nodeAt g.nodes s).outbound
  | none => 0

/-- Observed stored edge weight between two external ids (0 when either id
is unknown or the edge entry is absent). -/
def edgeW (g : Graph64) (src tgt : Nat) : ℚ :=
  match assocFind g.index src, assocFind g.index tgt with
  | some s, some t => keySum (nodeAt g.nodes s).edges t
  | _, _ => 0

/-- Structural invariant maintained by `Link` on `Graph64`: the dense count
matches the node slice, index values are exactly `0, 1, ..., count-1` in
insertion order, edge targets are in range, each node's raw edge weights sum
to its outbound total, and rank slots are untouched (zero). -/
def G64Inv (g : Graph64) : Prop :=
  g.count = g.nodes.length ∧
  g.index.map (fun p => p.2) = List.range g.count ∧
  (∀ i, ∀ e ∈ (nodeAt g.nodes i).edges, e.1 < g.count) ∧
  (∀ i, valSum (nodeAt g.nodes i).edges = (nodeAt g.nodes i).outbound) ∧
  (∀ i, (nodeAt g.nodes i).weight0 = 0 ∧ (nodeAt g.nodes i).weight1 = 0)

/-- The invariant as it stands in the middle of a `Link src tgt wt` call,
after the source's outbound total has been bumped but before the edge entry
has: node `s` is short `wt` of edge weight. -/
def G64Pre (g : Graph64) (s : Nat) (wt : ℚ) : Prop :=
  g.count = g.nodes.length ∧
  g.index.map (fun p => p.2) = List.range g.count ∧
  (∀ i, ∀ e ∈ (nodeAt g.nodes i).edges, e.1 < g.count) ∧
  (∀ i, valSum (nodeAt g.nodes i).edges
    = (nodeAt g.nodes i).outbound - (if i = s then wt else 0)) ∧
  (∀ i, (nodeAt g.nodes i).weight0 = 0 ∧ (nodeAt g.nodes i).weight1 = 0)

/-- Sign invariant when every linked weight is nonnegative: outbound totals
and every stored edge weight are nonnegative. -/
def G64Nonneg (g : Graph64) : Prop :=
  (∀ i, 0 ≤ (nodeAt g.nodes i).outbound) ∧
  (∀ i, ∀ e ∈ (nodeAt g.nodes i).edges, 0 ≤ e.2)

/-- Invariant of every state reached by the ranking loop of `Graph64.Rank`
on graph `g`: the node count is stable, edges stay as normalization left
them, outbound totals are untouched, the `b = !a` slot is all zero at the
loop head, and the carried `leak` is exactly the dangling mass of the
current (`a`) slots. -/
def StInv (g : Graph64) (st : RState) : Prop :=
  st.nodes.length = g.nodes.length ∧
  (∀ t, (nodeAt st.nodes t).edges = (nodeAt (normalizePass g.nodes) t).edges) ∧
  (∀ t, (nodeAt st.nodes t).outbound = (nodeAt g.nodes t).outbound) ∧
  (∀ t, (nodeAt st.nodes t).w (!st.a) = 0) ∧
  st.leak = Finset.sum (Finset.range g.nodes.length)
    (fun s => if (nodeAt st.nodes s).outbound = 0 then curW st s else 0)

/-- A graph on which `Rank` diverges: node 1 has a self-loop of weight 2 and
an edge of weight -1 to node 2, so its outbound total is 1 but the
normalized row amplifies differences. -/
def gBad : Graph64 := buildG64 [(1, 1, 2), (1, 2, -1)]

/-- Parity of the iteration count (which slot is `a` on `gBad`). -/
def aParity (k : Nat) : Bool := k % 2 == 1

/-- The exact rank trajectory of `gBad` under `α = 4/5`: the two current
ranks after `k` iterations. -/
def xyBad : Nat → ℚ × ℚ
  | 0 => (1/2, 1/2)
  | k + 1 =>
    ((8/5) * (xyBad k).1 + (1/10 + (2/5) * (xyBad k).2),
     -(4/5) * (xyBad k).1 + (1/10 + (2/5) * (xyBad k).2))

/-- A `gBad` node with value `v` in slot `a` and 0 in the other slot. -/
def nodeBad (a : Bool) (v ob : ℚ) (es : List (Nat × ℚ)) : Node64 :=
  { weight0 := if a then 0 else v, weight1 := if a then v else 0,
    outbound := ob, edges := es }

/-- The loop state of `Rank` on `gBad` with current ranks `x, y`. -/
def mkSt (a : Bool) (x y δ lk : ℚ) : RState :=
  { a := a, delta := δ, leak := lk,
    nodes := [nodeBad a x 1 [(0, 2), (1, -1)], nodeBad a y 0 []] }

/-- The loop state of `Rank` on `gBad` after `k` iterations. -/
def mkBad (k : Nat) : RState :=
  mkSt (aParity k) (xyBad k).1 (xyBad k).2 ((6/5 : ℚ) ^ k) (xyBad k).2

/-! ### The sequential variant (`Graph` of pagerank.go)

Its two Go maps (`edges map[int]map[int]float64` and `nodes map[int]*node`)
are embedded as insertion-ordered association lists keyed by the external id.
The snapshot loop at the top of each `Rank` iteration reads each entry and
zeroes only that same entry, so it is rendered as its three independent
per-entry passes (snapshot, leak accumulation, zeroing). -/

/-- A `node` of the sequential variant: rank mass and outbound total. -/
structure node where
  weight : ℚ := 0
  outbound : ℚ := 0
deriving DecidableEq

/-- The sequential `Graph`: nested edge map and node map. -/
structure Graph where
  edges : List (Nat × List (Nat × ℚ)) := []
  nodes : List (Nat × node) := []
deriving DecidableEq

/-- `New()`. -/
def emptyS : Graph := {}

/-- `if _, ok := self.nodes[k]; ok == false { self.nodes[k] = &node{0, 0} }`. -/
def ensureNode (ns : List (Nat × node)) (k : Nat) : List (Nat × node) :=
  match assocFind ns k with
  | some _ => ns
  | none => ns ++ [(k, {})]

/-- `if _, ok := self.edges[k]; ok == false { self.edges[k] = map[int]float64{} }`. -/
def ensureRow (es : List (Nat × List (Nat × ℚ))) (k : Nat) : List (Nat × List (Nat × ℚ)) :=
  match assocFind es k with
  | some _ => es
  | none => es ++ [(k, [])]

/-- The sequential `Graph.Link`: create the source and target node entries
when missing, add the weight to the source's outbound total, create the
source's edge row when missing, then add the weight to its target entry. -/
def Graph.Link (g : Graph) (source target : Nat) (weight : ℚ) : Graph :=
  { edges := assocModify (ensureRow g.edges source) source (fun m => bump m target weight),
    nodes := ensureNode (assocModify (ensureNode g.nodes source) source (fun nd => { nd with outbound := nd.outbound + weight })) target }

/-- A sequential graph built by a sequence of `Link` calls on a fresh graph. -/
def buildS (ts : List (Nat × Nat × ℚ)) : Graph :=
  ts.foldl (fun g e => g.Link e.1 e.2.1 e.2.2) emptyS

/-- The outbound read `self.nodes[source].outbound` (zero-value default). -/
def outOfS (ns : List (Nat × node)) (k : Nat) : ℚ := ((assocFind ns k).getD {}).outbound

/-- The normalization loop of the sequential `Rank`: divide each edge row by
its source's outbound total when that total is positive. -/
def normEdges (ns : List (Nat × node)) (es : List (Nat × List (Nat × ℚ))) : List (Nat × List (Nat × ℚ)) :=
  es.map (fun p => if 0 < outOfS ns p.1 then (p.1, p.2.map (fun e => (e.1, e.2 / outOfS ns p.1))) else p)

/-- `for key := range self.nodes { self.nodes[key].weight = inverse }`. -/
def initWeights (inv : ℚ) (ns : List (Nat × node)) : List (Nat × node) :=
  ns.map (fun p => (p.1, { p.2 with weight := inv }))

/-- The snapshot map `nodes` taken at the top of each iteration (also the
final `(id, rank)` emission order of the callback loop). -/
def snapOf (ns : List (Nat × node)) : List (Nat × ℚ) := ns.map (fun p => (p.1, p.2.weight))

/-- The dangling mass accumulated into `leak` while snapshotting. -/
def leakOf (ns : List (Nat × node)) : ℚ :=
  (ns.map (fun p => if p.2.outbound = 0 then p.2.weight else 0)).sum

/-- `self.nodes[key].weight = 0`, performed for every key. -/
def zeroWeights (ns : List (Nat × node)) : List (Nat × node) :=
  ns.map (fun p => (p.1, { p.2 with weight := 0 }))

/-- `self.nodes[target].weight += α * nodes[source] * self.edges[source][target]`. -/
def pushTgt (α sw : ℚ) (ns : List (Nat × node)) (e : Nat × ℚ) : List (Nat × node) :=
  assocModify ns e.1 (fun nd => { nd with weight := nd.weight + α * sw * e.2 })

/-- The body for one `source` of the push loop: push along every outgoing
edge, then add the iteration's adjustment to the source's own weight. -/
def pushSrc (α adj : ℚ) (snap : List (Nat × ℚ)) (es : List (Nat × List (Nat × ℚ))) (ns : List (Nat × node)) (source : Nat) : List (Nat × node) :=
  assocModify (((assocFind es source).getD []).foldl (pushTgt α ((assocFind snap source).getD 0)) ns) source (fun nd => { nd with weight := nd.weight + adj })

/-- The push loop over every source key of the node map. -/
def pushPass (α adj : ℚ) (snap : List (Nat × ℚ)) (es : List (Nat × List (Nat × ℚ))) (ns : List (Nat × node)) : List (Nat × node) :=
  (ns.map Prod.fst).foldl (pushSrc α adj snap es) ns

/-- One iteration of the sequential ranking loop: snapshot / leak / zero,
push with the damped adjustment (`leak` is multiplied by `α` beforehand),
then recompute `Δ` against the snapshot. -/
def iterBodyS (α inv : ℚ) (es : List (Nat × List (Nat × ℚ))) (st : ℚ × List (Nat × node)) : ℚ × List (Nat × node) :=
  let snap := snapOf st.2
  let adj := (1 - α) * inv + (α * leakOf st.2) * inv
  let ns2 := pushPass α adj snap es (zeroWeights st.2)
  ((ns2.map (fun p => |p.2.weight - (assocFind snap p.1).getD 0|)).sum, ns2)

/-- The sequential `for Δ > ε` loop with fuel, carrying `(Δ, nodes)`. -/
def rankLoopS (α ε inv : ℚ) (es : List (Nat × List (Nat × ℚ))) : Nat → ℚ × List (Nat × node) → Option (List (Nat × node))
  | 0, st => if st.1 ≤ ε then some st.2 else none
  | f + 1, st => if st.1 ≤ ε then some st.2 else rankLoopS α ε inv es f (iterBodyS α inv es st)

/-- The sequential `Graph.Rank`: normalize, set every weight to `1/N`, loop
from `Δ = 1`, then emit `(id, weight)` for every node in map order. -/
def rankRunS (g : Graph) (α ε : ℚ) (fuel : Nat) : Option (List (Nat × ℚ)) :=
  (rankLoopS α ε (1 / (g.nodes.length : ℚ)) (normEdges g.nodes g.edges) fuel (1, initWeights (1 / (g.nodes.length : ℚ)) g.nodes)).map snapOf

/-- Positional read of a node-map entry (`(0, {})` out of range). -/
def entryAt (ns : List (Nat × node)) (j : Nat) : Nat × node := ns.getD j (0, {})

/-- Translation of a sequential edge row's target ids into dense indices
through the `Graph64` index. -/
def trRow (g : Graph64) (l : List (Nat × ℚ)) : List (Nat × ℚ) :=
  l.map (fun e => ((assocFind g.index e.1).getD 0, e.2))

/-- Build correspondence between the sequential and the concurrent variant:
the node-map keys match the index keys in insertion order, the index keys
are distinct, every indexed id has the same outbound total on both sides and
an edge row whose translation is the dense row (with every target known to
the index), and only indexed ids have edge rows. -/
def SimInv (gS : Graph) (g : Graph64) : Prop :=
  gS.nodes.map Prod.fst = g.index.map Prod.fst ∧
  (g.index.map Prod.fst).Nodup ∧
  (∀ id j, assocFind g.index id = some j →
    outOfS gS.nodes id = (nodeAt g.nodes j).outbound ∧
    (∀ tpos, keySum (trRow g ((assocFind gS.edges id).getD [])) tpos
      = keySum (nodeAt g.nodes j).edges tpos) ∧
    (∀ e ∈ (assocFind gS.edges id).getD [], (assocFind g.index e.1).isSome = true)) ∧
  (∀ id, assocFind g.index id = none → assocFind gS.edges id = none)

/-- Loop-state correspondence at `Rank` time: the sequential node map holds
the index keys in order, with the outbound totals of the graph and weights
equal to the concurrent state's current rank slots. -/
def SCorr (g : Graph64) (ns : List (Nat × node)) (st : RState) : Prop :=
  ns.map Prod.fst = g.index.map Prod.fst ∧
  (∀ j, j < g.nodes.length → (entryAt ns j).2.outbound = (nodeAt g.nodes j).outbound) ∧
  (∀ j, j < g.nodes.length → (entryAt ns j).2.weight = curW st j)

/-! ### Basic slot and list-update lemmas -/

theorem w_setW_same (n : Node64) (b : Bool) (v : ℚ) : (n.setW b v).w b = v := by
  cases b <;> simp [Node64.setW, Node64.w]

theorem w_setW_other (n : Node64) (b : Bool) (v : ℚ) : (n.setW b v).w (!b) = n.w (!b) := by
  cases b <;> simp [Node64.setW, Node64.w]

theorem outbound_setW (n : Node64) (b : Bool) (v : ℚ) : (n.setW b v).outbound = n.outbound := by
  cases b <;> simp [Node64.setW]

theorem edges_setW (n : Node64) (b : Bool) (v : ℚ) : (n.setW b v).edges = n.edges := by
  cases b <;> simp [Node64.setW]

theorem nodeAt_set_self {ns : List Node64} {i : Nat} (h : i < ns.length) (x : Node64) :
    nodeAt (ns.set i x) i = x := by
  induction ns generalizing i with
  | nil => simp at h
  | cons hd tl ih =>
    cases i with
    | zero => simp [nodeAt]
    | succ j =>
      simp only [List.set]
      simpa [nodeAt] using ih (by simpa using h)

theorem nodeAt_set_ne {ns : List Node64} {i j : Nat} (h : i ≠ j) (x : Node64) :
    nodeAt (ns.set i x) j = nodeAt ns j := by
  induction ns generalizing i j with
  | nil => simp [nodeAt]
  | cons hd tl ih =>
    cases i with
    | zero =>
      cases j with
      | zero => exact absurd rfl h
      | succ m => simp [nodeAt]
    | succ i' =>
      cases j with
      | zero => simp [nodeAt]
      | succ m =>
        simp only [List.set]
        simpa [nodeAt] using ih (fun hc => h (by simp [hc]))

theorem length_modifyW (ns : List Node64) (i : Nat) (b : Bool) (f : ℚ → ℚ) :
    (modifyW ns i b f).length = ns.length := by
  simp [modifyW]

theorem nodeAt_modifyW_self {ns : List Node64} {i : Nat} (h : i < ns.length)
    (b : Bool) (f : ℚ → ℚ) :
    nodeAt (modifyW ns i b f) i = (nodeAt ns i).setW b (f ((nodeAt ns i).w b)) := by
  simp [modifyW, nodeAt_set_self h]

theorem nodeAt_modifyW_ne {ns : List Node64} {i j : Nat} (h : i ≠ j) (b : Bool) (f : ℚ → ℚ) :
    nodeAt (modifyW ns i b f) j = nodeAt ns j := by
  simp [modifyW, nodeAt_set_ne h]

theorem nodeAt_default {ns : List Node64} {i : Nat} (h : ns.length ≤ i) :
    nodeAt ns i = {} := by
  simp [nodeAt, List.getD_eq_getElem?_getD, List.getElem?_eq_none h]

theorem w_default (b : Bool) : Node64.w {} b = 0 := by cases b <;> simp [Node64.w]

/-! ### Edge-map (`bump`, `valSum`, `keySum`) lemmas -/

theorem valSum_nil : valSum [] = 0 := rfl

theorem valSum_cons (p : Nat × ℚ) (l : List (Nat × ℚ)) :
    valSum (p :: l) = p.2 + valSum l := by simp [valSum]

theorem valSum_bump (l : List (Nat × ℚ)) (k : Nat) (w : ℚ) :
    valSum (bump l k w) = valSum l + w := by
  induction l with
  | nil => simp [bump, valSum]
  | cons p rest ih =>
    by_cases h : p.1 = k
    · simp [bump, h, valSum_cons]; ring
    · simp [bump, h, valSum_cons, ih]; ring

theorem keySum_nil (t : Nat) : keySum [] t = 0 := rfl

theorem keySum_cons (p : Nat × ℚ) (l : List (Nat × ℚ)) (t : Nat) :
    keySum (p :: l) t = (if p.1 = t then p.2 else 0) + keySum l t := by simp [keySum]

theorem keySum_bump (l : List (Nat × ℚ)) (k : Nat) (w : ℚ) (t : Nat) :
    keySum (bump l k w) t = keySum l t + (if k = t then w else 0) := by
  induction l with
  | nil => simp [bump, keySum]
  | cons p rest ih =>
    by_cases h : p.1 = k
    · subst h
      simp only [bump, if_pos rfl, keySum_cons]
      by_cases ht : p.1 = t
      · simp [ht, keySum_cons]; ring
      · simp [ht, keySum_cons]
    · simp only [bump, if_neg h, keySum_cons, ih]
      ring

theorem mem_bump {l : List (Nat × ℚ)} {k : Nat} {w : ℚ} {e : Nat × ℚ}
    (h : e ∈ bump l k w) : e.1 = k ∨ e ∈ l := by
  induction l with
  | nil =>
    simp only [bump, List.mem_singleton] at h
    left; rw [h]
  | cons p rest ih =>
    by_cases hp : p.1 = k
    · simp only [bump, if_pos hp, List.mem_cons] at h
      rcases h with h | h
      · left; rw [h]; exact hp
      · right; simp [h]
    · simp only [bump, if_neg hp, List.mem_cons] at h
      rcases h with h | h
      · right; simp [h]
      · rcases ih h with h2 | h2
        · left; exact h2
        · right; simp [h2]

theorem valSum_map_div (l : List (Nat × ℚ)) (c : ℚ) :
    valSum (l.map (fun e => (e.1, e.2 / c))) = valSum l / c := by
  induction l with
  | nil => simp [valSum]
  | cons p rest ih => simp [valSum_cons, ih]; ring

theorem keySum_map_div (l : List (Nat × ℚ)) (c : ℚ) (t : Nat) :
    keySum (l.map (fun e => (e.1, e.2 / c))) t = keySum l t / c := by
  induction l with
  | nil => simp [keySum]
  | cons p rest ih =>
    by_cases h : p.1 = t
    · simp [keySum_cons, ih, h]; ring
    · simp [keySum_cons, ih, h]

theorem keySum_nonneg {l : List (Nat × ℚ)} (h : ∀ e ∈ l, 0 ≤ e.2) (t : Nat) :
    0 ≤ keySum l t := by
  induction l with
  | nil => simp [keySum]
  | cons p rest ih =>
    rw [keySum_cons]
    have h1 : 0 ≤ p.2 := h p (by simp)
    have h2 := ih (fun e he => h e (by simp [he]))
    by_cases hp : p.1 = t <;> simp [hp] <;> positivity

theorem keySum_le_valSum {l : List (Nat × ℚ)} (h : ∀ e ∈ l, 0 ≤ e.2) (t : Nat) :
    keySum l t ≤ valSum l := by
  induction l with
  | nil => simp [keySum, valSum]
  | cons p rest ih =>
    rw [keySum_cons, valSum_cons]
    have h1 : 0 ≤ p.2 := h p (by simp)
    have h2 := ih (fun e he => h e (by simp [he]))
    by_cases hp : p.1 = t <;> simp [hp] <;> linarith

/-- Summing `keySum` over all targets in `[0, n)` recovers `valSum`, provided
every key is below `n`. -/
theorem sum_keySum {l : List (Nat × ℚ)} {n : Nat} (h : ∀ e ∈ l, e.1 < n) :
    Finset.sum (Finset.range n) (fun t => keySum l t) = valSum l := by
  induction l with
  | nil => simp [keySum, valSum]
  | cons p rest ih =>
    have h1 : p.1 < n := h p (by simp)
    have h2 := ih (fun e he => h e (by simp [he]))
    simp only [keySum_cons, valSum_cons, Finset.sum_add_distrib, h2]
    congr 1
    rw [Finset.sum_ite_eq (Finset.range n) p.1 (fun _ => p.2)]
    simp [Finset.mem_range.mpr h1]

/-! ### `Link` build invariants -/

theorem assocFind_mem {β : Type} {l : List (Nat × β)} {k : Nat} {v : β}
    (h : assocFind l k = some v) : (k, v) ∈ l := by
  induction l with
  | nil => simp [assocFind] at h
  | cons p rest ih =>
    rw [assocFind] at h
    by_cases hp : p.1 = k
    · rw [if_pos hp] at h
      injection h with h
      have hpe : p = (k, v) := by
        obtain ⟨p1, p2⟩ := p
        simp only at hp h
        rw [hp, h]
      exact List.mem_cons.mpr (Or.inl hpe.symm)
    · rw [if_neg hp] at h
      exact List.mem_cons.mpr (Or.inr (ih h))

theorem nodeAt_append_lt {ns : List Node64} {i : Nat} (h : i < ns.length) (x : Node64) :
    nodeAt (ns ++ [x]) i = nodeAt ns i := by
  simp [nodeAt, List.getD_eq_getElem?_getD, List.getElem?_append, h]

theorem nodeAt_append_self (ns : List Node64) (x : Node64) :
    nodeAt (ns ++ [x]) ns.length = x := by
  simp [nodeAt, List.getD_eq_getElem?_getD, List.getElem?_concat_length]

theorem nodeAt_modifyNode_self {ns : List Node64} {i : Nat} (h : i < ns.length)
    (f : Node64 → Node64) : nodeAt (modifyNode ns i f) i = f (nodeAt ns i) := by
  simp [modifyNode, nodeAt_set_self h]

theorem nodeAt_modifyNode_ne {ns : List Node64} {i j : Nat} (h : i ≠ j)
    (f : Node64 → Node64) : nodeAt (modifyNode ns i f) j = nodeAt ns j := by
  simp [modifyNode, nodeAt_set_ne h]

/-- Out-of-bounds or at the fresh slot, the appended-node view. -/
theorem nodeAt_append_of_le {ns : List Node64} {i : Nat} (h : ns.length ≤ i) (x : Node64) :
    nodeAt (ns ++ [x]) i = if i = ns.length then x else {} := by
  rcases Nat.eq_or_lt_of_le h with h2 | h2
  · rw [if_pos h2.symm, ← h2]
    exact nodeAt_append_self ns x
  · rw [if_neg (by omega)]
    exact nodeAt_default (by simp; omega)

theorem ensure64_inv {g : Graph64} (hg : G64Inv g) (id : Nat) :
    G64Inv (ensure64 g id).1 ∧ (ensure64 g id).2 < (ensure64 g id).1.count ∧
    g.count ≤ (ensure64 g id).1.count ∧
    (∀ i, i < g.nodes.length → nodeAt (ensure64 g id).1.nodes i = nodeAt g.nodes i) := by
  obtain ⟨hc, hidx, hedge, hval, hw⟩ := hg
  rcases hfind : assocFind g.index id with _ | i
  · have he : ensure64 g id = ({ count := g.count + 1, index := g.index ++ [(id, g.count)], nodes := g.nodes ++ [{}] }, g.count) := by simp [ensure64, hfind]
    rw [he]
    have hnode : ∀ i, ¬ i < g.nodes.length →
        nodeAt (g.nodes ++ [({} : Node64)]) i = ({} : Node64) := by
      intro i hi
      rw [nodeAt_append_of_le (Nat.le_of_not_lt hi)]
      split <;> rfl
    refine ⟨⟨by simp [hc], ?_, ?_, ?_, ?_⟩, Nat.lt_succ_self _, Nat.le_succ _, ?_⟩
    · simp [hidx, List.range_succ, hc]
    · intro i e he
      by_cases hi : i < g.nodes.length
      · rw [nodeAt_append_lt hi] at he
        exact Nat.lt_succ_of_lt (hedge i e he)
      · rw [hnode i hi] at he
        simp at he
    · intro i
      by_cases hi : i < g.nodes.length
      · rw [nodeAt_append_lt hi]
        exact hval i
      · rw [hnode i hi]
        rfl
    · intro i
      by_cases hi : i < g.nodes.length
      · rw [nodeAt_append_lt hi]
        exact hw i
      · rw [hnode i hi]
        exact ⟨rfl, rfl⟩
    · intro i hi
      exact nodeAt_append_lt hi _
  · have he : ensure64 g id = (g, i) := by simp [ensure64, hfind]
    rw [he]
    refine ⟨⟨hc, hidx, hedge, hval, hw⟩, ?_, le_refl _, fun j hj => rfl⟩
    have hmem : i ∈ g.index.map (fun p => p.2) :=
      List.mem_map.mpr ⟨(id, i), assocFind_mem hfind, rfl⟩
    rw [hidx] at hmem
    exact List.mem_range.mp hmem

theorem ensure64_pre {g : Graph64} {s : Nat} {wt : ℚ} (hg : G64Pre g s wt)
    (hs : s < g.count) (id : Nat) :
    G64Pre (ensure64 g id).1 s wt ∧ (ensure64 g id).2 < (ensure64 g id).1.count ∧
    g.count ≤ (ensure64 g id).1.count ∧
    (∀ i, i < g.nodes.length → nodeAt (ensure64 g id).1.nodes i = nodeAt g.nodes i) := by
  obtain ⟨hc, hidx, hedge, hval, hw⟩ := hg
  rcases hfind : assocFind g.index id with _ | i
  · have he : ensure64 g id = ({ count := g.count + 1, index := g.index ++ [(id, g.count)], nodes := g.nodes ++ [{}] }, g.count) := by simp [ensure64, hfind]
    rw [he]
    have hnode : ∀ i, ¬ i < g.nodes.length →
        nodeAt (g.nodes ++ [({} : Node64)]) i = ({} : Node64) := by
      intro i hi
      rw [nodeAt_append_of_le (Nat.le_of_not_lt hi)]
      split <;> rfl
    refine ⟨⟨by simp [hc], ?_, ?_, ?_, ?_⟩, Nat.lt_succ_self _, Nat.le_succ _, ?_⟩
    · simp [hidx, List.range_succ, hc]
    · intro i e he
      by_cases hi : i < g.nodes.length
      · rw [nodeAt_append_lt hi] at he
        exact Nat.lt_succ_of_lt (hedge i e he)
      · rw [hnode i hi] at he
        simp at he
    · intro i
      by_cases hi : i < g.nodes.length
      · rw [nodeAt_append_lt hi]
        exact hval i
      · rw [hnode i hi]
        have : i ≠ s := by omega
        simp [this]
        rfl
    · intro i
      by_cases hi : i < g.nodes.length
      · rw [nodeAt_append_lt hi]
        exact hw i
      · rw [hnode i hi]
        exact ⟨rfl, rfl⟩
    · intro i hi
      exact nodeAt_append_lt hi _
  · have he : ensure64 g id = (g, i) := by simp [ensure64, hfind]
    rw [he]
    refine ⟨⟨hc, hidx, hedge, hval, hw⟩, ?_, le_refl _, fun j hj => rfl⟩
    have hmem : i ∈ g.index.map (fun p => p.2) :=
      List.mem_map.mpr ⟨(id, i), assocFind_mem hfind, rfl⟩
    rw [hidx] at hmem
    exact List.mem_range.mp hmem

theorem pre_step {g : Graph64} (hg : G64Inv g) {s : Nat} (hs : s < g.count) (wt : ℚ) :
    G64Pre { g with nodes := modifyNode g.nodes s (fun n => { n with outbound := n.outbound + wt }) } s wt := by
  obtain ⟨hc, hidx, hedge, hval, hw⟩ := hg
  have hslen : s < g.nodes.length := hc ▸ hs
  refine ⟨by simp [modifyNode, hc], hidx, ?_, ?_, ?_⟩
  · intro i e he
    by_cases hi : s = i
    · subst hi
      rw [nodeAt_modifyNode_self hslen] at he
      exact hedge s e he
    · rw [nodeAt_modifyNode_ne hi] at he
      exact hedge i e he
  · intro i
    by_cases hi : s = i
    · subst hi
      rw [nodeAt_modifyNode_self hslen]
      simp [hval s]
    · rw [nodeAt_modifyNode_ne hi]
      simp [hval i, Ne.symm hi]
  · intro i
    by_cases hi : s = i
    · subst hi
      rw [nodeAt_modifyNode_self hslen]
      exact hw s
    · rw [nodeAt_modifyNode_ne hi]
      exact hw i

theorem inv_of_pre_bump {g : Graph64} {s t : Nat} {wt : ℚ} (hp : G64Pre g s wt)
    (hs : s < g.count) (ht : t < g.count) :
    G64Inv { g with nodes := modifyNode g.nodes s (fun n => { n with edges := bump n.edges t wt }) } := by
  obtain ⟨hc, hidx, hedge, hval, hw⟩ := hp
  have hslen : s < g.nodes.length := hc ▸ hs
  refine ⟨by simp [modifyNode, hc], hidx, ?_, ?_, ?_⟩
  · intro i e he
    by_cases hi : s = i
    · subst hi
      rw [nodeAt_modifyNode_self hslen] at he
      rcases mem_bump he with h2 | h2
      · rw [h2]; exact ht
      · exact hedge s e h2
    · rw [nodeAt_modifyNode_ne hi] at he
      exact hedge i e he
  · intro i
    by_cases hi : s = i
    · subst hi
      rw [nodeAt_modifyNode_self hslen]
      simp only [valSum_bump]
      have := hval s
      simp at this
      simp [this]
    · rw [nodeAt_modifyNode_ne hi]
      have := hval i
      simp [Ne.symm hi] at this
      simp [this]
  · intro i
    by_cases hi : s = i
    · subst hi
      rw [nodeAt_modifyNode_self hslen]
      exact hw s
    · rw [nodeAt_modifyNode_ne hi]
      exact hw i

theorem linkStep1_pre {g : Graph64} (hg : G64Inv g) (src : Nat) (wt : ℚ) :
    G64Pre (linkStep1 g src wt).1 (linkStep1 g src wt).2 wt ∧
    (linkStep1 g src wt).2 < (linkStep1 g src wt).1.count := by
  obtain ⟨h1, hs1, hle1, hpres1⟩ := ensure64_inv hg src
  exact ⟨pre_step h1 hs1 wt, hs1⟩

theorem linkStep2_inv {gs : Graph64 × Nat} {wt : ℚ} (hp : G64Pre gs.1 gs.2 wt)
    (hs : gs.2 < gs.1.count) (tgt : Nat) : G64Inv (linkStep2 gs tgt wt) := by
  obtain ⟨h3, ht3, hle3, hpres3⟩ := ensure64_pre hp hs tgt
  exact inv_of_pre_bump h3 (lt_of_lt_of_le hs hle3) ht3

theorem link_inv {g : Graph64} (hg : G64Inv g) (src tgt : Nat) (wt : ℚ) :
    G64Inv (g.Link src tgt wt) := by
  obtain ⟨hp, hs⟩ := linkStep1_pre hg src wt
  exact linkStep2_inv hp hs tgt

theorem emptyG64_inv : G64Inv emptyG64 := by
  refine ⟨rfl, rfl, fun i e he => ?_, fun i => rfl, fun i => ⟨rfl, rfl⟩⟩
  simp [emptyG64, nodeAt] at he

theorem build_aux_inv : ∀ (ts : List (Nat × Nat × ℚ)) (g : Graph64), G64Inv g →
    G64Inv (ts.foldl (fun g e => g.Link e.1 e.2.1 e.2.2) g) := by
  intro ts
  induction ts with
  | nil => intro g h; exact h
  | cons e rest ih => intro g h; exact ih _ (link_inv h e.1 e.2.1 e.2.2)

theorem buildG64_inv (ts : List (Nat × Nat × ℚ)) : G64Inv (buildG64 ts) :=
  build_aux_inv ts emptyG64 emptyG64_inv

/-! ### `assocFind` and `ensure64` lookup lemmas -/

theorem assocFind_append_of_none {β : Type} {l l2 : List (Nat × β)} {k : Nat}
    (h : assocFind l k = none) : assocFind (l ++ l2) k = assocFind l2 k := by
  induction l with
  | nil => rfl
  | cons p rest ih =>
    rw [assocFind] at h
    by_cases hp : p.1 = k
    · rw [if_pos hp] at h
      exact absurd h (by simp)
    · rw [if_neg hp] at h
      rw [List.cons_append, assocFind, if_neg hp]
      exact ih h

theorem assocFind_append_of_some {β : Type} {l l2 : List (Nat × β)} {k : Nat} {v : β}
    (h : assocFind l k = some v) : assocFind (l ++ l2) k = some v := by
  induction l with
  | nil => simp [assocFind] at h
  | cons p rest ih =>
    rw [assocFind] at h
    by_cases hp : p.1 = k
    · rw [if_pos hp] at h
      rw [List.cons_append, assocFind, if_pos hp]
      exact h
    · rw [if_neg hp] at h
      rw [List.cons_append, assocFind, if_neg hp]
      exact ih h

theorem ensure64_find_self (g : Graph64) (id : Nat) :
    assocFind (ensure64 g id).1.index id = some (ensure64 g id).2 := by
  rcases hfind : assocFind g.index id with _ | i
  · have he : ensure64 g id = ({ count := g.count + 1, index := g.index ++ [(id, g.count)], nodes := g.nodes ++ [{}] }, g.count) := by
      simp [ensure64, hfind]
    rw [he]
    exact (assocFind_append_of_none hfind).trans (by simp [assocFind])
  · have he : ensure64 g id = (g, i) := by simp [ensure64, hfind]
    rw [he]
    exact hfind

theorem ensure64_find_pres {g : Graph64} {k : Nat} {v : Nat}
    (h : assocFind g.index k = some v) (id : Nat) :
    assocFind (ensure64 g id).1.index k = some v := by
  rcases hfind : assocFind g.index id with _ | i
  · have he : ensure64 g id = ({ count := g.count + 1, index := g.index ++ [(id, g.count)], nodes := g.nodes ++ [{}] }, g.count) := by
      simp [ensure64, hfind]
    rw [he]
    exact assocFind_append_of_some h
  · have he : ensure64 g id = (g, i) := by simp [ensure64, hfind]
    rw [he]
    exact h

/-! ### Nonnegativity invariants -/

theorem bump_nonneg {l : List (Nat × ℚ)} {k : Nat} {wt : ℚ}
    (hl : ∀ e ∈ l, 0 ≤ e.2) (hw : 0 ≤ wt) : ∀ e ∈ bump l k wt, 0 ≤ e.2 := by
  induction l with
  | nil =>
    intro e he
    simp only [bump, List.mem_singleton] at he
    rw [he]
    exact hw
  | cons p rest ih =>
    intro e he
    by_cases hp : p.1 = k
    · simp only [bump, if_pos hp, List.mem_cons] at he
      rcases he with he | he
      · rw [he]
        have := hl p (by simp)
        simpa using add_nonneg this hw
      · exact hl e (by simp [he])
    · simp only [bump, if_neg hp, List.mem_cons] at he
      rcases he with he | he
      · rw [he]; exact hl p (by simp)
      · exact ih (fun e2 h2 => hl e2 (by simp [h2])) e he

theorem ensure64_nonneg {g : Graph64} (hn : G64Nonneg g) (id : Nat) :
    G64Nonneg (ensure64 g id).1 := by
  obtain ⟨ho, he⟩ := hn
  rcases hfind : assocFind g.index id with _ | i
  · have heq : ensure64 g id = ({ count := g.count + 1, index := g.index ++ [(id, g.count)], nodes := g.nodes ++ [{}] }, g.count) := by
      simp [ensure64, hfind]
    rw [heq]
    have hnode : ∀ i, ¬ i < g.nodes.length →
        nodeAt (g.nodes ++ [({} : Node64)]) i = ({} : Node64) := by
      intro i hi
      rw [nodeAt_append_of_le (Nat.le_of_not_lt hi)]
      split <;> rfl
    constructor
    · intro i
      by_cases hi : i < g.nodes.length
      · rw [nodeAt_append_lt hi]; exact ho i
      · rw [hnode i hi]
    · intro i e hee
      by_cases hi : i < g.nodes.length
      · rw [nodeAt_append_lt hi] at hee; exact he i e hee
      · rw [hnode i hi] at hee; simp at hee
  · have heq : ensure64 g id = (g, i) := by simp [ensure64, hfind]
    rw [heq]
    exact ⟨ho, he⟩

theorem modify_nonneg {g : Graph64} (hn : G64Nonneg g) {s : Nat} {f : Node64 → Node64}
    (hf : 0 ≤ (f (nodeAt g.nodes s)).outbound)
    (hfe : ∀ e ∈ (f (nodeAt g.nodes s)).edges, 0 ≤ e.2) :
    G64Nonneg { g with nodes := modifyNode g.nodes s f } := by
  obtain ⟨ho, he⟩ := hn
  constructor
  · intro i
    by_cases hi : s = i
    · subst hi
      by_cases hlen : s < g.nodes.length
      · rw [nodeAt_modifyNode_self hlen]; exact hf
      · simp only [modifyNode]
        rw [List.set_eq_of_length_le (Nat.le_of_not_lt hlen)]
        exact ho s
    · rw [nodeAt_modifyNode_ne hi]; exact ho i
  · intro i e hee
    by_cases hi : s = i
    · subst hi
      by_cases hlen : s < g.nodes.length
      · rw [nodeAt_modifyNode_self hlen] at hee; exact hfe e hee
      · simp only [modifyNode] at hee
        rw [List.set_eq_of_length_le (Nat.le_of_not_lt hlen)] at hee
        exact he s e hee
    · rw [nodeAt_modifyNode_ne hi] at hee; exact he i e hee

theorem link_nonneg {g : Graph64} (hn : G64Nonneg g) (src tgt : Nat) {wt : ℚ}
    (hwt : 0 ≤ wt) : G64Nonneg (g.Link src tgt wt) := by
  have h1 := ensure64_nonneg hn src
  have h2 : G64Nonneg (linkStep1 g src wt).1 := by
    refine modify_nonneg h1 ?_ ?_
    · exact add_nonneg (h1.1 _) hwt
    · intro e hee
      exact h1.2 _ e hee
  have h3 := ensure64_nonneg h2 tgt
  refine modify_nonneg h3 ?_ ?_
  · exact h3.1 _
  · exact bump_nonneg (h3.2 _) hwt

theorem build_aux_nonneg : ∀ (ts : List (Nat × Nat × ℚ)) (g : Graph64),
    (∀ e ∈ ts, 0 ≤ e.2.2) → G64Nonneg g →
    G64Nonneg (ts.foldl (fun g e => g.Link e.1 e.2.1 e.2.2) g) := by
  intro ts
  induction ts with
  | nil => intro g hts h; exact h
  | cons e rest ih =>
    intro g hts h
    exact ih _ (fun e2 h2 => hts e2 (by simp [h2]))
      (link_nonneg h e.1 e.2.1 (hts e (by simp)))

theorem emptyG64_nonneg : G64Nonneg emptyG64 := by
  constructor
  · intro i; exact le_refl 0
  · intro i e hee; simp [emptyG64, nodeAt] at hee

theorem buildG64_nonneg {ts : List (Nat × Nat × ℚ)} (h : ∀ e ∈ ts, 0 ≤ e.2.2) :
    G64Nonneg (buildG64 ts) :=
  build_aux_nonneg ts emptyG64 h emptyG64_nonneg

/-! ### Effect of one `Link` call on observed weights -/

theorem keySum_eq_zero {l : List (Nat × ℚ)} {t : Nat} (h : ∀ e ∈ l, e.1 ≠ t) :
    keySum l t = 0 := by
  induction l with
  | nil => rfl
  | cons p rest ih =>
    rw [keySum_cons, if_neg (h p (by simp)), ih (fun e he => h e (by simp [he]))]
    ring

theorem link_effect {g : Graph64} (hg : G64Inv g) (src tgt : Nat) (wt : ℚ) :
    outOf (g.Link src tgt wt) src = outOf g src + wt ∧
    edgeW (g.Link src tgt wt) src tgt = edgeW g src tgt + wt ∧
    (assocFind (g.Link src tgt wt).index src).isSome = true ∧
    (assocFind (g.Link src tgt wt).index tgt).isSome = true := by
  obtain ⟨h1, hs1, hle1, hpres1⟩ := ensure64_inv hg src
  obtain ⟨h2p, hs2⟩ := linkStep1_pre hg src wt
  obtain ⟨h3p, ht3, hle3, hpres3⟩ := ensure64_pre h2p hs2 tgt
  have hfind1 : assocFind (ensure64 g src).1.index src = some (ensure64 g src).2 :=
    ensure64_find_self g src
  have hfind2 : assocFind (linkStep1 g src wt).1.index src = some (linkStep1 g src wt).2 :=
    hfind1
  have hfind3s : assocFind (ensure64 (linkStep1 g src wt).1 tgt).1.index src
      = some (linkStep1 g src wt).2 := ensure64_find_pres hfind2 tgt
  have hfind3t : assocFind (ensure64 (linkStep1 g src wt).1 tgt).1.index tgt
      = some (ensure64 (linkStep1 g src wt).1 tgt).2 := ensure64_find_self _ tgt
  have hresidx : (g.Link src tgt wt).index
      = (ensure64 (linkStep1 g src wt).1 tgt).1.index := rfl
  have hlen1 : (ensure64 g src).2 < (ensure64 g src).1.nodes.length := by
    rw [← h1.1]; exact hs1
  have hlen2 : (linkStep1 g src wt).2 < (linkStep1 g src wt).1.nodes.length := by
    rw [← h2p.1]; exact hs2
  have hlen3 : (linkStep1 g src wt).2 < (ensure64 (linkStep1 g src wt).1 tgt).1.nodes.length := by
    rw [← h3p.1]; exact lt_of_lt_of_le hs2 hle3
  have hn3 : nodeAt (ensure64 (linkStep1 g src wt).1 tgt).1.nodes (linkStep1 g src wt).2
      = nodeAt (linkStep1 g src wt).1.nodes (linkStep1 g src wt).2 := hpres3 _ hlen2
  have hn2 : nodeAt (linkStep1 g src wt).1.nodes (linkStep1 g src wt).2
      = { nodeAt (ensure64 g src).1.nodes (ensure64 g src).2 with
          outbound := (nodeAt (ensure64 g src).1.nodes (ensure64 g src).2).outbound + wt } :=
    nodeAt_modifyNode_self hlen1 (fun n => { n with outbound := n.outbound + wt })
  have hnres : nodeAt (g.Link src tgt wt).nodes (linkStep1 g src wt).2
      = { nodeAt (ensure64 (linkStep1 g src wt).1 tgt).1.nodes (linkStep1 g src wt).2 with
          edges := bump (nodeAt (ensure64 (linkStep1 g src wt).1 tgt).1.nodes (linkStep1 g src wt).2).edges (ensure64 (linkStep1 g src wt).1 tgt).2 wt } :=
    nodeAt_modifyNode_self hlen3 (fun n => { n with edges := bump n.edges (ensure64 (linkStep1 g src wt).1 tgt).2 wt })
  have hout_res : outOf (g.Link src tgt wt) src
      = (nodeAt (g.Link src tgt wt).nodes (linkStep1 g src wt).2).outbound := by
    simp only [outOf, hresidx, hfind3s]
  have hout_g : (nodeAt (ensure64 g src).1.nodes (ensure64 g src).2).outbound
      = outOf g src := by
    rcases hf0 : assocFind g.index src with _ | s0
    · have he : ensure64 g src = ({ count := g.count + 1, index := g.index ++ [(src, g.count)], nodes := g.nodes ++ [{}] }, g.count) := by
        simp [ensure64, hf0]
      rw [he]
      simp only [outOf, hf0]
      have hend : nodeAt (g.nodes ++ [({} : Node64)]) g.count = ({} : Node64) := by
        rw [hg.1]; exact nodeAt_append_self _ _
      show (nodeAt (g.nodes ++ [({} : Node64)]) g.count).outbound = 0
      rw [hend]
    · have he : ensure64 g src = (g, s0) := by simp [ensure64, hf0]
      rw [he]
      simp only [outOf, hf0]
  have hedg_res : edgeW (g.Link src tgt wt) src tgt
      = keySum (nodeAt (g.Link src tgt wt).nodes (linkStep1 g src wt).2).edges
          (ensure64 (linkStep1 g src wt).1 tgt).2 := by
    simp only [edgeW, hresidx, hfind3s, hfind3t]
  have hedg_g : keySum (nodeAt (ensure64 g src).1.nodes (ensure64 g src).2).edges
      (ensure64 (linkStep1 g src wt).1 tgt).2 = edgeW g src tgt := by
    rcases hf0 : assocFind g.index src with _ | s0
    · have he : ensure64 g src = ({ count := g.count + 1, index := g.index ++ [(src, g.count)], nodes := g.nodes ++ [{}] }, g.count) := by
        simp [ensure64, hf0]
      have hend : nodeAt (g.nodes ++ [({} : Node64)]) g.count = ({} : Node64) := by
        rw [hg.1]; exact nodeAt_append_self _ _
      rw [he]
      show keySum (nodeAt (g.nodes ++ [({} : Node64)]) g.count).edges _ = edgeW g src tgt
      rw [hend]
      simp only [edgeW, hf0]
      rfl
    · have he : ensure64 g src = (g, s0) := by simp [ensure64, hf0]
      have hidx1 : (linkStep1 g src wt).1.index = (ensure64 g src).1.index := rfl
      rcases hft0 : assocFind g.index tgt with _ | t0
      · -- target unknown in g: fresh dense index equals g.count, no edge entry hits it
        have hft2 : assocFind (linkStep1 g src wt).1.index tgt = none := by
          rw [hidx1, he]; exact hft0
        have he2 : ensure64 (linkStep1 g src wt).1 tgt = ({ count := (linkStep1 g src wt).1.count + 1, index := (linkStep1 g src wt).1.index ++ [(tgt, (linkStep1 g src wt).1.count)], nodes := (linkStep1 g src wt).1.nodes ++ [{}] }, (linkStep1 g src wt).1.count) := by
          simp [ensure64, hft2]
        have hcnt : (linkStep1 g src wt).1.count = g.count := by
          show (ensure64 g src).1.count = g.count
          rw [he]
        rw [he2]
        show keySum (nodeAt (ensure64 g src).1.nodes (ensure64 g src).2).edges (linkStep1 g src wt).1.count = edgeW g src tgt
        rw [hcnt, he]
        simp only [edgeW, hf0, hft0]
        refine keySum_eq_zero ?_
        intro e hee
        exact Nat.ne_of_lt (hg.2.2.1 s0 e hee)
      · have hft2 : assocFind (linkStep1 g src wt).1.index tgt = some t0 := by
          rw [hidx1, he]; exact hft0
        have he2 : ensure64 (linkStep1 g src wt).1 tgt = ((linkStep1 g src wt).1, t0) := by
          simp [ensure64, hft2]
        rw [he2, he]
        simp only [edgeW, hf0, hft0]
  refine ⟨?_, ?_, ?_, ?_⟩
  · rw [hout_res, hnres]
    show (nodeAt (ensure64 (linkStep1 g src wt).1 tgt).1.nodes (linkStep1 g src wt).2).outbound = outOf g src + wt
    rw [hn3, hn2]
    show (nodeAt (ensure64 g src).1.nodes (ensure64 g src).2).outbound + wt = outOf g src + wt
    rw [hout_g]
  · rw [hedg_res, hnres]
    show keySum (bump (nodeAt (ensure64 (linkStep1 g src wt).1 tgt).1.nodes (linkStep1 g src wt).2).edges (ensure64 (linkStep1 g src wt).1 tgt).2 wt) (ensure64 (linkStep1 g src wt).1 tgt).2 = edgeW g src tgt + wt
    rw [keySum_bump, if_pos rfl, hn3, hn2]
    show keySum (nodeAt (ensure64 g src).1.nodes (ensure64 g src).2).edges (ensure64 (linkStep1 g src wt).1 tgt).2 + wt = edgeW g src tgt + wt
    rw [hedg_g]
  · rw [hresidx, hfind3s]
    rfl
  · rw [hresidx, hfind3t]
    rfl

theorem nodeAt_eq_getElem {ns : List Node64} {i : Nat} (h : i < ns.length) :
    nodeAt ns i = ns[i] := by
  simp [nodeAt, List.getD_eq_getElem?_getD, List.getElem?_eq_getElem h]

/-- Claim C10: after any sequence of `Link` calls on a `Graph64`, every value
stored in the index map is less than `count`, `count` equals the length of the
nodes slice, and every target key in any node's edges map is itself a value of
the index map (hence less than `count`), so every `nodes[target]` and
`nodes[value]` access performed by `Rank` is within bounds. -/
theorem c10_build_safety (ts : List (Nat × Nat × ℚ)) :
    (∀ p ∈ (buildG64 ts).index, p.2 < (buildG64 ts).count) ∧
    (buildG64 ts).count = (buildG64 ts).nodes.length ∧
    (∀ n ∈ (buildG64 ts).nodes, ∀ e ∈ n.edges,
      (∃ q ∈ (buildG64 ts).index, q.2 = e.1) ∧ e.1 < (buildG64 ts).count) := by
  obtain ⟨hc, hidx, hedge, hval, hw⟩ := buildG64_inv ts
  refine ⟨?_, hc, ?_⟩
  · intro p hp
    have : p.2 ∈ (buildG64 ts).index.map (fun q => q.2) := List.mem_map.mpr ⟨p, hp, rfl⟩
    rw [hidx] at this
    exact List.mem_range.mp this
  · intro n hn e he
    obtain ⟨i, hi, hni⟩ := List.mem_iff_getElem.mp hn
    have hnode : nodeAt (buildG64 ts).nodes i = n := by rw [nodeAt_eq_getElem hi, hni]
    have hlt : e.1 < (buildG64 ts).count := hedge i e (by rw [hnode]; exact he)
    refine ⟨?_, hlt⟩
    have : e.1 ∈ (buildG64 ts).index.map (fun q => q.2) := by
      rw [hidx]; exact List.mem_range.mpr hlt
    obtain ⟨q, hq, hq2⟩ := List.mem_map.mp this
    exact ⟨q, hq, hq2⟩

/-- Claim C8: every call `Link(source, target, weight)` adds `weight` to the
source's outbound total and to the stored edge weight for the pair, creating
missing nodes and the edge entry as needed; repeated calls accumulate, so
after `Link(1,2,1)` twice the raw edge weight of 1→2 is 2, not 1. -/
theorem c8_link_accumulates {g : Graph64} (hg : G64Inv g) (src tgt : Nat) (wt : ℚ) :
    outOf (g.Link src tgt wt) src = outOf g src + wt ∧
    edgeW (g.Link src tgt wt) src tgt = edgeW g src tgt + wt ∧
    (assocFind (g.Link src tgt wt).index src).isSome = true ∧
    (assocFind (g.Link src tgt wt).index tgt).isSome = true ∧
    edgeW (buildG64 [(1, 2, 1), (1, 2, 1)]) 1 2 = 2 := by
  obtain ⟨h1, h2, h3, h4⟩ := link_effect hg src tgt wt
  exact ⟨h1, h2, h3, h4, by with_unfolding_all rfl⟩

/-- Witness for C8 at a concrete graph and weight. -/
theorem c8_link_accumulates_witness :
    outOf ((buildG64 [(5, 7, 2)]).Link 5 7 (3/2)) 5 = outOf (buildG64 [(5, 7, 2)]) 5 + 3/2 :=
  (c8_link_accumulates (buildG64_inv [(5, 7, 2)]) 5 7 (3/2)).1

/-! ### Normalization pass -/

theorem nodeAt_map {ns : List Node64} {i : Nat} {f : Node64 → Node64}
    (hf : f {} = {}) : nodeAt (ns.map f) i = f (nodeAt ns i) := by
  by_cases h : i < ns.length
  · have h2 : i < (ns.map f).length := by simpa using h
    rw [nodeAt_eq_getElem h2, nodeAt_eq_getElem h]
    simp
  · rw [nodeAt_default (by simpa using Nat.le_of_not_lt h),
      nodeAt_default (Nat.le_of_not_lt h), hf]

theorem normNode_default : normNode {} = {} := rfl

theorem nodeAt_normalizePass (ns : List Node64) (i : Nat) :
    nodeAt (normalizePass ns) i = normNode (nodeAt ns i) :=
  nodeAt_map normNode_default

/-- Claim C7: during the normalization pass of `Graph64.Rank` on a graph
built by `Link` calls, every node with positive outbound total has each of
its edge weights divided by that total exactly once, so that its edge
weights afterwards sum exactly to 1, and every node with zero outbound
total is left untouched. -/
theorem c7_normalization (ts : List (Nat × Nat × ℚ)) (i : Nat) :
    (0 < (nodeAt (buildG64 ts).nodes i).outbound →
      (nodeAt (normalizePass (buildG64 ts).nodes) i).edges
        = (nodeAt (buildG64 ts).nodes i).edges.map
            (fun e => (e.1, e.2 / (nodeAt (buildG64 ts).nodes i).outbound)) ∧
      valSum (nodeAt (normalizePass (buildG64 ts).nodes) i).edges = 1) ∧
    ((nodeAt (buildG64 ts).nodes i).outbound = 0 →
      nodeAt (normalizePass (buildG64 ts).nodes) i = nodeAt (buildG64 ts).nodes i) := by
  obtain ⟨hc, hidx, hedge, hval, hw⟩ := buildG64_inv ts
  rw [nodeAt_normalizePass]
  constructor
  · intro hpos
    rw [normNode, if_pos hpos]
    refine ⟨rfl, ?_⟩
    show valSum ((nodeAt (buildG64 ts).nodes i).edges.map
      (fun e => (e.1, e.2 / (nodeAt (buildG64 ts).nodes i).outbound))) = 1
    rw [valSum_map_div, hval i]
    exact div_self (ne_of_gt hpos)
  · intro hzero
    rw [normNode, if_neg (by rw [hzero]; exact lt_irrefl 0)]

/-- Witness for C7: a two-edge node, each normalized weight is 1/2 and the
sum is 1. -/
theorem c7_normalization_witness :
    valSum (nodeAt (normalizePass (buildG64 [(1, 2, 2), (1, 3, 2)]).nodes) 0).edges = 1 :=
  ((c7_normalization [(1, 2, 2), (1, 3, 2)] 0).1
    (of_decide_eq_true (by with_unfolding_all rfl))).2

/-! ### Bridging list folds and `Finset.range` sums -/

theorem nodeAt_cons_zero (hd : Node64) (tl : List Node64) : nodeAt (hd :: tl) 0 = hd := rfl

theorem nodeAt_cons_succ (hd : Node64) (tl : List Node64) (i : Nat) :
    nodeAt (hd :: tl) (i + 1) = nodeAt tl i := rfl

theorem sum_range_nodeAt (f : Node64 → ℚ) :
    ∀ ns : List Node64,
    Finset.sum (Finset.range ns.length) (fun i => f (nodeAt ns i)) = (ns.map f).sum := by
  intro ns
  induction ns with
  | nil => simp
  | cons hd tl ih =>
    rw [List.length_cons, Finset.sum_range_succ']
    simp only [nodeAt_cons_succ, nodeAt_cons_zero]
    rw [ih]
    simp [add_comm]

/-! ### The update pass: scatter fold equals a gather sum -/

theorem modifyW_spec (ns : List Node64) (i : Nat) (b : Bool) (f : ℚ → ℚ) :
    (modifyW ns i b f).length = ns.length ∧
    (∀ j, (nodeAt (modifyW ns i b f) j).w (!b) = (nodeAt ns j).w (!b)) ∧
    (∀ j, (nodeAt (modifyW ns i b f) j).edges = (nodeAt ns j).edges) ∧
    (∀ j, (nodeAt (modifyW ns i b f) j).outbound = (nodeAt ns j).outbound) ∧
    (∀ j, j < ns.length → (nodeAt (modifyW ns i b f) j).w b
      = if j = i then f ((nodeAt ns j).w b) else (nodeAt ns j).w b) := by
  by_cases hi : i < ns.length
  · refine ⟨length_modifyW ns i b f, ?_, ?_, ?_, ?_⟩
    · intro j
      by_cases hj : i = j
      · subst hj
        rw [nodeAt_modifyW_self hi, w_setW_other]
      · rw [nodeAt_modifyW_ne hj]
    · intro j
      by_cases hj : i = j
      · subst hj
        rw [nodeAt_modifyW_self hi, edges_setW]
      · rw [nodeAt_modifyW_ne hj]
    · intro j
      by_cases hj : i = j
      · subst hj
        rw [nodeAt_modifyW_self hi, outbound_setW]
      · rw [nodeAt_modifyW_ne hj]
    · intro j hj
      by_cases hj2 : j = i
      · subst hj2
        rw [nodeAt_modifyW_self hi, w_setW_same, if_pos rfl]
      · rw [nodeAt_modifyW_ne (fun h => hj2 h.symm), if_neg hj2]
  · have hnoop : modifyW ns i b f = ns := by
      simp only [modifyW]
      exact List.set_eq_of_length_le (Nat.le_of_not_lt hi)
    rw [hnoop]
    refine ⟨rfl, fun j => rfl, fun j => rfl, fun j => rfl, fun j hj => ?_⟩
    rw [if_neg (by omega)]

theorem pushFold_spec (aa : ℚ) (b : Bool) :
    ∀ (es : List (Nat × ℚ)) (ns : List Node64),
    ((es.foldl (fun ms e => modifyW ms e.1 b (fun x => x + aa * e.2)) ns).length = ns.length) ∧
    (∀ t, (nodeAt (es.foldl (fun ms e => modifyW ms e.1 b (fun x => x + aa * e.2)) ns) t).w (!b)
      = (nodeAt ns t).w (!b)) ∧
    (∀ t, (nodeAt (es.foldl (fun ms e => modifyW ms e.1 b (fun x => x + aa * e.2)) ns) t).edges
      = (nodeAt ns t).edges) ∧
    (∀ t, (nodeAt (es.foldl (fun ms e => modifyW ms e.1 b (fun x => x + aa * e.2)) ns) t).outbound
      = (nodeAt ns t).outbound) ∧
    (∀ t, t < ns.length →
      (nodeAt (es.foldl (fun ms e => modifyW ms e.1 b (fun x => x + aa * e.2)) ns) t).w b
        = (nodeAt ns t).w b + aa * keySum es t) := by
  intro es
  induction es with
  | nil =>
    intro ns
    exact ⟨rfl, fun t => rfl, fun t => rfl, fun t => rfl,
      fun t ht => by simp [keySum_nil]⟩
  | cons e rest ih =>
    intro ns
    obtain ⟨ml, mwo, me, mo, mwb⟩ :=
      modifyW_spec ns e.1 b (fun x => x + aa * e.2)
    obtain ⟨il, iwo, ie, io, iwb⟩ := ih (modifyW ns e.1 b (fun x => x + aa * e.2))
    rw [List.foldl_cons]
    refine ⟨il.trans ml, fun t => (iwo t).trans (mwo t), fun t => (ie t).trans (me t),
      fun t => (io t).trans (mo t), ?_⟩
    intro t ht
    rw [iwb t (by rw [ml]; exact ht), mwb t ht, keySum_cons]
    by_cases hte : t = e.1
    · rw [if_pos hte, if_pos (by rw [hte])]
      ring
    · rw [if_neg hte, if_neg (fun h => hte h.symm)]
      ring

theorem updateNode_spec (α adj : ℚ) (a : Bool) (ns : List Node64) (s : Nat) :
    ((updateNode α adj a ns s).length = ns.length) ∧
    (∀ t, (nodeAt (updateNode α adj a ns s) t).w a = (nodeAt ns t).w a) ∧
    (∀ t, (nodeAt (updateNode α adj a ns s) t).edges = (nodeAt ns t).edges) ∧
    (∀ t, (nodeAt (updateNode α adj a ns s) t).outbound = (nodeAt ns t).outbound) ∧
    (∀ t, t < ns.length →
      (nodeAt (updateNode α adj a ns s) t).w (!a)
        = (nodeAt ns t).w (!a)
          + α * (nodeAt ns s).w a * keySum (nodeAt ns s).edges t
          + (if t = s then adj else 0)) := by
  obtain ⟨pl, pwo, pe, po, pwb⟩ :=
    pushFold_spec (α * (nodeAt ns s).w a) (!a) (nodeAt ns s).edges ns
  obtain ⟨ml, mwo, me, mo, mwb⟩ :=
    modifyW_spec ((nodeAt ns s).edges.foldl
      (fun ms e => modifyW ms e.1 (!a) (fun x => x + α * (nodeAt ns s).w a * e.2)) ns)
      s (!a) (fun x => x + adj)
  have hwa : ∀ t, (nodeAt (updateNode α adj a ns s) t).w a = (nodeAt ns t).w a := by
    intro t
    show (nodeAt (modifyW _ s (!a) (fun x => x + adj)) t).w a = _
    have h1 := mwo t
    rw [Bool.not_not] at h1
    have h2 := pwo t
    rw [Bool.not_not] at h2
    exact h1.trans h2
  refine ⟨ml.trans pl, hwa, fun t => (me t).trans (pe t), fun t => (mo t).trans (po t), ?_⟩
  intro t ht
  have ht2 : t < ((nodeAt ns s).edges.foldl
      (fun ms e => modifyW ms e.1 (!a) (fun x => x + α * (nodeAt ns s).w a * e.2)) ns).length := by
    rw [pl]; exact ht
  show (nodeAt (modifyW _ s (!a) (fun x => x + adj)) t).w (!a) = _
  rw [mwb t ht2, pwb t ht]
  by_cases hts : t = s
  · rw [if_pos hts, if_pos hts]
  · rw [if_neg hts, if_neg hts]
    ring

theorem updateRange_spec (α adj : ℚ) (a : Bool) (ns : List Node64) :
    ∀ k : Nat,
    (((List.range k).foldl (updateNode α adj a) ns).length = ns.length) ∧
    (∀ t, (nodeAt ((List.range k).foldl (updateNode α adj a) ns) t).w a
      = (nodeAt ns t).w a) ∧
    (∀ t, (nodeAt ((List.range k).foldl (updateNode α adj a) ns) t).edges
      = (nodeAt ns t).edges) ∧
    (∀ t, (nodeAt ((List.range k).foldl (updateNode α adj a) ns) t).outbound
      = (nodeAt ns t).outbound) ∧
    (∀ t, t < ns.length →
      (nodeAt ((List.range k).foldl (updateNode α adj a) ns) t).w (!a)
        = (nodeAt ns t).w (!a)
          + α * Finset.sum (Finset.range k)
              (fun s => (nodeAt ns s).w a * keySum (nodeAt ns s).edges t)
          + (if t < k then adj else 0)) := by
  intro k
  induction k with
  | zero =>
    refine ⟨rfl, fun t => rfl, fun t => rfl, fun t => rfl, fun t ht => ?_⟩
    simp
  | succ k ih =>
    obtain ⟨il, iwa, ie, io, iwb⟩ := ih
    obtain ⟨ul, uwa, ue, uo, uwb⟩ :=
      updateNode_spec α adj a ((List.range k).foldl (updateNode α adj a) ns) k
    have hfold : (List.range (k + 1)).foldl (updateNode α adj a) ns
        = updateNode α adj a ((List.range k).foldl (updateNode α adj a) ns) k := by
      rw [List.range_succ, List.foldl_append, List.foldl_cons, List.foldl_nil]
    rw [hfold]
    refine ⟨ul.trans il, fun t => (uwa t).trans (iwa t), fun t => (ue t).trans (ie t),
      fun t => (uo t).trans (io t), ?_⟩
    intro t ht
    rw [uwb t (by rw [il]; exact ht), iwb t ht, iwa k, ie k, Finset.sum_range_succ]
    by_cases htk : t = k
    · subst htk
      rw [if_neg (lt_irrefl t), if_pos (Nat.lt_succ_self t), if_pos rfl]
      ring
    · rw [if_neg htk]
      by_cases htk2 : t < k
      · rw [if_pos htk2, if_pos (Nat.lt_succ_of_lt htk2)]
        ring
      · rw [if_neg htk2, if_neg (by omega)]
        ring

theorem updatePass_spec (α adj : ℚ) (a : Bool) (ns : List Node64) :
    ((updatePass α adj a ns).length = ns.length) ∧
    (∀ t, (nodeAt (updatePass α adj a ns) t).w a = (nodeAt ns t).w a) ∧
    (∀ t, (nodeAt (updatePass α adj a ns) t).edges = (nodeAt ns t).edges) ∧
    (∀ t, (nodeAt (updatePass α adj a ns) t).outbound = (nodeAt ns t).outbound) ∧
    (∀ t, t < ns.length →
      (nodeAt (updatePass α adj a ns) t).w (!a)
        = (nodeAt ns t).w (!a)
          + α * Finset.sum (Finset.range ns.length)
              (fun s => (nodeAt ns s).w a * keySum (nodeAt ns s).edges t)
          + adj) := by
  obtain ⟨l, wa, e, o, wb⟩ := updateRange_spec α adj a ns ns.length
  refine ⟨l, wa, e, o, fun t ht => ?_⟩
  rw [updatePass, wb t ht, if_pos ht]

/-! ### The delta/leak pass -/

theorem delta_branch (x y d : ℚ) :
    (if x - y < 0 then d - (x - y) else d + (x - y)) = d + |x - y| := by
  by_cases h : x - y < 0
  · rw [if_pos h, abs_of_neg h]
    ring
  · rw [if_neg h, abs_of_nonneg (le_of_not_lt h)]

theorem deltaRange_spec (a : Bool) (ns : List Node64) :
    ∀ k : Nat, k ≤ ns.length →
    (((List.range k).foldl (deltaStep a) (0, 0, ns)).2.2.length = ns.length) ∧
    (∀ t, k ≤ t →
      nodeAt ((List.range k).foldl (deltaStep a) (0, 0, ns)).2.2 t = nodeAt ns t) ∧
    (∀ t, t < k →
      nodeAt ((List.range k).foldl (deltaStep a) (0, 0, ns)).2.2 t
        = (nodeAt ns t).setW a 0) ∧
    (((List.range k).foldl (deltaStep a) (0, 0, ns)).1
      = Finset.sum (Finset.range k)
          (fun s => |(nodeAt ns s).w a - (nodeAt ns s).w (!a)|)) ∧
    (((List.range k).foldl (deltaStep a) (0, 0, ns)).2.1
      = Finset.sum (Finset.range k)
          (fun s => if (nodeAt ns s).outbound = 0 then (nodeAt ns s).w (!a) else 0)) := by
  intro k
  induction k with
  | zero =>
    intro hk
    exact ⟨rfl, fun t ht => rfl, fun t ht => absurd ht (Nat.not_lt_zero t),
      by simp, by simp⟩
  | succ k ih =>
    intro hk
    obtain ⟨il, isuf, ipre, idelta, ileak⟩ := ih (Nat.le_of_succ_le hk)
    have hfold : (List.range (k + 1)).foldl (deltaStep a) (0, 0, ns)
        = deltaStep a ((List.range k).foldl (deltaStep a) (0, 0, ns)) k := by
      rw [List.range_succ, List.foldl_append, List.foldl_cons, List.foldl_nil]
    have hnk : nodeAt ((List.range k).foldl (deltaStep a) (0, 0, ns)).2.2 k
        = nodeAt ns k := isuf k (le_refl k)
    have hklen : k < ((List.range k).foldl (deltaStep a) (0, 0, ns)).2.2.length := by
      rw [il]; omega
    rw [hfold]
    refine ⟨?_, ?_, ?_, ?_, ?_⟩
    · show (modifyW _ k a (fun _ => 0)).length = ns.length
      rw [length_modifyW]
      exact il
    · intro t ht
      show nodeAt (modifyW _ k a (fun _ => 0)) t = nodeAt ns t
      rw [nodeAt_modifyW_ne (by omega)]
      exact isuf t (by omega)
    · intro t ht
      show nodeAt (modifyW _ k a (fun _ => 0)) t = (nodeAt ns t).setW a 0
      by_cases htk : t = k
      · subst htk
        rw [nodeAt_modifyW_self hklen, hnk]
      · rw [nodeAt_modifyW_ne (fun h => htk h.symm)]
        exact ipre t (by omega)
    · show (if (nodeAt _ k).w a - (nodeAt _ k).w (!a) < 0 then _ else _) = _
      rw [hnk, idelta, delta_branch, Finset.sum_range_succ]
    · show (if (nodeAt _ k).outbound = 0 then _ + (nodeAt _ k).w (!a) else _) = _
      rw [hnk, ileak, Finset.sum_range_succ]
      by_cases hdang : (nodeAt ns k).outbound = 0
      · rw [if_pos hdang, if_pos hdang]
      · rw [if_neg hdang, if_neg hdang, add_zero]

theorem deltaPass_spec (a : Bool) (ns : List Node64) :
    ((deltaPass a ns).2.2.length = ns.length) ∧
    (∀ t, nodeAt (deltaPass a ns).2.2 t = (nodeAt ns t).setW a 0) ∧
    ((deltaPass a ns).1
      = Finset.sum (Finset.range ns.length)
          (fun s => |(nodeAt ns s).w a - (nodeAt ns s).w (!a)|)) ∧
    ((deltaPass a ns).2.1
      = Finset.sum (Finset.range ns.length)
          (fun s => if (nodeAt ns s).outbound = 0 then (nodeAt ns s).w (!a) else 0)) := by
  obtain ⟨l, suf, pre, d, lk⟩ := deltaRange_spec a ns ns.length (le_refl _)
  refine ⟨l, fun t => ?_, d, lk⟩
  by_cases ht : t < ns.length
  · exact pre t ht
  · show nodeAt ((List.range ns.length).foldl (deltaStep a) (0, 0, ns)).2.2 t
        = (nodeAt ns t).setW a 0
    rw [suf t (Nat.le_of_not_lt ht), nodeAt_default (Nat.le_of_not_lt ht)]
    cases a <;> rfl

/-! ### Initialization and the loop-state invariant -/

theorem normNode_weight0 (n : Node64) : (normNode n).weight0 = n.weight0 := by
  rw [normNode]; split <;> rfl

theorem normNode_weight1 (n : Node64) : (normNode n).weight1 = n.weight1 := by
  rw [normNode]; split <;> rfl

theorem normNode_outbound (n : Node64) : (normNode n).outbound = n.outbound := by
  rw [normNode]; split <;> rfl

theorem length_normalizePass (ns : List Node64) :
    (normalizePass ns).length = ns.length := by simp [normalizePass]

theorem length_initPass (inv : ℚ) (ns : List Node64) :
    (initPass inv ns).length = ns.length := by simp [initPass]

theorem nodeAt_initPass (inv : ℚ) (ns : List Node64) (t : Nat) :
    nodeAt (initPass inv ns) t
      = if t < ns.length then { nodeAt ns t with weight0 := inv } else {} := by
  by_cases ht : t < ns.length
  · rw [if_pos ht]
    have ht2 : t < (initPass inv ns).length := by rw [length_initPass]; exact ht
    rw [nodeAt_eq_getElem ht2, nodeAt_eq_getElem ht]
    simp [initPass]
  · rw [if_neg ht, nodeAt_default (by rw [length_initPass]; omega)]

theorem initLeak_foldl (inv : ℚ) :
    ∀ (ns : List Node64) (c : ℚ),
    ns.foldl (fun l n => if n.outbound = 0 then l + inv else l) c
      = c + (ns.map (fun n => if n.outbound = 0 then inv else 0)).sum := by
  intro ns
  induction ns with
  | nil => intro c; simp
  | cons hd tl ih =>
    intro c
    rw [List.foldl_cons, ih, List.map_cons, List.sum_cons]
    by_cases h : hd.outbound = 0
    · rw [if_pos h, if_pos h]
      ring
    · rw [if_neg h, if_neg h]
      ring

theorem initLeak_eq (inv : ℚ) (ns : List Node64) :
    initLeak inv ns = Finset.sum (Finset.range ns.length)
      (fun s => if (nodeAt ns s).outbound = 0 then inv else 0) := by
  rw [initLeak, initLeak_foldl, zero_add,
    sum_range_nodeAt (fun n => if n.outbound = 0 then inv else 0) ns]

theorem iterBody_a (α inv : ℚ) (st : RState) : (iterBody α inv st).a = !st.a := rfl

theorem iterBody_nodes (α inv : ℚ) (st : RState) :
    (iterBody α inv st).nodes
      = (deltaPass st.a (updatePass α (adjOf α inv st.leak) st.a st.nodes)).2.2 := rfl

theorem iterBody_delta (α inv : ℚ) (st : RState) :
    (iterBody α inv st).delta
      = (deltaPass st.a (updatePass α (adjOf α inv st.leak) st.a st.nodes)).1 := rfl

theorem iterBody_leak (α inv : ℚ) (st : RState) :
    (iterBody α inv st).leak
      = (deltaPass st.a (updatePass α (adjOf α inv st.leak) st.a st.nodes)).2.1 := rfl

theorem initSt_inv {g : Graph64} (hg1 : ∀ i, (nodeAt g.nodes i).weight1 = 0) :
    StInv g (initSt g) := by
  have hln : (normalizePass g.nodes).length = g.nodes.length := length_normalizePass g.nodes
  refine ⟨?_, ?_, ?_, ?_, ?_⟩
  · show (initPass g.inv (normalizePass g.nodes)).length = g.nodes.length
    rw [length_initPass, hln]
  · intro t
    show (nodeAt (initPass g.inv (normalizePass g.nodes)) t).edges = _
    rw [nodeAt_initPass]
    by_cases ht : t < (normalizePass g.nodes).length
    · rw [if_pos ht]
    · rw [if_neg ht, nodeAt_default (by omega)]
  · intro t
    show (nodeAt (initPass g.inv (normalizePass g.nodes)) t).outbound = _
    rw [nodeAt_initPass]
    by_cases ht : t < (normalizePass g.nodes).length
    · rw [if_pos ht]
      show (nodeAt (normalizePass g.nodes) t).outbound = _
      rw [nodeAt_normalizePass, normNode_outbound]
    · rw [if_neg ht, nodeAt_default (by omega)]
  · intro t
    show (nodeAt (initPass g.inv (normalizePass g.nodes)) t).w (!(false : Bool)) = 0
    rw [nodeAt_initPass]
    by_cases ht : t < (normalizePass g.nodes).length
    · rw [if_pos ht]
      show (nodeAt (normalizePass g.nodes) t).weight1 = 0
      rw [nodeAt_normalizePass, normNode_weight1]
      exact hg1 t
    · rw [if_neg ht]
      rfl
  · show initLeak g.inv (initPass g.inv (normalizePass g.nodes)) = _
    rw [initLeak_eq, length_initPass, hln]
    refine Finset.sum_congr rfl ?_
    intro s hs
    have hs2 : s < (normalizePass g.nodes).length := by
      rw [hln]; exact List.mem_range.mp hs
    have hnode : nodeAt (initPass g.inv (normalizePass g.nodes)) s
        = { nodeAt (normalizePass g.nodes) s with weight0 := g.inv } := by
      rw [nodeAt_initPass, if_pos hs2]
    show (if (nodeAt (initPass g.inv (normalizePass g.nodes)) s).outbound = 0 then g.inv else 0)
      = (if (nodeAt (initSt g).nodes s).outbound = 0 then curW (initSt g) s else 0)
    have hcur : curW (initSt g) s = g.inv := by
      show (nodeAt (initPass g.inv (normalizePass g.nodes)) s).w false = g.inv
      rw [hnode]
      rfl
    rw [hcur]
    rfl

theorem iterBody_inv {g : Graph64} {st : RState} (h : StInv g st) (α inv : ℚ) :
    StInv g (iterBody α inv st) := by
  obtain ⟨hlen, hedges, hout, hzero, hleak⟩ := h
  obtain ⟨ul, uwa, ue, uo, uwb⟩ :=
    updatePass_spec α (adjOf α inv st.leak) st.a st.nodes
  obtain ⟨dl, dnode, dd, dlk⟩ :=
    deltaPass_spec st.a (updatePass α (adjOf α inv st.leak) st.a st.nodes)
  refine ⟨?_, ?_, ?_, ?_, ?_⟩
  · rw [iterBody_nodes, dl, ul, hlen]
  · intro t
    rw [iterBody_nodes, dnode t, edges_setW, ue t, hedges t]
  · intro t
    rw [iterBody_nodes, dnode t, outbound_setW, uo t, hout t]
  · intro t
    rw [iterBody_nodes, iterBody_a, Bool.not_not, dnode t, w_setW_same]
  · rw [iterBody_leak, iterBody_nodes, dlk, ul, hlen]
    refine Finset.sum_congr rfl ?_
    intro s hs
    have hcw : curW (iterBody α inv st) s
        = (nodeAt (updatePass α (adjOf α inv st.leak) st.a st.nodes) s).w (!st.a) := by
      show (nodeAt (iterBody α inv st).nodes s).w (iterBody α inv st).a = _
      rw [iterBody_nodes, iterBody_a, dnode s, w_setW_other]
    rw [hcw, dnode s, outbound_setW, uo s, hout s]
  
theorem iterState_inv {g : Graph64} (hg1 : ∀ i, (nodeAt g.nodes i).weight1 = 0)
    (α : ℚ) (k : Nat) : StInv g (iterState64 g α k) := by
  induction k with
  | zero => exact initSt_inv hg1
  | succ k ih =>
    rw [iterState64, Function.iterate_succ_apply']
    exact iterBody_inv ih α g.inv

theorem curW_initSt {g : Graph64} {t : Nat} (ht : t < g.nodes.length) :
    curW (initSt g) t = g.inv := by
  have ht2 : t < (normalizePass g.nodes).length := by
    rw [length_normalizePass]; exact ht
  show (nodeAt (initPass g.inv (normalizePass g.nodes)) t).w false = g.inv
  rw [nodeAt_initPass, if_pos ht2]
  rfl

/-- Claim C1: for every `Link`-built graph with at least one node, on each
iteration of `Graph64.Rank`, after the update pass completes every node `t`'s
next slot holds exactly the damped inbound sum plus the teleportation
adjustment: `α * Σ_s current(s)·edges(s)[t] + (1-α)/N + α·leak/N`, where
`current` is the rank vector at the end of the previous iteration (the
uniform prior `1/N` before the first iteration, second conjunct) and `leak`
is the mass sitting on dangling nodes in that vector. -/
theorem c1_update_formula (ts : List (Nat × Nat × ℚ)) (α : ℚ) (k t : Nat)
    (_hN : 1 ≤ (buildG64 ts).nodes.length) (ht : t < (buildG64 ts).nodes.length) :
    ((nodeAt (updatePass α
        (adjOf α (buildG64 ts).inv (iterState64 (buildG64 ts) α k).leak)
        (iterState64 (buildG64 ts) α k).a (iterState64 (buildG64 ts) α k).nodes) t).w
        (!(iterState64 (buildG64 ts) α k).a)
      = α * Finset.sum (Finset.range (buildG64 ts).nodes.length)
          (fun s => curW (iterState64 (buildG64 ts) α k) s
            * keySum (nodeAt (iterState64 (buildG64 ts) α k).nodes s).edges t)
        + (1 - α) / ((buildG64 ts).nodes.length : ℚ)
        + α * (Finset.sum (Finset.range (buildG64 ts).nodes.length)
            (fun s => if (nodeAt (iterState64 (buildG64 ts) α k).nodes s).outbound = 0
              then curW (iterState64 (buildG64 ts) α k) s else 0))
          / ((buildG64 ts).nodes.length : ℚ)) ∧
    (∀ s, s < (buildG64 ts).nodes.length →
      curW (iterState64 (buildG64 ts) α 0) s = 1 / ((buildG64 ts).nodes.length : ℚ)) := by
  have hg1 : ∀ i, (nodeAt (buildG64 ts).nodes i).weight1 = 0 :=
    fun i => ((buildG64_inv ts).2.2.2.2 i).2
  obtain ⟨hlen, hedges, hout, hzero, hleak⟩ := iterState_inv hg1 α k
  obtain ⟨ul, uwa, ue, uo, uwb⟩ := updatePass_spec α
    (adjOf α (buildG64 ts).inv (iterState64 (buildG64 ts) α k).leak)
    (iterState64 (buildG64 ts) α k).a (iterState64 (buildG64 ts) α k).nodes
  constructor
  · have ht2 : t < (iterState64 (buildG64 ts) α k).nodes.length := by rw [hlen]; exact ht
    rw [uwb t ht2, hzero t, hleak, hlen]
    show 0 + α * _ + adjOf α (buildG64 ts).inv _ = _
    rw [adjOf, Graph64.inv]
    simp only [curW]
    ring
  · intro s hs
    exact curW_initSt hs

/-- Witness for C1: the uniform prior on a two-node graph is 1/2. -/
theorem c1_update_formula_witness :
    curW (iterState64 (buildG64 [(1, 2, 1)]) (1/2) 0) 0 = 1/2 :=
  ((c1_update_formula [(1, 2, 1)] (1/2) 0 0
      (of_decide_eq_true (by with_unfolding_all rfl))
      (of_decide_eq_true (by with_unfolding_all rfl))).2 0
      (of_decide_eq_true (by with_unfolding_all rfl))).trans
    (by with_unfolding_all rfl)

/-! ### The first-iteration adjustment (C5) -/

theorem filter_length_sum (c : ℚ) :
    ∀ ns : List Node64,
    ((ns.filter (fun n => n.outbound = 0)).length : ℚ) * c
      = (ns.map (fun n => if n.outbound = 0 then c else 0)).sum := by
  intro ns
  induction ns with
  | nil => simp
  | cons hd tl ih =>
    by_cases h : hd.outbound = 0
    · rw [List.filter_cons_of_pos (by simp [h]), List.length_cons, List.map_cons,
        List.sum_cons, if_pos h]
      push_cast
      rw [← ih]
      ring
    · rw [List.filter_cons_of_neg (by simp [h]), List.map_cons, List.sum_cons, if_neg h]
      rw [← ih]
      ring

/-- Counterexample to claim C5 as stated: on the graph `Link(1,2,1)` (node 2
dangling) with `α = 1/2`, the first-iteration adjustment is `3/8`, not
`(1-α)/N = 1/4` — the code initializes `leak` to the dangling share of the
uniform prior, not to 0. -/
theorem c5_counterexample :
    firstAdjustment (buildG64 [(1, 2, 1)]) (1/2)
      ≠ (1 - 1/2) / (((buildG64 [(1, 2, 1)]).nodes.length : ℚ)) :=
  of_decide_eq_true (by with_unfolding_all rfl)

/-- Claim C5 amended: the first-iteration adjustment of `Graph64.Rank`
equals `(1-α)/N + α·(D/N)/N`, where `D` is the number of dangling nodes —
i.e. `leak` starts as the dangling share `D/N` of the uniform prior, which
is 0 exactly when no node is dangling. -/
theorem c5_amended (g : Graph64) (α : ℚ) :
    firstAdjustment g α
      = (1 - α) / (g.nodes.length : ℚ)
        + α * ((danglingCount g.nodes : ℚ) / (g.nodes.length : ℚ))
          / (g.nodes.length : ℚ) := by
  have hleak : (initSt g).leak = (danglingCount g.nodes : ℚ) * g.inv := by
    show initLeak g.inv (initPass g.inv (normalizePass g.nodes)) = _
    rw [initLeak_eq, length_initPass, length_normalizePass]
    have hcong : ∀ s ∈ Finset.range g.nodes.length,
        (if (nodeAt (initPass g.inv (normalizePass g.nodes)) s).outbound = 0
          then g.inv else 0)
        = (if (nodeAt g.nodes s).outbound = 0 then g.inv else 0) := by
      intro s hs
      have hs2 : s < (normalizePass g.nodes).length := by
        rw [length_normalizePass]; exact List.mem_range.mp hs
      rw [nodeAt_initPass, if_pos hs2]
      show (if (nodeAt (normalizePass g.nodes) s).outbound = 0 then g.inv else 0) = _
      rw [nodeAt_normalizePass, normNode_outbound]
    rw [Finset.sum_congr rfl hcong,
      sum_range_nodeAt (fun n => if n.outbound = 0 then g.inv else 0) g.nodes,
      danglingCount, filter_length_sum]
  show adjOf α g.inv (initSt g).leak = _
  rw [hleak, adjOf, Graph64.inv]
  ring

/-! ### Conservation of rank mass (C2) -/

theorem curW_iterBody {st : RState} (hzero : ∀ t, (nodeAt st.nodes t).w (!st.a) = 0)
    (α inv : ℚ) {t : Nat} (ht : t < st.nodes.length) :
    curW (iterBody α inv st) t
      = α * Finset.sum (Finset.range st.nodes.length)
          (fun s => curW st s * keySum (nodeAt st.nodes s).edges t)
        + adjOf α inv st.leak := by
  obtain ⟨ul, uwa, ue, uo, uwb⟩ := updatePass_spec α (adjOf α inv st.leak) st.a st.nodes
  obtain ⟨dl, dnode, dd, dlk⟩ :=
    deltaPass_spec st.a (updatePass α (adjOf α inv st.leak) st.a st.nodes)
  have hcw : curW (iterBody α inv st) t
      = (nodeAt (updatePass α (adjOf α inv st.leak) st.a st.nodes) t).w (!st.a) := by
    show (nodeAt (iterBody α inv st).nodes t).w (iterBody α inv st).a = _
    rw [iterBody_nodes, iterBody_a, dnode t, w_setW_other]
  rw [hcw, uwb t ht, hzero t, zero_add]
  rfl

/-- Row sums of the normalized transition: 1 for non-dangling nodes, 0 for
dangling ones, for `Link`-built graphs with nonnegative weights. -/
theorem rowsum_norm {g : Graph64} (hgi : G64Inv g) (hgn : G64Nonneg g) {s : Nat} :
    Finset.sum (Finset.range g.nodes.length)
      (fun t => keySum (nodeAt (normalizePass g.nodes) s).edges t)
      = if (nodeAt g.nodes s).outbound = 0 then 0 else 1 := by
  obtain ⟨hc, hidx, hedge, hval, hw2⟩ := hgi
  obtain ⟨hono, heno⟩ := hgn
  rw [nodeAt_normalizePass]
  by_cases hpos : 0 < (nodeAt g.nodes s).outbound
  · rw [normNode, if_pos hpos, if_neg (by intro h; rw [h] at hpos; exact lt_irrefl 0 hpos)]
    show Finset.sum (Finset.range g.nodes.length)
      (fun t => keySum ((nodeAt g.nodes s).edges.map
        (fun e => (e.1, e.2 / (nodeAt g.nodes s).outbound))) t) = 1
    have hkeys : ∀ e ∈ (nodeAt g.nodes s).edges.map
        (fun e => (e.1, e.2 / (nodeAt g.nodes s).outbound)), e.1 < g.nodes.length := by
      intro e he
      obtain ⟨e0, he0, heq⟩ := List.mem_map.mp he
      have := hedge s e0 he0
      rw [← heq]
      show e0.1 < g.nodes.length
      rw [← hc]
      exact this
    rw [sum_keySum hkeys, valSum_map_div, hval s]
    exact div_self (ne_of_gt hpos)
  · have hzero : (nodeAt g.nodes s).outbound = 0 :=
      le_antisymm (le_of_not_lt hpos) (hono s)
    rw [normNode, if_neg hpos, if_pos hzero]
    refine Finset.sum_eq_zero ?_
    intro t ht2
    refine le_antisymm ?_ (keySum_nonneg (heno s) t)
    have h1 := keySum_le_valSum (heno s) t
    rw [hval s, hzero] at h1
    exact h1

theorem sumCur_initSt {g : Graph64} (hN : 1 ≤ g.nodes.length) :
    sumCur (initSt g) = 1 := by
  have hlen : (initSt g).nodes.length = g.nodes.length := by
    show (initPass g.inv (normalizePass g.nodes)).length = g.nodes.length
    rw [length_initPass, length_normalizePass]
  rw [sumCur, hlen]
  have hcong : ∀ s ∈ Finset.range g.nodes.length, curW (initSt g) s = g.inv := by
    intro s hs
    exact curW_initSt (List.mem_range.mp hs)
  rw [Finset.sum_congr rfl hcong, Finset.sum_const, Finset.card_range, nsmul_eq_mul,
    Graph64.inv]
  rw [mul_one_div]
  exact div_self (by positivity)

theorem sumCur_iterBody {g : Graph64} {st : RState} (hgi : G64Inv g) (hgn : G64Nonneg g)
    (hInv : StInv g st) (hN : 1 ≤ g.nodes.length) (hsum : sumCur st = 1) (α : ℚ) :
    sumCur (iterBody α g.inv st) = 1 := by
  obtain ⟨hlen, hedges, hout, hzero, hleak⟩ := hInv
  have hlen2 : (iterBody α g.inv st).nodes.length = g.nodes.length :=
    (iterBody_inv ⟨hlen, hedges, hout, hzero, hleak⟩ α g.inv).1
  rw [sumCur, hlen2]
  have hstep : ∀ t ∈ Finset.range g.nodes.length,
      curW (iterBody α g.inv st) t
        = α * Finset.sum (Finset.range g.nodes.length)
            (fun s => curW st s * keySum (nodeAt st.nodes s).edges t)
          + adjOf α g.inv st.leak := by
    intro t ht2
    rw [curW_iterBody hzero α g.inv (by rw [hlen]; exact List.mem_range.mp ht2), hlen]
  rw [Finset.sum_congr rfl hstep, Finset.sum_add_distrib, Finset.sum_const,
    Finset.card_range, nsmul_eq_mul, ← Finset.mul_sum, Finset.sum_comm]
  have hrows : ∀ s ∈ Finset.range g.nodes.length,
      Finset.sum (Finset.range g.nodes.length)
        (fun t => curW st s * keySum (nodeAt st.nodes s).edges t)
      = curW st s - (if (nodeAt st.nodes s).outbound = 0 then curW st s else 0) := by
    intro s hs
    rw [← Finset.mul_sum]
    have hsame : ∀ t ∈ Finset.range g.nodes.length,
        keySum (nodeAt st.nodes s).edges t
          = keySum (nodeAt (normalizePass g.nodes) s).edges t := by
      intro t ht2
      rw [hedges s]
    rw [Finset.sum_congr rfl hsame, rowsum_norm hgi hgn]
    by_cases hdang : (nodeAt g.nodes s).outbound = 0
    · rw [if_pos hdang, if_pos (by rw [hout s]; exact hdang)]
      ring
    · rw [if_neg hdang, if_neg (by rw [hout s]; exact hdang)]
      ring
  rw [Finset.sum_congr rfl hrows, Finset.sum_sub_distrib]
  have hsumcur : Finset.sum (Finset.range g.nodes.length) (fun s => curW st s) = 1 := by
    rw [← hsum, sumCur, hlen]
  rw [hsumcur, ← hleak, adjOf, Graph64.inv]
  have hNne : ((g.nodes.length : ℚ)) ≠ 0 := by positivity
  field_simp
  ring

theorem sumCur_iterState {ts : List (Nat × Nat × ℚ)} (hw : ∀ e ∈ ts, 0 ≤ e.2.2)
    (hN : 1 ≤ (buildG64 ts).nodes.length) (α : ℚ) (k : Nat) :
    sumCur (iterState64 (buildG64 ts) α k) = 1 := by
  have hg1 : ∀ i, (nodeAt (buildG64 ts).nodes i).weight1 = 0 :=
    fun i => ((buildG64_inv ts).2.2.2.2 i).2
  induction k with
  | zero => exact sumCur_initSt hN
  | succ k ih =>
    rw [iterState64, Function.iterate_succ_apply']
    exact sumCur_iterBody (buildG64_inv ts) (buildG64_nonneg hw)
      (iterState_inv hg1 α k) hN ih α

theorem rankLoop_reach (α ε inv : ℚ) :
    ∀ (f : Nat) (st st' : RState), rankLoop α ε inv f st = some st' →
    ∃ k, st' = (iterBody α inv)^[k] st := by
  intro f
  induction f with
  | zero =>
    intro st st' h
    rw [rankLoop] at h
    by_cases hd : st.delta ≤ ε
    · rw [if_pos hd] at h
      refine ⟨0, ?_⟩
      rw [Function.iterate_zero_apply]
      injection h with h2
      exact h2.symm
    · rw [if_neg hd] at h
      exact absurd h (by simp)
  | succ f ih =>
    intro st st' h
    rw [rankLoop] at h
    by_cases hd : st.delta ≤ ε
    · rw [if_pos hd] at h
      refine ⟨0, ?_⟩
      rw [Function.iterate_zero_apply]
      injection h with h2
      exact h2.symm
    · rw [if_neg hd] at h
      obtain ⟨k, hk⟩ := ih (iterBody α inv st) st' h
      exact ⟨k + 1, by rw [hk, Function.iterate_succ_apply]⟩

theorem list_range_sum (f : Nat → ℚ) :
    ∀ n : Nat, ((List.range n).map f).sum = Finset.sum (Finset.range n) f := by
  intro n
  induction n with
  | zero => simp
  | succ n ih =>
    rw [List.range_succ, List.map_append, List.sum_append, Finset.sum_range_succ, ih]
    simp

/-- Claim C2: for `Link`-built graphs with nonnegative weights and at least
one node, total rank mass is conserved by `Graph64.Rank` under exact
arithmetic: the current slots sum to 1 after initialization, after every
iteration, and the final ranks delivered to the callback sum to 1. -/
theorem c2_conservation (ts : List (Nat × Nat × ℚ)) (α ε : ℚ) (fuel : Nat)
    (hw : ∀ e ∈ ts, 0 ≤ e.2.2) (hN : 1 ≤ (buildG64 ts).nodes.length) :
    sumCur (initSt (buildG64 ts)) = 1 ∧
    (∀ k, sumCur (iterState64 (buildG64 ts) α k) = 1) ∧
    (∀ out g', rankRun64 (buildG64 ts) α ε fuel = some (out, g') →
      (out.map (fun p => p.2)).sum = 1) := by
  refine ⟨sumCur_initSt hN, fun k => sumCur_iterState hw hN α k, ?_⟩
  intro out g' hrun
  obtain ⟨hc, hidx, hedge, hval, hw2⟩ := buildG64_inv ts
  rw [rankRun64, rankRunA] at hrun
  rcases hloop : rankLoop α ε (buildG64 ts).inv fuel (initSt (buildG64 ts)) with _ | st
  · rw [hloop] at hrun
    exact Option.noConfusion hrun
  · rw [hloop] at hrun
    simp only [Option.map_some'] at hrun
    obtain ⟨k, hk⟩ := rankLoop_reach α ε (buildG64 ts).inv fuel _ st hloop
    have hout : out = (buildG64 ts).index.map
        (fun p => (p.1, (nodeAt st.nodes p.2).w st.a)) := by
      injection hrun with h1
      exact congrArg Prod.fst h1.symm
    have hsum1 : sumCur st = 1 := by
      have := sumCur_iterState hw hN α k
      rw [iterState64, ← hk] at this
      exact this
    have hlen : st.nodes.length = (buildG64 ts).nodes.length := by
      have hg1 : ∀ i, (nodeAt (buildG64 ts).nodes i).weight1 = 0 := fun i => (hw2 i).2
      have := (iterState_inv hg1 α k).1
      rw [iterState64, ← hk] at this
      exact this
    rw [hout, List.map_map]
    have hmapped : ((buildG64 ts).index.map ((fun p => p.2) ∘
        (fun p => (p.1, (nodeAt st.nodes p.2).w st.a))))
        = ((buildG64 ts).index.map (fun p => p.2)).map (fun i => curW st i) := by
      rw [List.map_map]
      rfl
    rw [hmapped, hidx, hc, list_range_sum, ← hlen]
    rw [← hsum1, sumCur]

/-- Witness for C2: a concrete two-node run whose emitted ranks sum to 1. -/
theorem c2_conservation_witness :
    (([((1 : Nat), (13 : ℚ)/32), (2, 19/32)]).map (fun p => p.2)).sum = 1 :=
  (c2_conservation [(1, 2, 1)] (1/2) (1/5) 2
    (of_decide_eq_true (by with_unfolding_all rfl))
    (of_decide_eq_true (by with_unfolding_all rfl))).2.2
    [((1 : Nat), (13 : ℚ)/32), (2, 19/32)]
    { count := 2, index := [(1, 0), (2, 1)], nodes := [{ weight0 := 13/32, weight1 := 0, outbound := 1, edges := [(1, 1)] }, { weight0 := 19/32, weight1 := 0, outbound := 0, edges := [] }] }
    (by with_unfolding_all rfl)

/-! ### Zero-node graphs (C6) -/

/-- Claim C6: calling `Graph64.Rank` on a graph with zero nodes returns
(after at most one loop iteration) without any division-by-zero failure
(division is total here; Go's float division by zero also does not fault),
the callback is never invoked (empty output), and the graph state is
unchanged, for every `α` and every `ε > 0`. -/
theorem c6_zero_nodes (α ε : ℚ) (hε : 0 < ε) (fuel : Nat) :
    rankRun64 emptyG64 α ε (fuel + 1) = some ([], emptyG64) := by
  have hinit : initSt emptyG64 = { a := false, delta := 1, leak := 0, nodes := [] } := rfl
  by_cases h1 : (1 : ℚ) ≤ ε
  · have hloop : rankLoop α ε emptyG64.inv (fuel + 1)
        { a := false, delta := 1, leak := 0, nodes := [] }
        = some { a := false, delta := 1, leak := 0, nodes := [] } := by
      rw [rankLoop]
      exact if_pos h1
    rw [rankRun64, rankRunA, hinit, hloop]
    rfl
  · have hstep : iterBody α emptyG64.inv { a := false, delta := 1, leak := 0, nodes := [] }
        = { a := true, delta := 0, leak := 0, nodes := [] } := rfl
    have hloop : rankLoop α ε emptyG64.inv (fuel + 1)
        { a := false, delta := 1, leak := 0, nodes := [] }
        = some { a := true, delta := 0, leak := 0, nodes := [] } := by
      rw [rankLoop, if_neg (by exact h1), hstep]
      cases fuel with
      | zero =>
        rw [rankLoop]
        exact if_pos (le_of_lt hε)
      | succ f =>
        rw [rankLoop]
        exact if_pos (le_of_lt hε)
    rw [rankRun64, rankRunA, hinit, hloop]
    rfl

/-- Witness for C6 at concrete parameters. -/
theorem c6_zero_nodes_witness : rankRun64 emptyG64 (17/20) (1/2) 1 = some ([], emptyG64) :=
  c6_zero_nodes (17/20) (1/2) (of_decide_eq_true (by with_unfolding_all rfl)) 0

/-! ### Divergence of `Rank` on a negative-weight graph (C4 counterexample) -/

theorem rstate_ext {st : RState} {a : Bool} {d l : ℚ} {ns : List Node64}
    (ha : st.a = a) (hd : st.delta = d) (hl : st.leak = l) (hn : st.nodes = ns) :
    st = { a := a, delta := d, leak := l, nodes := ns } := by
  cases st
  simp only at ha hd hl hn
  rw [ha, hd, hl, hn]

theorem node_ext {n : Node64} {w0 w1 ob : ℚ} {es : List (Nat × ℚ)}
    (h0 : n.w false = w0) (h1 : n.w true = w1) (ho : n.outbound = ob)
    (he : n.edges = es) :
    n = { weight0 := w0, weight1 := w1, outbound := ob, edges := es } := by
  cases n
  simp [Node64.w] at h0 h1
  simp only at ho he
  simp [h0, h1, ho, he]

theorem nodeBad_w_a (a : Bool) (v ob : ℚ) (es : List (Nat × ℚ)) :
    (nodeBad a v ob es).w a = v := by
  cases a <;> rfl

theorem nodeBad_w_other (a : Bool) (v ob : ℚ) (es : List (Nat × ℚ)) :
    (nodeBad a v ob es).w (!a) = 0 := by
  cases a <;> rfl

theorem nodeBad_ext {a : Bool} {n : Node64} {v ob : ℚ} {es : List (Nat × ℚ)}
    (hv : n.w a = v) (hz : n.w (!a) = 0) (ho : n.outbound = ob) (he : n.edges = es) :
    n = nodeBad a v ob es := by
  cases a
  · exact node_ext hv hz ho he
  · exact node_ext hz hv ho he

theorem list_two_ext {ns : List Node64} {n0 n1 : Node64} (hl : ns.length = 2)
    (h0 : nodeAt ns 0 = n0) (h1 : nodeAt ns 1 = n1) : ns = [n0, n1] := by
  match ns, hl with
  | [a, b], _ =>
    simp only [nodeAt, List.getD] at h0 h1
    simp at h0 h1
    rw [h0, h1]

theorem iterBody_mkSt (a : Bool) (x y δ lk : ℚ)
    (hxlt : x - ((8/5) * x + adjOf (4/5) (1/2) lk) < 0)
    (hyge : ¬ (y - (-(4/5) * x + adjOf (4/5) (1/2) lk) < 0)) :
    iterBody (4/5) (1/2) (mkSt a x y δ lk)
      = mkSt (!a) ((8/5) * x + adjOf (4/5) (1/2) lk)
          (-(4/5) * x + adjOf (4/5) (1/2) lk)
          ((((8/5) * x + adjOf (4/5) (1/2) lk) - x)
            + (y - (-(4/5) * x + adjOf (4/5) (1/2) lk)))
          (-(4/5) * x + adjOf (4/5) (1/2) lk) := by
  have hlen : (mkSt a x y δ lk).nodes.length = 2 := rfl
  have hn0 : nodeAt (mkSt a x y δ lk).nodes 0 = nodeBad a x 1 [(0, 2), (1, -1)] := rfl
  have hn1 : nodeAt (mkSt a x y δ lk).nodes 1 = nodeBad a y 0 [] := rfl
  have hleak : (mkSt a x y δ lk).leak = lk := rfl
  have ha : (mkSt a x y δ lk).a = a := rfl
  obtain ⟨ul, uwa, ue, uo, uwb⟩ :=
    updatePass_spec (4/5) (adjOf (4/5) (1/2) lk) a (mkSt a x y δ lk).nodes
  obtain ⟨dl, dnode, dd, dlk⟩ :=
    deltaPass_spec a (updatePass (4/5) (adjOf (4/5) (1/2) lk) a (mkSt a x y δ lk).nodes)
  have hk00 : keySum [((0 : Nat), (2 : ℚ)), (1, -1)] 0 = 2 := by
    with_unfolding_all rfl
  have hk01 : keySum [((0 : Nat), (2 : ℚ)), (1, -1)] 1 = -1 := by
    with_unfolding_all rfl
  have hedB0 : (nodeBad a x 1 [((0 : Nat), (2 : ℚ)), (1, -1)]).edges
      = [((0 : Nat), (2 : ℚ)), (1, -1)] := rfl
  have hedB1 : (nodeBad a y 0 []).edges = ([] : List (Nat × ℚ)) := rfl
  have hv0 : (nodeAt (updatePass (4/5) (adjOf (4/5) (1/2) lk) a (mkSt a x y δ lk).nodes) 0).w (!a)
      = (8/5) * x + adjOf (4/5) (1/2) lk := by
    rw [uwb 0 (by rw [hlen]; omega)]
    rw [show (mkSt a x y δ lk).nodes.length = 2 from rfl]
    rw [Finset.sum_range_succ, Finset.sum_range_succ, Finset.sum_range_zero]
    rw [hn0, hn1, hedB0, hedB1, nodeBad_w_a, nodeBad_w_a, nodeBad_w_other,
      hk00, keySum_nil]
    ring
  have hv1 : (nodeAt (updatePass (4/5) (adjOf (4/5) (1/2) lk) a (mkSt a x y δ lk).nodes) 1).w (!a)
      = -(4/5) * x + adjOf (4/5) (1/2) lk := by
    rw [uwb 1 (by rw [hlen]; omega)]
    rw [show (mkSt a x y δ lk).nodes.length = 2 from rfl]
    rw [Finset.sum_range_succ, Finset.sum_range_succ, Finset.sum_range_zero]
    rw [hn0, hn1, hedB0, hedB1, nodeBad_w_a, nodeBad_w_a, nodeBad_w_other,
      hk01, keySum_nil]
    ring
  have hwa0 : (nodeAt (updatePass (4/5) (adjOf (4/5) (1/2) lk) a (mkSt a x y δ lk).nodes) 0).w a
      = x := by rw [uwa 0, hn0, nodeBad_w_a]
  have hwa1 : (nodeAt (updatePass (4/5) (adjOf (4/5) (1/2) lk) a (mkSt a x y δ lk).nodes) 1).w a
      = y := by rw [uwa 1, hn1, nodeBad_w_a]
  have hob0 : (nodeAt (updatePass (4/5) (adjOf (4/5) (1/2) lk) a (mkSt a x y δ lk).nodes) 0).outbound
      = 1 := by rw [uo 0, hn0]; rfl
  have hob1 : (nodeAt (updatePass (4/5) (adjOf (4/5) (1/2) lk) a (mkSt a x y δ lk).nodes) 1).outbound
      = 0 := by rw [uo 1, hn1]; rfl
  have hed0 : (nodeAt (updatePass (4/5) (adjOf (4/5) (1/2) lk) a (mkSt a x y δ lk).nodes) 0).edges
      = [(0, 2), (1, -1)] := by rw [ue 0, hn0]; rfl
  have hed1 : (nodeAt (updatePass (4/5) (adjOf (4/5) (1/2) lk) a (mkSt a x y δ lk).nodes) 1).edges
      = [] := by rw [ue 1, hn1]; rfl
  refine rstate_ext (iterBody_a _ _ _) ?_ ?_ ?_
  · rw [iterBody_delta, ha, hleak, dd, ul, hlen]
    rw [Finset.sum_range_succ, Finset.sum_range_succ, Finset.sum_range_zero]
    rw [hwa0, hwa1, hv0, hv1]
    rw [abs_of_neg hxlt, abs_of_nonneg (by linarith [not_lt.mp hyge])]
    ring
  · rw [iterBody_leak, ha, hleak, dlk, ul, hlen]
    rw [Finset.sum_range_succ, Finset.sum_range_succ, Finset.sum_range_zero]
    rw [if_neg (by rw [hob0]; norm_num), if_pos hob1, hv1]
    ring
  · rw [iterBody_nodes, ha, hleak]
    refine list_two_ext (by rw [dl, ul, hlen]) ?_ ?_
    · rw [dnode 0]
      refine nodeBad_ext ?_ ?_ ?_ ?_
      · rw [w_setW_other, hv0]
      · rw [Bool.not_not, w_setW_same]
      · rw [outbound_setW, hob0]
      · rw [edges_setW, hed0]
    · rw [dnode 1]
      refine nodeBad_ext ?_ ?_ ?_ ?_
      · rw [w_setW_other, hv1]
      · rw [Bool.not_not, w_setW_same]
      · rw [outbound_setW, hob1]
      · rw [edges_setW, hed1]

theorem xyBad_diff : ∀ k : Nat,
    (xyBad (k + 1)).1 - (xyBad k).1 = (3/5) * (6/5 : ℚ) ^ k ∧
    (xyBad k).2 - (xyBad (k + 1)).2 = (3/5) * (6/5 : ℚ) ^ k := by
  intro k
  induction k with
  | zero =>
    constructor
    · show (8/5) * (1/2 : ℚ) + (1/10 + (2/5) * (1/2)) - 1/2 = (3/5) * (6/5 : ℚ) ^ 0
      norm_num
    · show (1/2 : ℚ) - (-(4/5) * (1/2) + (1/10 + (2/5) * (1/2))) = (3/5) * (6/5 : ℚ) ^ 0
      norm_num
  | succ k ih =>
    obtain ⟨ihx, ihy⟩ := ih
    constructor
    · show (8/5) * (xyBad (k + 1)).1 + (1/10 + (2/5) * (xyBad (k + 1)).2)
        - ((8/5) * (xyBad k).1 + (1/10 + (2/5) * (xyBad k).2)) = (3/5) * (6/5 : ℚ) ^ (k + 1)
      rw [pow_succ]
      nlinarith [ihx, ihy]
    · show (-(4/5) * (xyBad k).1 + (1/10 + (2/5) * (xyBad k).2))
        - (-(4/5) * (xyBad (k + 1)).1 + (1/10 + (2/5) * (xyBad (k + 1)).2))
        = (3/5) * (6/5 : ℚ) ^ (k + 1)
      rw [pow_succ]
      nlinarith [ihx, ihy]

theorem aParity_succ (k : Nat) : aParity (k + 1) = !(aParity k) := by
  rcases Nat.mod_two_eq_zero_or_one k with h | h
  · have h2 : (k + 1) % 2 = 1 := by omega
    simp [aParity, h, h2]
  · have h2 : (k + 1) % 2 = 0 := by omega
    simp [aParity, h, h2]

theorem badState : ∀ k : Nat, iterState64 gBad (4/5) k = mkBad k := by
  intro k
  induction k with
  | zero =>
    show initSt gBad = mkBad 0
    with_unfolding_all rfl
  | succ k ih =>
    have hinv : gBad.inv = 1/2 := by with_unfolding_all rfl
    have hq : (0 : ℚ) < (6/5 : ℚ) ^ k := by positivity
    obtain ⟨hdx, hdy⟩ := xyBad_diff k
    have hadj : adjOf (4/5) (1/2) (xyBad k).2 = 1/10 + (2/5) * (xyBad k).2 := by
      rw [adjOf]; ring
    have hx2 : (8/5) * (xyBad k).1 + adjOf (4/5) (1/2) (xyBad k).2 = (xyBad (k + 1)).1 := by
      rw [hadj]
      rfl
    have hy2 : -(4/5) * (xyBad k).1 + adjOf (4/5) (1/2) (xyBad k).2 = (xyBad (k + 1)).2 := by
      rw [hadj]
      rfl
    rw [iterState64, Function.iterate_succ_apply']
    have hstep := iterBody_mkSt (aParity k) (xyBad k).1 (xyBad k).2 ((6/5 : ℚ) ^ k) (xyBad k).2
      (by rw [hx2]; linarith) (by rw [hy2]; linarith)
    rw [show (iterBody (4/5) gBad.inv) ((iterBody (4/5) gBad.inv)^[k] (initSt gBad))
        = iterBody (4/5) gBad.inv (iterState64 gBad (4/5) k) from rfl, ih, hinv, mkBad, hstep]
    rw [mkBad, aParity_succ]
    rw [hx2, hy2]
    have hdelta : (xyBad (k + 1)).1 - (xyBad k).1 + ((xyBad k).2 - (xyBad (k + 1)).2)
        = (6/5 : ℚ) ^ (k + 1) := by
      rw [hdx, hdy, pow_succ]
      ring
    rw [hdelta]

theorem mkBad_delta_gt (k : Nat) : (1/2 : ℚ) < (mkBad k).delta := by
  show (1/2 : ℚ) < (6/5 : ℚ) ^ k
  have h1 : (1 : ℚ) ≤ (6/5 : ℚ) ^ k := one_le_pow₀ (by norm_num)
  linarith

theorem rankLoop_none (α ε inv : ℚ) :
    ∀ (f : Nat) (st : RState), (∀ j, ε < ((iterBody α inv)^[j] st).delta) →
    rankLoop α ε inv f st = none := by
  intro f
  induction f with
  | zero =>
    intro st h
    rw [rankLoop, if_neg (not_le.mpr (by simpa using h 0))]
  | succ f ih =>
    intro st h
    rw [rankLoop, if_neg (not_le.mpr (by simpa using h 0))]
    refine ih (iterBody α inv st) ?_
    intro j
    rw [← Function.iterate_succ_apply]
    exact h (j + 1)

/-- Counterexample to claim C4 as stated: on the two-node graph
`Link(1,1,2); Link(1,2,-1)` (one node, weight allowed to be negative by
`Link`), with `α = 4/5 ∈ [0,1)` and `ε = 1/2 > 0`, the loop guard `Δ > ε`
holds forever (`Δ` after `k` iterations is `(6/5)^k`), so `Rank` never
terminates. -/
theorem c4_counterexample :
    ¬ ∃ (fuel : Nat) (r : List (Nat × ℚ) × Graph64),
      rankRun64 gBad (4/5) (1/2) fuel = some r := by
  rintro ⟨fuel, r, hr⟩
  rw [rankRun64, rankRunA] at hr
  have hnone : rankLoop (4/5) (1/2) gBad.inv fuel (initSt gBad) = none := by
    refine rankLoop_none (4/5) (1/2) gBad.inv fuel (initSt gBad) ?_
    intro j
    rw [show (iterBody (4/5) gBad.inv)^[j] (initSt gBad) = iterState64 gBad (4/5) j from rfl,
      badState j]
    exact mkBad_delta_gt j
  rw [hnone] at hr
  exact Option.noConfusion hr

/-! ### Termination of `Rank` for nonnegative weights (C4 amended) -/

theorem delta_iterBody (α inv : ℚ) (st : RState) :
    (iterBody α inv st).delta
      = Finset.sum (Finset.range st.nodes.length)
          (fun t => |curW st t - curW (iterBody α inv st) t|) := by
  obtain ⟨ul, uwa, ue, uo, uwb⟩ := updatePass_spec α (adjOf α inv st.leak) st.a st.nodes
  obtain ⟨dl, dnode, dd, dlk⟩ :=
    deltaPass_spec st.a (updatePass α (adjOf α inv st.leak) st.a st.nodes)
  rw [iterBody_delta, dd, ul]
  refine Finset.sum_congr rfl ?_
  intro t ht
  have hcw : curW (iterBody α inv st) t
      = (nodeAt (updatePass α (adjOf α inv st.leak) st.a st.nodes) t).w (!st.a) := by
    show (nodeAt (iterBody α inv st).nodes t).w (iterBody α inv st).a = _
    rw [iterBody_nodes, iterBody_a, dnode t, w_setW_other]
  rw [hcw, uwa t]
  rfl

theorem iterState_step (g : Graph64) (α : ℚ) (k : Nat) :
    iterState64 g α (k + 1) = iterBody α g.inv (iterState64 g α k) := by
  rw [iterState64, iterState64, Function.iterate_succ_apply']

theorem curW_diff {g : Graph64} (hgi : G64Inv g) (α : ℚ) (k : Nat) {t : Nat}
    (ht : t < g.nodes.length) :
    curW (iterState64 g α (k + 2)) t - curW (iterState64 g α (k + 1)) t
      = α * Finset.sum (Finset.range g.nodes.length)
          (fun s => (curW (iterState64 g α (k + 1)) s - curW (iterState64 g α k) s)
            * keySum (nodeAt (normalizePass g.nodes) s).edges t)
        + α * g.inv * Finset.sum (Finset.range g.nodes.length)
            (fun s => if (nodeAt g.nodes s).outbound = 0
              then curW (iterState64 g α (k + 1)) s - curW (iterState64 g α k) s else 0) := by
  have hg1 : ∀ i, (nodeAt g.nodes i).weight1 = 0 := fun i => (hgi.2.2.2.2 i).2
  obtain ⟨hlen1, hedges1, hout1, hzero1, hleak1⟩ := iterState_inv hg1 α k
  obtain ⟨hlen2, hedges2, hout2, hzero2, hleak2⟩ := iterState_inv hg1 α (k + 1)
  have hc2 : curW (iterState64 g α (k + 2)) t
      = α * Finset.sum (Finset.range g.nodes.length)
          (fun s => curW (iterState64 g α (k + 1)) s
            * keySum (nodeAt (normalizePass g.nodes) s).edges t)
        + adjOf α g.inv (iterState64 g α (k + 1)).leak := by
    rw [iterState_step g α (k + 1),
      curW_iterBody hzero2 α g.inv (by rw [hlen2]; exact ht), hlen2]
    refine congrArg (fun z => α * z + adjOf α g.inv (iterState64 g α (k + 1)).leak) ?_
    refine Finset.sum_congr rfl ?_
    intro s hs
    rw [hedges2 s]
  have hc1 : curW (iterState64 g α (k + 1)) t
      = α * Finset.sum (Finset.range g.nodes.length)
          (fun s => curW (iterState64 g α k) s
            * keySum (nodeAt (normalizePass g.nodes) s).edges t)
        + adjOf α g.inv (iterState64 g α k).leak := by
    rw [iterState_step g α k,
      curW_iterBody hzero1 α g.inv (by rw [hlen1]; exact ht), hlen1]
    refine congrArg (fun z => α * z + adjOf α g.inv (iterState64 g α k).leak) ?_
    refine Finset.sum_congr rfl ?_
    intro s hs
    rw [hedges1 s]
  have hL2 : (iterState64 g α (k + 1)).leak
      = Finset.sum (Finset.range g.nodes.length)
          (fun s => if (nodeAt g.nodes s).outbound = 0
            then curW (iterState64 g α (k + 1)) s else 0) := by
    rw [hleak2]
    refine Finset.sum_congr rfl ?_
    intro s hs
    rw [hout2 s]
  have hL1 : (iterState64 g α k).leak
      = Finset.sum (Finset.range g.nodes.length)
          (fun s => if (nodeAt g.nodes s).outbound = 0
            then curW (iterState64 g α k) s else 0) := by
    rw [hleak1]
    refine Finset.sum_congr rfl ?_
    intro s hs
    rw [hout1 s]
  have hA : Finset.sum (Finset.range g.nodes.length)
        (fun s => curW (iterState64 g α (k + 1)) s
          * keySum (nodeAt (normalizePass g.nodes) s).edges t)
      - Finset.sum (Finset.range g.nodes.length)
        (fun s => curW (iterState64 g α k) s
          * keySum (nodeAt (normalizePass g.nodes) s).edges t)
      = Finset.sum (Finset.range g.nodes.length)
          (fun s => (curW (iterState64 g α (k + 1)) s - curW (iterState64 g α k) s)
            * keySum (nodeAt (normalizePass g.nodes) s).edges t) := by
    rw [← Finset.sum_sub_distrib]
    refine Finset.sum_congr rfl ?_
    intro s hs
    ring
  have hB : Finset.sum (Finset.range g.nodes.length)
        (fun s => if (nodeAt g.nodes s).outbound = 0
          then curW (iterState64 g α (k + 1)) s else 0)
      - Finset.sum (Finset.range g.nodes.length)
        (fun s => if (nodeAt g.nodes s).outbound = 0
          then curW (iterState64 g α k) s else 0)
      = Finset.sum (Finset.range g.nodes.length)
          (fun s => if (nodeAt g.nodes s).outbound = 0
            then curW (iterState64 g α (k + 1)) s - curW (iterState64 g α k) s else 0) := by
    rw [← Finset.sum_sub_distrib]
    refine Finset.sum_congr rfl ?_
    intro s hs
    by_cases hd : (nodeAt g.nodes s).outbound = 0
    · rw [if_pos hd, if_pos hd, if_pos hd]
    · rw [if_neg hd, if_neg hd, if_neg hd]
      ring
  rw [hc2, hc1, hL2, hL1, adjOf, adjOf]
  rw [← hA, ← hB]
  ring

/-- Abstract L1 contraction step: a damped substochastic scatter plus a
uniform redistribution of the dangling part contracts the L1 norm by `α`. -/
theorem l1_contraction_abstract (N : Nat) (α inv : ℚ) (h0 : 0 ≤ α)
    (hinv : 0 ≤ inv) (hNinv : (N : ℚ) * inv = 1)
    (d : Nat → ℚ) (E : Nat → Nat → ℚ) (dang : Nat → Prop) [DecidablePred dang]
    (hE : ∀ s t, 0 ≤ E s t)
    (hrow : ∀ s, s < N → Finset.sum (Finset.range N) (fun t => E s t)
      = if dang s then 0 else 1) :
    Finset.sum (Finset.range N) (fun t =>
      |α * Finset.sum (Finset.range N) (fun s => d s * E s t)
        + α * inv * Finset.sum (Finset.range N) (fun s => if dang s then d s else 0)|)
    ≤ α * Finset.sum (Finset.range N) (fun s => |d s|) := by
  have habsS : |Finset.sum (Finset.range N) (fun s => if dang s then d s else 0)|
      ≤ Finset.sum (Finset.range N) (fun s => if dang s then |d s| else 0) := by
    refine le_trans (Finset.abs_sum_le_sum_abs _ _) ?_
    refine Finset.sum_le_sum ?_
    intro s hs
    by_cases hd : dang s
    · rw [if_pos hd, if_pos hd]
    · rw [if_neg hd, if_neg hd, abs_zero]
  have hpoint : ∀ t ∈ Finset.range N,
      |α * Finset.sum (Finset.range N) (fun s => d s * E s t)
        + α * inv * Finset.sum (Finset.range N) (fun s => if dang s then d s else 0)|
      ≤ α * Finset.sum (Finset.range N) (fun s => |d s| * E s t)
        + α * inv * |Finset.sum (Finset.range N) (fun s => if dang s then d s else 0)| := by
    intro t ht
    refine le_trans (abs_add _ _) ?_
    have h1 : |α * Finset.sum (Finset.range N) (fun s => d s * E s t)|
        ≤ α * Finset.sum (Finset.range N) (fun s => |d s| * E s t) := by
      rw [abs_mul, abs_of_nonneg h0]
      refine mul_le_mul_of_nonneg_left ?_ h0
      refine le_trans (Finset.abs_sum_le_sum_abs _ _) ?_
      refine Finset.sum_le_sum ?_
      intro s hs
      rw [abs_mul, abs_of_nonneg (hE s t)]
    have h2 : |α * inv * Finset.sum (Finset.range N) (fun s => if dang s then d s else 0)|
        = α * inv * |Finset.sum (Finset.range N) (fun s => if dang s then d s else 0)| := by
      rw [abs_mul, abs_of_nonneg (mul_nonneg h0 hinv)]
    rw [h2]
    exact add_le_add_right h1 _
  refine le_trans (Finset.sum_le_sum hpoint) ?_
  rw [Finset.sum_add_distrib, Finset.sum_const, Finset.card_range, nsmul_eq_mul,
    ← Finset.mul_sum, Finset.sum_comm]
  have hrows : Finset.sum (Finset.range N)
      (fun s => Finset.sum (Finset.range N) (fun t => |d s| * E s t))
      = Finset.sum (Finset.range N) (fun s => if dang s then 0 else |d s|) := by
    refine Finset.sum_congr rfl ?_
    intro s hs
    rw [← Finset.mul_sum, hrow s (List.mem_range.mp (by simpa using hs))]
    by_cases hd : dang s
    · rw [if_pos hd, if_pos hd, mul_zero]
    · rw [if_neg hd, if_neg hd, mul_one]
  rw [hrows]
  have hfinal : (N : ℚ) * (α * inv
        * |Finset.sum (Finset.range N) (fun s => if dang s then d s else 0)|)
      = α * |Finset.sum (Finset.range N) (fun s => if dang s then d s else 0)| := by
    linear_combination (α * |Finset.sum (Finset.range N)
      (fun s => if dang s then d s else 0)|) * hNinv
  rw [hfinal]
  have hsplit : α * Finset.sum (Finset.range N) (fun s => if dang s then 0 else |d s|)
        + α * Finset.sum (Finset.range N) (fun s => if dang s then |d s| else 0)
      = α * Finset.sum (Finset.range N) (fun s => |d s|) := by
    rw [← mul_add, ← Finset.sum_add_distrib]
    refine congrArg (fun z => α * z) ?_
    refine Finset.sum_congr rfl ?_
    intro s hs
    by_cases hd : dang s
    · rw [if_pos hd, if_pos hd, zero_add]
    · rw [if_neg hd, if_neg hd, add_zero]
  calc α * Finset.sum (Finset.range N) (fun s => if dang s then 0 else |d s|)
        + α * |Finset.sum (Finset.range N) (fun s => if dang s then d s else 0)|
      ≤ α * Finset.sum (Finset.range N) (fun s => if dang s then 0 else |d s|)
        + α * Finset.sum (Finset.range N) (fun s => if dang s then |d s| else 0) := by
        exact add_le_add_left (mul_le_mul_of_nonneg_left habsS h0) _
    _ = α * Finset.sum (Finset.range N) (fun s => |d s|) := hsplit

theorem norm_edges_nonneg {g : Graph64} (hgn : G64Nonneg g) :
    ∀ s, ∀ e ∈ (nodeAt (normalizePass g.nodes) s).edges, 0 ≤ e.2 := by
  intro s e he
  rw [nodeAt_normalizePass, normNode] at he
  by_cases hpos : 0 < (nodeAt g.nodes s).outbound
  · rw [if_pos hpos] at he
    have he2 : e ∈ (nodeAt g.nodes s).edges.map
        (fun e => (e.1, e.2 / (nodeAt g.nodes s).outbound)) := he
    obtain ⟨e0, he0, heq⟩ := List.mem_map.mp he2
    rw [← heq]
    exact div_nonneg (hgn.2 s e0 he0) (le_of_lt hpos)
  · rw [if_neg hpos] at he
    exact hgn.2 s e he

theorem delta_contraction {g : Graph64} (hgi : G64Inv g) (hgn : G64Nonneg g)
    (hN : 1 ≤ g.nodes.length) {α : ℚ} (h0 : 0 ≤ α) (k : Nat) :
    (iterState64 g α (k + 2)).delta ≤ α * (iterState64 g α (k + 1)).delta := by
  have hg1 : ∀ i, (nodeAt g.nodes i).weight1 = 0 := fun i => (hgi.2.2.2.2 i).2
  obtain ⟨hlen1, he1, ho1, hzero1, hl1⟩ := iterState_inv hg1 α k
  obtain ⟨hlen2, he2, ho2, hzero2, hl2⟩ := iterState_inv hg1 α (k + 1)
  have hNq : (0 : ℚ) < (g.nodes.length : ℚ) := by exact_mod_cast hN
  have hinv : 0 ≤ g.inv := by rw [Graph64.inv]; positivity
  have hNinv : ((g.nodes.length : ℚ)) * g.inv = 1 := by
    rw [Graph64.inv, mul_one_div]
    exact div_self (ne_of_gt hNq)
  have hD2 : (iterState64 g α (k + 2)).delta
      = Finset.sum (Finset.range g.nodes.length)
          (fun t => |curW (iterState64 g α (k + 1)) t - curW (iterState64 g α (k + 2)) t|) := by
    rw [iterState_step g α (k + 1), delta_iterBody, hlen2, ← iterState_step g α (k + 1)]
  have hD1 : (iterState64 g α (k + 1)).delta
      = Finset.sum (Finset.range g.nodes.length)
          (fun t => |curW (iterState64 g α k) t - curW (iterState64 g α (k + 1)) t|) := by
    rw [iterState_step g α k, delta_iterBody, hlen1, ← iterState_step g α k]
  rw [hD2, hD1]
  have hshape : ∀ t ∈ Finset.range g.nodes.length,
      |curW (iterState64 g α (k + 1)) t - curW (iterState64 g α (k + 2)) t|
      = |α * Finset.sum (Finset.range g.nodes.length)
            (fun s => (curW (iterState64 g α (k + 1)) s - curW (iterState64 g α k) s)
              * keySum (nodeAt (normalizePass g.nodes) s).edges t)
          + α * g.inv * Finset.sum (Finset.range g.nodes.length)
              (fun s => if (nodeAt g.nodes s).outbound = 0
                then curW (iterState64 g α (k + 1)) s - curW (iterState64 g α k) s else 0)| := by
    intro t ht
    rw [abs_sub_comm, curW_diff hgi α k (List.mem_range.mp (by simpa using ht))]
  rw [Finset.sum_congr rfl hshape]
  have hD1s : Finset.sum (Finset.range g.nodes.length)
        (fun t => |curW (iterState64 g α k) t - curW (iterState64 g α (k + 1)) t|)
      = Finset.sum (Finset.range g.nodes.length)
          (fun s => |curW (iterState64 g α (k + 1)) s - curW (iterState64 g α k) s|) := by
    refine Finset.sum_congr rfl ?_
    intro s hs
    rw [abs_sub_comm]
  rw [hD1s]
  exact l1_contraction_abstract g.nodes.length α g.inv h0 hinv hNinv
    (fun s => curW (iterState64 g α (k + 1)) s - curW (iterState64 g α k) s)
    (fun s t => keySum (nodeAt (normalizePass g.nodes) s).edges t)
    (fun s => (nodeAt g.nodes s).outbound = 0)
    (fun s t => keySum_nonneg (norm_edges_nonneg hgn s) t)
    (fun s hs => rowsum_norm hgi hgn)

theorem delta_iter_nonneg (g : Graph64) (α : ℚ) (k : Nat) :
    0 ≤ (iterState64 g α (k + 1)).delta := by
  rw [iterState_step, delta_iterBody]
  exact Finset.sum_nonneg (fun t ht => abs_nonneg _)

theorem delta_pow {g : Graph64} (hgi : G64Inv g) (hgn : G64Nonneg g)
    (hN : 1 ≤ g.nodes.length) {α : ℚ} (h0 : 0 ≤ α) :
    ∀ k : Nat, (iterState64 g α (k + 1)).delta ≤ α ^ k * (iterState64 g α 1).delta := by
  intro k
  induction k with
  | zero => rw [pow_zero, one_mul]
  | succ k ih =>
    calc (iterState64 g α (k + 2)).delta
        ≤ α * (iterState64 g α (k + 1)).delta := delta_contraction hgi hgn hN h0 k
      _ ≤ α * (α ^ k * (iterState64 g α 1).delta) := by
          exact mul_le_mul_of_nonneg_left ih h0
      _ = α ^ (k + 1) * (iterState64 g α 1).delta := by
          rw [pow_succ]; ring

theorem rankLoop_some (α ε inv : ℚ) :
    ∀ (K : Nat) (st : RState), ((iterBody α inv)^[K] st).delta ≤ ε →
    ∃ st', rankLoop α ε inv K st = some st' := by
  intro K
  induction K with
  | zero =>
    intro st h
    rw [Function.iterate_zero_apply] at h
    exact ⟨st, by rw [rankLoop, if_pos h]⟩
  | succ K ih =>
    intro st h
    by_cases hd : st.delta ≤ ε
    · exact ⟨st, by rw [rankLoop, if_pos hd]⟩
    · rw [Function.iterate_succ_apply] at h
      obtain ⟨st', hst'⟩ := ih (iterBody α inv st) h
      exact ⟨st', by rw [rankLoop, if_neg hd]; exact hst'⟩

/-- Claim C4 amended: for `Link`-built graphs whose weights are all
nonnegative, with at least one node, any `α ∈ [0,1)` and any `ε > 0`, the
`Δ > ε` loop of `Graph64.Rank` exits after finitely many iterations (the
update is an L1 `α`-contraction), so `Rank` terminates. -/
theorem c4_amended (ts : List (Nat × Nat × ℚ)) (α ε : ℚ) (h0 : 0 ≤ α) (h1 : α < 1)
    (hε : 0 < ε) (hw : ∀ e ∈ ts, 0 ≤ e.2.2) (hN : 1 ≤ (buildG64 ts).nodes.length) :
    ∃ (fuel : Nat) (r : List (Nat × ℚ) × Graph64),
      rankRun64 (buildG64 ts) α ε fuel = some r := by
  have hgi := buildG64_inv ts
  have hgn := buildG64_nonneg hw
  have hKex : ∃ K, (iterState64 (buildG64 ts) α K).delta ≤ ε := by
    by_cases hD1 : (iterState64 (buildG64 ts) α 1).delta ≤ ε
    · exact ⟨1, hD1⟩
    · have hD1pos : 0 < (iterState64 (buildG64 ts) α 1).delta :=
        lt_trans hε (not_le.mp hD1)
      obtain ⟨n, hn⟩ := exists_pow_lt_of_lt_one
        (div_pos hε hD1pos) h1
      refine ⟨n + 1, ?_⟩
      refine le_trans (delta_pow hgi hgn hN h0 n) ?_
      have := (lt_div_iff₀ hD1pos).mp hn
      linarith
  obtain ⟨K, hK⟩ := hKex
  obtain ⟨st', hst'⟩ := rankLoop_some α ε (buildG64 ts).inv K (initSt (buildG64 ts))
    (by rw [show (iterBody α (buildG64 ts).inv)^[K] (initSt (buildG64 ts))
        = iterState64 (buildG64 ts) α K from rfl]; exact hK)
  refine ⟨K, ((buildG64 ts).index.map (fun p => (p.1, (nodeAt st'.nodes p.2).w st'.a)),
    { buildG64 ts with nodes := st'.nodes }), ?_⟩
  rw [rankRun64, rankRunA, hst']
  rfl

/-- Witness for the amended C4 at a concrete graph and parameters. -/
theorem c4_amended_witness :
    ∃ (fuel : Nat) (r : List (Nat × ℚ) × Graph64),
      rankRun64 (buildG64 [(1, 2, 1)]) (1/2) (1/10) fuel = some r :=
  c4_amended [(1, 2, 1)] (1/2) (1/10)
    (of_decide_eq_true (by with_unfolding_all rfl))
    (of_decide_eq_true (by with_unfolding_all rfl))
    (of_decide_eq_true (by with_unfolding_all rfl))
    (of_decide_eq_true (by with_unfolding_all rfl))
    (of_decide_eq_true (by with_unfolding_all rfl))

/-! ### Re-running `Rank` (C3) -/

/-- Counterexample to claim C3 as stated: on the symmetric two-node graph
`Link(1,2,2); Link(2,1,2)` with `α = 1/2`, `ε = 1/100`, the first `Rank`
call yields rank 1/2 for node 1, but a second call on the mutated graph
yields 2735/8192 ≈ 0.334: normalization divides the already-normalized
edges by the unchanged outbound total 2 again, and a stale next-slot
survives the first call, so the runs differ by far more than `ε`. -/
theorem c3_counterexample :
    ((rankRun64 (buildG64 [(1, 2, 2), (2, 1, 2)]) (1/2) (1/100) 2).map
      (fun p => rankOf p.1 1) = some (1/2)) ∧
    ((rankRun64 (buildG64 [(1, 2, 2), (2, 1, 2)]) (1/2) (1/100) 2).map
      (fun p => (rankRun64 p.2 (1/2) (1/100) 10).map (fun q => rankOf q.1 1))
      = some (some (2735/8192))) ∧
    ¬ (|(1/2 : ℚ) - 2735/8192| ≤ 1/100) :=
  ⟨by with_unfolding_all rfl, by with_unfolding_all rfl,
    of_decide_eq_true (by with_unfolding_all rfl)⟩

theorem node_fields_ext {n m : Node64} (h0 : n.weight0 = m.weight0)
    (h1 : n.weight1 = m.weight1) (ho : n.outbound = m.outbound)
    (he : n.edges = m.edges) : n = m := by
  cases n
  cases m
  simp only at h0 h1 ho he
  rw [h0, h1, ho, he]

theorem list_ext_nodeAt {ns ms : List Node64} (hl : ns.length = ms.length)
    (h : ∀ i, i < ns.length → nodeAt ns i = nodeAt ms i) : ns = ms := by
  refine List.ext_getElem hl ?_
  intro i hi1 hi2
  have := h i hi1
  rw [nodeAt_eq_getElem hi1, nodeAt_eq_getElem hi2] at this
  exact this

theorem edges_div_one (l : List (Nat × ℚ)) : l.map (fun e => (e.1, e.2 / 1)) = l := by
  induction l with
  | nil => rfl
  | cons p rest ih =>
    rw [List.map_cons, ih, div_one]

theorem normNode_of_01 {n : Node64} (h : n.outbound = 0 ∨ n.outbound = 1) :
    normNode n = n := by
  rcases h with h | h
  · rw [normNode, if_neg (by rw [h]; exact lt_irrefl 0)]
  · rw [normNode, if_pos (by rw [h]; norm_num), h, edges_div_one]
    exact node_fields_ext rfl rfl h.symm rfl

theorem normalizePass_of_01 {ns : List Node64}
    (h : ∀ n ∈ ns, n.outbound = 0 ∨ n.outbound = 1) : normalizePass ns = ns := by
  induction ns with
  | nil => rfl
  | cons hd tl ih =>
    rw [normalizePass, List.map_cons, normNode_of_01 (h hd (by simp))]
    have htl : List.map normNode tl = tl := by
      rw [show List.map normNode tl = normalizePass tl from rfl]
      exact ih (fun n hn => h n (by simp [hn]))
    rw [htl]

/-- Claim C3, amended: re-running `Rank` reproduces the first run's ranks
exactly (not merely within `ε`) when every node's outbound total is 0 or 1
(so the second normalization is a no-op) and the first run performed an even
number of iterations (the final slot flag is `false`, so no stale next-slot
value survives). In general the claim fails: re-normalization divides the
already-normalized edges by the unchanged outbound total again. -/
theorem c3_amended (ts : List (Nat × Nat × ℚ)) (α ε : ℚ) (f : Nat)
    (hout : ∀ n ∈ (buildG64 ts).nodes, n.outbound = 0 ∨ n.outbound = 1)
    (out1 : List (Nat × ℚ)) (g1 : Graph64)
    (hrun : rankRunA (buildG64 ts) α ε f = some (out1, g1, false)) :
    rankRunA g1 α ε f = some (out1, g1, false) := by
  rw [rankRunA] at hrun
  rcases hlp : rankLoop α ε (buildG64 ts).inv f (initSt (buildG64 ts)) with _ | st
  · rw [hlp] at hrun
    exact Option.noConfusion hrun
  rw [hlp, Option.map_some'] at hrun
  injection hrun with h
  rw [Prod.mk.injEq, Prod.mk.injEq] at h
  obtain ⟨h1, h2, h3⟩ := h
  have hg1 : ∀ i, (nodeAt (buildG64 ts).nodes i).weight1 = 0 :=
    fun i => ((buildG64_inv ts).2.2.2.2 i).2
  obtain ⟨k, hk⟩ := rankLoop_reach α ε (buildG64 ts).inv f (initSt (buildG64 ts)) st hlp
  have hst : StInv (buildG64 ts) st := by
    rw [hk]
    exact iterState_inv hg1 α k
  obtain ⟨hlen, hedges, houtb, hzero, _⟩ := hst
  have hg1nodes : g1.nodes = st.nodes := by rw [← h2]
  have hg1index : g1.index = (buildG64 ts).index := by rw [← h2]
  have hg1inv : g1.inv = (buildG64 ts).inv := by
    rw [Graph64.inv, Graph64.inv, hg1nodes, hlen]
  have hst01 : ∀ n ∈ st.nodes, n.outbound = 0 ∨ n.outbound = 1 := by
    intro n hn
    obtain ⟨i, hi, hgi⟩ := List.mem_iff_getElem.mp hn
    have hA : nodeAt st.nodes i = n := by rw [nodeAt_eq_getElem hi, hgi]
    have hB : n.outbound = (nodeAt (buildG64 ts).nodes i).outbound := by
      rw [← hA]
      exact houtb i
    have hig : i < (buildG64 ts).nodes.length := by rw [← hlen]; exact hi
    have hC : nodeAt (buildG64 ts).nodes i ∈ (buildG64 ts).nodes := by
      rw [nodeAt_eq_getElem hig]
      exact List.getElem_mem hig
    rw [hB]
    exact hout _ hC
  have hnorm1 : normalizePass st.nodes = st.nodes := normalizePass_of_01 hst01
  have hw1st : ∀ i, (nodeAt st.nodes i).weight1 = 0 := by
    intro i
    have := hzero i
    rw [h3] at this
    simpa [Node64.w] using this
  have hnodesEq : initPass (buildG64 ts).inv st.nodes
      = initPass (buildG64 ts).inv (normalizePass (buildG64 ts).nodes) := by
    refine list_ext_nodeAt ?_ ?_
    · rw [length_initPass, length_initPass, length_normalizePass, hlen]
    · intro i hi
      have hi1 : i < st.nodes.length := by rw [length_initPass] at hi; exact hi
      have hi2 : i < (normalizePass (buildG64 ts).nodes).length := by
        rw [length_normalizePass, ← hlen]
        exact hi1
      rw [nodeAt_initPass, nodeAt_initPass, if_pos hi1, if_pos hi2]
      refine node_fields_ext rfl ?_ ?_ ?_
      · show (nodeAt st.nodes i).weight1 = (nodeAt (normalizePass (buildG64 ts).nodes) i).weight1
        rw [hw1st i, nodeAt_normalizePass, normNode_weight1, hg1 i]
      · show (nodeAt st.nodes i).outbound = (nodeAt (normalizePass (buildG64 ts).nodes) i).outbound
        rw [houtb i, nodeAt_normalizePass, normNode_outbound]
      · exact hedges i
  have hinit : initSt g1 = initSt (buildG64 ts) := by
    show ({ a := false, delta := 1, leak := initLeak g1.inv (initPass g1.inv (normalizePass g1.nodes)), nodes := initPass g1.inv (normalizePass g1.nodes) } : RState) = _
    rw [hg1nodes, hg1inv, hnorm1, hnodesEq]
    rfl
  have hgg : ({ g1 with nodes := st.nodes } : Graph64) = g1 := by rw [← h2]
  rw [rankRunA, hinit, hg1inv, hlp, Option.map_some', hgg, hg1index, h1, h3]

/-- Witness for `c3_amended` on the chain `Link(1,2,1)` with `α = 1/2`,
`ε = 1/5`, fuel 2: the first run stops after two iterations with ranks
13/32 and 19/32, and a second run on the returned graph reproduces them. -/
theorem c3_amended_witness :
    rankRunA ({ count := 2, index := [(1, 0), (2, 1)], nodes := [{ weight0 := 13/32, weight1 := 0, outbound := 1, edges := [(1, 1)] }, { weight0 := 19/32, weight1 := 0, outbound := 0, edges := [] }] } : Graph64) (1/2) (1/5) 2
      = some ([(1, 13/32), (2, 19/32)], { count := 2, index := [(1, 0), (2, 1)], nodes := [{ weight0 := 13/32, weight1 := 0, outbound := 1, edges := [(1, 1)] }, { weight0 := 19/32, weight1 := 0, outbound := 0, edges := [] }] }, false) :=
  c3_amended [(1, 2, 1)] (1/2) (1/5) 2
    (of_decide_eq_true (by with_unfolding_all rfl))
    [(1, 13/32), (2, 19/32)] _ (by with_unfolding_all rfl)

/-! ### Association-list positional lemmas (for the sequential variant) -/

theorem getD_eq_getElem {γ : Type} (d : γ) {l : List γ} {j : Nat} (h : j < l.length) :
    l.getD j d = l[j] := by
  simp [List.getD_eq_getElem?_getD, List.getElem?_eq_getElem h]

theorem list_map_sum_getD {γ : Type} (d : γ) (f : γ → ℚ) :
    ∀ l : List γ, (l.map f).sum
      = Finset.sum (Finset.range l.length) (fun j => f (l.getD j d)) := by
  intro l
  induction l with
  | nil => simp
  | cons x xs ih =>
    rw [List.map_cons, List.sum_cons, ih, List.length_cons, Finset.sum_range_succ']
    simp only [List.getD_cons_succ, List.getD_cons_zero]
    ring

theorem assocFind_eq_none {β : Type} {l : List (Nat × β)} {k : Nat} :
    assocFind l k = none ↔ k ∉ l.map Prod.fst := by
  induction l with
  | nil => simp [assocFind]
  | cons p rest ih =>
    rw [assocFind, List.map_cons]
    by_cases hp : p.1 = k
    · rw [if_pos hp]
      simp [hp]
    · rw [if_neg hp]
      simp only [List.mem_cons]
      rw [ih]
      constructor
      · intro h hc
        rcases hc with hc | hc
        · exact hp hc.symm
        · exact h hc
      · intro h hc
        exact h (Or.inr hc)

theorem assocFind_isSome_iff {β : Type} {l : List (Nat × β)} {k : Nat} :
    (assocFind l k).isSome = true ↔ k ∈ l.map Prod.fst := by
  rcases h : assocFind l k with _ | v
  · simp only [Option.isSome_none, Bool.false_eq_true, false_iff]
    exact assocFind_eq_none.mp h
  · simp only [Option.isSome_some, true_iff]
    by_contra hm
    rw [assocFind_eq_none.mpr hm] at h
    exact Option.noConfusion h

theorem assocFind_pos {β : Type} :
    ∀ (l : List (Nat × β)), (l.map Prod.fst).Nodup →
    ∀ j, (hj : j < l.length) → assocFind l (l[j].1) = some (l[j].2) := by
  intro l
  induction l with
  | nil =>
    intro _ j hj
    exact absurd hj (by simp)
  | cons p rest ih =>
    intro hnd j hj
    rw [List.map_cons, List.nodup_cons] at hnd
    match j with
    | 0 =>
      show assocFind (p :: rest) p.1 = some p.2
      rw [assocFind, if_pos rfl]
    | j + 1 =>
      have hj2 : j < rest.length := by simpa using hj
      show assocFind (p :: rest) (rest[j].1) = some (rest[j].2)
      have hne : ¬ p.1 = rest[j].1 := by
        intro he
        exact hnd.1 (List.mem_map.mpr ⟨rest[j], List.getElem_mem hj2, he.symm⟩)
      rw [assocFind, if_neg hne]
      exact ih hnd.2 j hj2

theorem assocModify_map_fst {β : Type} (l : List (Nat × β)) (k : Nat) (f : β → β) :
    (assocModify l k f).map Prod.fst = l.map Prod.fst := by
  induction l with
  | nil => rfl
  | cons p rest ih =>
    rw [assocModify]
    by_cases hp : p.1 = k
    · rw [if_pos hp]
      simp
    · rw [if_neg hp, List.map_cons, List.map_cons, ih]

theorem length_assocModify {β : Type} (l : List (Nat × β)) (k : Nat) (f : β → β) :
    (assocModify l k f).length = l.length := by
  have h := congrArg List.length (assocModify_map_fst l k f)
  simpa using h

theorem assocModify_of_none {β : Type} {l : List (Nat × β)} {k : Nat} (f : β → β)
    (h : assocFind l k = none) : assocModify l k f = l := by
  induction l with
  | nil => rfl
  | cons p rest ih =>
    rw [assocFind] at h
    by_cases hp : p.1 = k
    · rw [if_pos hp] at h
      exact absurd h (by simp)
    · rw [if_neg hp] at h
      rw [assocModify, if_neg hp, ih h]

theorem assocModify_pos {β : Type} :
    ∀ (l : List (Nat × β)), (l.map Prod.fst).Nodup →
    ∀ j, (hj : j < l.length) → ∀ f, assocModify l (l[j].1) f = l.set j (l[j].1, f (l[j].2)) := by
  intro l
  induction l with
  | nil =>
    intro _ j hj
    exact absurd hj (by simp)
  | cons p rest ih =>
    intro hnd j hj f
    rw [List.map_cons, List.nodup_cons] at hnd
    match j with
    | 0 =>
      show assocModify (p :: rest) p.1 f = (p :: rest).set 0 (p.1, f p.2)
      rw [assocModify, if_pos rfl]
      rfl
    | j + 1 =>
      have hj2 : j < rest.length := by simpa using hj
      show assocModify (p :: rest) (rest[j].1) f
        = (p :: rest).set (j + 1) (rest[j].1, f (rest[j].2))
      have hne : ¬ p.1 = rest[j].1 := by
        intro he
        exact hnd.1 (List.mem_map.mpr ⟨rest[j], List.getElem_mem hj2, he.symm⟩)
      rw [assocModify, if_neg hne, ih hnd.2 j hj2 f]
      rfl

theorem assocFind_append_self {β : Type} {l : List (Nat × β)} {k : Nat}
    (h : assocFind l k = none) (v : β) : assocFind (l ++ [(k, v)]) k = some v := by
  rw [assocFind_append_of_none h, assocFind, if_pos rfl]

theorem entryAt_eq_getElem {ns : List (Nat × node)} {j : Nat} (h : j < ns.length) :
    entryAt ns j = ns[j] := by
  rw [entryAt]
  exact getD_eq_getElem _ h

theorem index_snd_getD {g : Graph64} (hidx : g.index.map Prod.snd = List.range g.count)
    {q : Nat} (hq : q < g.index.length) : (g.index.getD q (0, 0)).2 = q := by
  have hlen : g.index.length = g.count := by
    have h2 := congrArg List.length hidx
    simp only [List.length_map, List.length_range] at h2
    exact h2
  have hq2 : q < (g.index.map Prod.snd).length := by simpa using hq
  have h1 : (g.index.map Prod.snd).getD q 0 = (g.index.getD q (0, 0)).2 := by
    rw [getD_eq_getElem (0, 0) hq, getD_eq_getElem 0 hq2]
    simp
  have h3 : (g.index.map Prod.snd).getD q 0 = q := by
    rw [hidx, getD_eq_getElem 0 (by rw [List.length_range]; omega)]
    simp
  rw [← h1, h3]

theorem index_entry {g : Graph64} (hidx : g.index.map Prod.snd = List.range g.count)
    {id j : Nat} (h : assocFind g.index id = some j) :
    j < g.index.length ∧ g.index.getD j (0, 0) = (id, j) := by
  obtain ⟨p, hp, hpe⟩ := List.mem_iff_getElem.mp (assocFind_mem h)
  have hp2 : g.index.getD p (0, 0) = (id, j) := by
    rw [getD_eq_getElem (0, 0) hp, hpe]
  have hsnd := index_snd_getD hidx hp
  rw [hp2] at hsnd
  simp only at hsnd
  rw [← hsnd] at hp hp2
  exact ⟨hp, hp2⟩

theorem index_find_key {g : Graph64} (hnd : (g.index.map Prod.fst).Nodup)
    (hidx : g.index.map Prod.snd = List.range g.count)
    {j : Nat} (hj : j < g.index.length) :
    assocFind g.index ((g.index.getD j (0, 0)).1) = some j := by
  rw [getD_eq_getElem (0, 0) hj]
  rw [assocFind_pos g.index hnd j hj]
  have h2 := index_snd_getD hidx hj
  rw [getD_eq_getElem (0, 0) hj] at h2
  rw [h2]

theorem find_inj {g : Graph64} (hidx : g.index.map Prod.snd = List.range g.count)
    {id1 id2 j : Nat} (h1 : assocFind g.index id1 = some j)
    (h2 : assocFind g.index id2 = some j) : id1 = id2 := by
  have hnd : (g.index.map Prod.snd).Nodup := by
    rw [hidx]
    exact List.nodup_range _
  have he := List.inj_on_of_nodup_map hnd (assocFind_mem h1) (assocFind_mem h2) rfl
  exact congrArg Prod.fst he

theorem trRow_map_val (g : Graph64) (l : List (Nat × ℚ)) (f : ℚ → ℚ) :
    trRow g (l.map (fun e => (e.1, f e.2))) = (trRow g l).map (fun e => (e.1, f e.2)) := by
  simp only [trRow, List.map_map]
  rfl

theorem trRow_extend {g g2 : Graph64} {l2 : List (Nat × Nat)}
    (hidx : g2.index = g.index ++ l2) {l : List (Nat × ℚ)}
    (hpres : ∀ e ∈ l, (assocFind g.index e.1).isSome = true) :
    trRow g2 l = trRow g l := by
  rw [trRow, trRow]
  refine List.map_congr_left ?_
  intro e he
  have hs := hpres e he
  rcases hfind : assocFind g.index e.1 with _ | v
  · rw [hfind] at hs
    exact absurd hs (by simp)
  · rw [hidx, assocFind_append_of_some hfind]

theorem bump_map_keys {f : Nat → Nat} {t : Nat} :
    ∀ (l : List (Nat × ℚ)), (∀ e ∈ l, f e.1 = f t → e.1 = t) → ∀ w : ℚ,
    (bump l t w).map (fun e => (f e.1, e.2)) = bump (l.map (fun e => (f e.1, e.2))) (f t) w := by
  intro l
  induction l with
  | nil =>
    intro _ w
    rfl
  | cons p rest ih =>
    intro hinj w
    rw [bump]
    by_cases hp : p.1 = t
    · rw [if_pos hp, List.map_cons, List.map_cons, bump, if_pos (by rw [hp])]
    · rw [if_neg hp, List.map_cons, List.map_cons, bump]
      rw [if_neg (fun hc => hp (hinj p (by simp) hc))]
      rw [ih (fun e he hc => hinj e (by simp [he]) hc) w]

theorem assocFind_assocModify {β : Type} (l : List (Nat × β)) (k : Nat) (f : β → β) (id : Nat) :
    assocFind (assocModify l k f) id
      = if id = k then (assocFind l k).map f else assocFind l id := by
  induction l with
  | nil =>
    by_cases h : id = k <;> simp [assocModify, assocFind, h]
  | cons p rest ih =>
    rw [assocModify]
    by_cases hp : p.1 = k
    · rw [if_pos hp]
      by_cases hid : id = k
      · rw [if_pos hid, assocFind, assocFind, if_pos (hp.trans hid.symm), if_pos hp]
        rfl
      · rw [if_neg hid, assocFind, assocFind,
          if_neg (fun hc => hid (hc.symm.trans hp)), if_neg (fun hc => hid (hc.symm.trans hp))]
    · rw [if_neg hp, assocFind]
      by_cases hpid : p.1 = id
      · have hid : ¬ id = k := fun hc => hp (hpid.trans hc)
        rw [if_pos hpid, if_neg hid, assocFind, if_pos hpid]
      · rw [if_neg hpid, ih]
        by_cases hid : id = k
        · rw [if_pos hid, if_pos hid, assocFind, if_neg hp]
        · rw [if_neg hid, if_neg hid, assocFind, if_neg hpid]

theorem assocFind_ensureNode (ns : List (Nat × node)) (k id : Nat) :
    assocFind (ensureNode ns k) id
      = if id = k then some ((assocFind ns k).getD {}) else assocFind ns id := by
  rcases hk : assocFind ns k with _ | v
  · have he : ensureNode ns k = ns ++ [(k, ({} : node))] := by simp [ensureNode, hk]
    rw [he]
    by_cases hid : id = k
    · subst hid
      rw [if_pos rfl, assocFind_append_self hk]
      rfl
    · rw [if_neg hid]
      rcases hfid : assocFind ns id with _ | v2
      · rw [assocFind_append_of_none hfid, assocFind, if_neg (fun hc => hid hc.symm)]
        rfl
      · rw [assocFind_append_of_some hfid]
  · have he : ensureNode ns k = ns := by simp [ensureNode, hk]
    rw [he]
    by_cases hid : id = k
    · subst hid
      rw [if_pos rfl, hk]
      rfl
    · rw [if_neg hid]

theorem assocFind_ensureRow (es : List (Nat × List (Nat × ℚ))) (k id : Nat) :
    assocFind (ensureRow es k) id
      = if id = k then some ((assocFind es k).getD []) else assocFind es id := by
  rcases hk : assocFind es k with _ | v
  · have he : ensureRow es k = es ++ [(k, [])] := by simp [ensureRow, hk]
    rw [he]
    by_cases hid : id = k
    · subst hid
      rw [if_pos rfl, assocFind_append_self hk]
      rfl
    · rw [if_neg hid]
      rcases hfid : assocFind es id with _ | v2
      · rw [assocFind_append_of_none hfid, assocFind, if_neg (fun hc => hid hc.symm)]
        rfl
      · rw [assocFind_append_of_some hfid]
  · have he : ensureRow es k = es := by simp [ensureRow, hk]
    rw [he]
    by_cases hid : id = k
    · subst hid
      rw [if_pos rfl, hk]
      rfl
    · rw [if_neg hid]

theorem ensureNode_keys (ns : List (Nat × node)) (k : Nat) :
    (ensureNode ns k).map Prod.fst
      = if (assocFind ns k).isSome = true then ns.map Prod.fst
        else ns.map Prod.fst ++ [k] := by
  rcases hk : assocFind ns k with _ | v
  · have he : ensureNode ns k = ns ++ [(k, ({} : node))] := by simp [ensureNode, hk]
    rw [he, if_neg (by simp)]
    simp
  · have he : ensureNode ns k = ns := by simp [ensureNode, hk]
    rw [he, if_pos (by simp)]

theorem ensure64_cases (g : Graph64) (id : Nat) :
    (assocFind g.index id = some (ensure64 g id).2 ∧ (ensure64 g id).1 = g) ∨
    (assocFind g.index id = none ∧ (ensure64 g id).2 = g.count ∧
     (ensure64 g id).1 = { count := g.count + 1, index := g.index ++ [(id, g.count)], nodes := g.nodes ++ [{}] }) := by
  rcases hk : assocFind g.index id with _ | v
  · right
    refine ⟨rfl, ?_, ?_⟩ <;> simp [ensure64, hk]
  · left
    constructor <;> simp [ensure64, hk]

theorem keySum_map_fst_bump (f : Nat → Nat) (t : Nat) (w : ℚ) (tpos : Nat) :
    ∀ l : List (Nat × ℚ),
    keySum ((bump l t w).map (fun e => (f e.1, e.2))) tpos
      = keySum (l.map (fun e => (f e.1, e.2))) tpos + (if f t = tpos then w else 0) := by
  intro l
  induction l with
  | nil =>
    simp [bump, keySum]
  | cons p rest ih =>
    rw [bump]
    by_cases hp : p.1 = t
    · rw [if_pos hp, List.map_cons, List.map_cons, keySum_cons, keySum_cons]
      by_cases hc : f p.1 = tpos
      · rw [if_pos hc, if_pos hc, if_pos (by rw [← hp]; exact hc)]
        ring
      · rw [if_neg hc, if_neg hc, if_neg (by rw [← hp]; exact hc)]
        ring
    · rw [if_neg hp, List.map_cons, List.map_cons, keySum_cons, keySum_cons, ih]
      ring

theorem trRow_eq_of_index {g g2 : Graph64} (h : g2.index = g.index) (l : List (Nat × ℚ)) :
    trRow g2 l = trRow g l := by
  rw [trRow, trRow, h]

theorem keySum_trRow_bump (g : Graph64) (t : Nat) (w : ℚ) (tpos : Nat) (l : List (Nat × ℚ)) :
    keySum (trRow g (bump l t w)) tpos
      = keySum (trRow g l) tpos + (if (assocFind g.index t).getD 0 = tpos then w else 0) := by
  have h := keySum_map_fst_bump (fun k => (assocFind g.index k).getD 0) t w tpos l
  simpa [trRow] using h

theorem link64_pp {g : Graph64} {s t si ti : Nat} (w : ℚ)
    (hs : assocFind g.index s = some si) (ht : assocFind g.index t = some ti) :
    g.Link s t w = { g with nodes := modifyNode (modifyNode g.nodes si (fun n => { n with outbound := n.outbound + w })) si (fun n => { n with edges := bump n.edges ti w }) } := by
  simp [Graph64.Link, linkStep1, linkStep2, ensure64, hs, ht]

theorem link64_pa {g : Graph64} {s t si : Nat} (w : ℚ)
    (hs : assocFind g.index s = some si) (ht : assocFind g.index t = none) :
    g.Link s t w = { count := g.count + 1, index := g.index ++ [(t, g.count)], nodes := modifyNode ((modifyNode g.nodes si (fun n => { n with outbound := n.outbound + w })) ++ [{}]) si (fun n => { n with edges := bump n.edges g.count w }) } := by
  simp [Graph64.Link, linkStep1, linkStep2, ensure64, hs, ht]

theorem link64_ap {g : Graph64} {s t ti : Nat} (w : ℚ)
    (hs : assocFind g.index s = none)
    (ht : assocFind (g.index ++ [(s, g.count)]) t = some ti) :
    g.Link s t w = { count := g.count + 1, index := g.index ++ [(s, g.count)], nodes := modifyNode (modifyNode (g.nodes ++ [{}]) g.count (fun n => { n with outbound := n.outbound + w })) g.count (fun n => { n with edges := bump n.edges ti w }) } := by
  simp [Graph64.Link, linkStep1, linkStep2, ensure64, hs, ht]

theorem link64_aa {g : Graph64} {s t : Nat} (w : ℚ)
    (hs : assocFind g.index s = none)
    (ht : assocFind (g.index ++ [(s, g.count)]) t = none) :
    g.Link s t w = { count := g.count + 1 + 1, index := g.index ++ [(s, g.count)] ++ [(t, g.count + 1)], nodes := modifyNode ((modifyNode (g.nodes ++ [{}]) g.count (fun n => { n with outbound := n.outbound + w })) ++ [{}]) g.count (fun n => { n with edges := bump n.edges (g.count + 1) w }) } := by
  simp [Graph64.Link, linkStep1, linkStep2, ensure64, hs, ht]

theorem linkS_find_nodes (gS : Graph) (s t : Nat) (w : ℚ) (id : Nat) :
    assocFind (gS.Link s t w).nodes id
      = if id = s then some { (assocFind gS.nodes s).getD {} with outbound := ((assocFind gS.nodes s).getD {}).outbound + w }
        else if id = t then some ((assocFind gS.nodes id).getD {})
        else assocFind gS.nodes id := by
  show assocFind (ensureNode (assocModify (ensureNode gS.nodes s) s (fun nd => { nd with outbound := nd.outbound + w })) t) id = _
  rw [assocFind_ensureNode]
  by_cases hit : id = t
  · rw [if_pos hit, assocFind_assocModify]
    by_cases hts : t = s
    · have his : id = s := hit.trans hts
      rw [if_pos hts, if_pos his, assocFind_ensureNode, if_pos rfl]
      rfl
    · have his : ¬ id = s := by rw [hit]; exact hts
      rw [if_neg hts, if_neg his, if_pos hit, assocFind_ensureNode, if_neg hts, hit]
  · rw [if_neg hit]
    by_cases his : id = s
    · rw [if_pos his, assocFind_assocModify, if_pos his, assocFind_ensureNode, if_pos rfl]
      rfl
    · rw [if_neg his, if_neg hit, assocFind_assocModify, if_neg his, assocFind_ensureNode, if_neg his]

theorem linkS_find_edges (gS : Graph) (s t : Nat) (w : ℚ) (id : Nat) :
    assocFind (gS.Link s t w).edges id
      = if id = s then some (bump ((assocFind gS.edges s).getD []) t w)
        else assocFind gS.edges id := by
  show assocFind (assocModify (ensureRow gS.edges s) s (fun m => bump m t w)) id = _
  rw [assocFind_assocModify]
  by_cases hid : id = s
  · rw [if_pos hid, if_pos hid, assocFind_ensureRow, if_pos rfl]
    rfl
  · rw [if_neg hid, if_neg hid, assocFind_ensureRow, if_neg hid]

theorem length_modifyNode (ns : List Node64) (i : Nat) (f : Node64 → Node64) :
    (modifyNode ns i f).length = ns.length := by simp [modifyNode]

theorem simInv_link {gS : Graph} {g : Graph64} (hS : SimInv gS g) (hG : G64Inv g)
    (s t : Nat) (w : ℚ) : SimInv (gS.Link s t w) (g.Link s t w) := by
  obtain ⟨hkeys, hnd, hfacts, hnorow⟩ := hS
  obtain ⟨hc, hidx, hedge, hval, hwz⟩ := hG
  have hIdxLen : g.index.length = g.count := by
    have h2 := congrArg List.length hidx
    simpa using h2
  rcases hsf : assocFind g.index s with _ | si
  · rcases htf : assocFind (g.index ++ [(s, g.count)]) t with _ | ti
    · -- s and t both absent: s at g.count, t at g.count + 1
      have hfs1 : assocFind (g.index ++ [(s, g.count)]) s = some g.count :=
        assocFind_append_self hsf g.count
      have hts : ¬ t = s := by
        intro hcc
        rw [hcc, hfs1] at htf
        exact Option.noConfusion htf
      have htf0 : assocFind g.index t = none := by
        rcases h : assocFind g.index t with _ | v
        · rfl
        · rw [assocFind_append_of_some h] at htf
          exact Option.noConfusion htf
      have hid2 : (g.Link s t w).index = g.index ++ [(s, g.count)] ++ [(t, g.count + 1)] := by
        rw [link64_aa w hsf htf]
      have hid2b : (g.Link s t w).index = g.index ++ ([(s, g.count)] ++ [(t, g.count + 1)]) := by
        rw [hid2, List.append_assoc]
      have hnod : (g.Link s t w).nodes = modifyNode ((modifyNode (g.nodes ++ [({} : Node64)]) g.count (fun n => { n with outbound := n.outbound + w })) ++ [({} : Node64)]) g.count (fun n => { n with edges := bump n.edges (g.count + 1) w }) := by
        rw [link64_aa w hsf htf]
      have happlen : (g.nodes ++ [({} : Node64)]).length = g.nodes.length + 1 := by
        simp
      have hcnt_lt : g.count < (g.nodes ++ [({} : Node64)]).length := by
        omega
      have hBlen : (modifyNode (g.nodes ++ [({} : Node64)]) g.count (fun n => { n with outbound := n.outbound + w })).length = g.count + 1 := by
        rw [length_modifyNode, happlen, hc]
      have hcnt_ltB : g.count < ((modifyNode (g.nodes ++ [({} : Node64)]) g.count (fun n => { n with outbound := n.outbound + w })) ++ [({} : Node64)]).length := by
        have h4 : ((modifyNode (g.nodes ++ [({} : Node64)]) g.count (fun n => { n with outbound := n.outbound + w })) ++ [({} : Node64)]).length = g.count + 1 + 1 := by
          simp [hBlen]
        omega
      have hcnt_ltB2 : g.count < (modifyNode (g.nodes ++ [({} : Node64)]) g.count (fun n => { n with outbound := n.outbound + w })).length := by
        omega
      have hApp : nodeAt (g.nodes ++ [({} : Node64)]) g.count = ({} : Node64) := by
        rw [hc]
        exact nodeAt_append_self g.nodes {}
      have hM2 : nodeAt (g.Link s t w).nodes g.count = { weight0 := 0, weight1 := 0, outbound := 0 + w, edges := bump [] (g.count + 1) w } := by
        rw [hnod, nodeAt_modifyNode_self hcnt_ltB, nodeAt_append_lt hcnt_ltB2, nodeAt_modifyNode_self hcnt_lt, hApp]
      have hMnew : nodeAt (g.Link s t w).nodes (g.count + 1) = ({} : Node64) := by
        have hne : ¬ g.count = g.count + 1 := by omega
        rw [hnod, nodeAt_modifyNode_ne hne, ← hBlen, nodeAt_append_self]
      have hMne : ∀ j, j < g.nodes.length → nodeAt (g.Link s t w).nodes j = nodeAt g.nodes j := by
        intro j hjl
        have hne : ¬ g.count = j := by omega
        have hjB : j < (modifyNode (g.nodes ++ [({} : Node64)]) g.count (fun n => { n with outbound := n.outbound + w })).length := by
          omega
        rw [hnod, nodeAt_modifyNode_ne hne, nodeAt_append_lt hjB, nodeAt_modifyNode_ne hne, nodeAt_append_lt hjl]
      have hfinds : assocFind (g.Link s t w).index s = some g.count := by
        rw [hid2]
        exact assocFind_append_of_some hfs1
      have hfindt : assocFind (g.Link s t w).index t = some (g.count + 1) := by
        rw [hid2]
        exact assocFind_append_self htf (g.count + 1)
      have hfindold : ∀ {id v : Nat}, assocFind g.index id = some v → assocFind (g.Link s t w).index id = some v := by
        intro id v h
        rw [hid2b]
        exact assocFind_append_of_some h
      have hSnone_s : assocFind gS.nodes s = none := by
        rw [assocFind_eq_none, hkeys, ← assocFind_eq_none]
        exact hsf
      have hSnone_t : assocFind gS.nodes t = none := by
        rw [assocFind_eq_none, hkeys, ← assocFind_eq_none]
        exact htf0
      refine ⟨?_, ?_, ?_, ?_⟩
      · rw [hid2]
        show (ensureNode (assocModify (ensureNode gS.nodes s) s (fun nd => { nd with outbound := nd.outbound + w })) t).map Prod.fst = (g.index ++ [(s, g.count)] ++ [(t, g.count + 1)]).map Prod.fst
        have h1 : (ensureNode gS.nodes s).map Prod.fst = gS.nodes.map Prod.fst ++ [s] := by
          rw [ensureNode_keys, if_neg (by rw [hSnone_s]; simp)]
        have h2 : (assocModify (ensureNode gS.nodes s) s (fun nd => { nd with outbound := nd.outbound + w })).map Prod.fst = gS.nodes.map Prod.fst ++ [s] := by
          rw [assocModify_map_fst, h1]
        have h3 : ¬ (assocFind (assocModify (ensureNode gS.nodes s) s (fun nd => { nd with outbound := nd.outbound + w })) t).isSome = true := by
          rw [assocFind_isSome_iff, h2, hkeys]
          simp only [List.mem_append, List.mem_singleton]
          rintro (hmem | hmem)
          · exact (assocFind_eq_none.mp htf0) hmem
          · exact hts hmem
        rw [ensureNode_keys, if_neg h3, h2, hkeys, List.map_append, List.map_append]
        rfl
      · rw [hid2, List.map_append, List.map_append, List.nodup_append]
        refine ⟨?_, by simp, ?_⟩
        · rw [List.nodup_append]
          refine ⟨hnd, by simp, ?_⟩
          intro a ha hb
          simp at hb
          rw [hb] at ha
          exact (assocFind_eq_none.mp hsf) ha
        · intro a ha hb
          simp at hb
          rw [hb] at ha
          rcases List.mem_append.mp ha with h7 | h7
          · exact (assocFind_eq_none.mp htf0) h7
          · simp at h7
            exact hts h7
      · intro id j hfj
        rw [hid2] at hfj
        rcases hold : assocFind g.index id with _ | j0
        · by_cases hsid : s = id
          · have hf1 : assocFind (g.index ++ [(s, g.count)]) id = some g.count := by
              rw [assocFind_append_of_none hold, assocFind, if_pos hsid]
            rw [assocFind_append_of_some hf1] at hfj
            injection hfj with hfj2
            have his : id = s := hsid.symm
            refine ⟨?_, ?_, ?_⟩
            · rw [outOfS, linkS_find_nodes, if_pos his, hSnone_s, ← hfj2, hM2]
              rfl
            · intro tpos
              rw [linkS_find_edges, if_pos his, Option.getD_some, hnorow s hsf, Option.getD_none, ← hfj2, hM2]
              show keySum (trRow (g.Link s t w) (bump [] t w)) tpos = keySum (bump [] (g.count + 1) w) tpos
              rw [keySum_trRow_bump, hfindt, Option.getD_some, keySum_bump]
              rfl
            · rw [linkS_find_edges, if_pos his, Option.getD_some, hnorow s hsf, Option.getD_none]
              intro e he
              rcases mem_bump he with he2 | he2
              · rw [he2, hfindt]
                rfl
              · exact absurd he2 (by simp)
          · have hf1 : assocFind (g.index ++ [(s, g.count)]) id = none := by
              rw [assocFind_append_of_none hold, assocFind, if_neg hsid]
              rfl
            rw [assocFind_append_of_none hf1, assocFind] at hfj
            by_cases htid : t = id
            · rw [if_pos htid] at hfj
              injection hfj with hfj2
              have his : ¬ id = s := fun hcc => hts (htid.trans hcc)
              refine ⟨?_, ?_, ?_⟩
              · rw [outOfS, linkS_find_nodes, if_neg his, if_pos htid.symm, ← htid, hSnone_t, ← hfj2, hMnew]
                rfl
              · intro tpos
                rw [linkS_find_edges, if_neg his, ← htid, hnorow t htf0, ← hfj2, hMnew]
                rfl
              · rw [linkS_find_edges, if_neg his, ← htid, hnorow t htf0]
                intro e he
                exact absurd he (by simp)
            · rw [if_neg htid, assocFind] at hfj
              exact absurd hfj (by simp)
        · have hf1 : assocFind (g.index ++ [(s, g.count)]) id = some j0 :=
            assocFind_append_of_some hold
          rw [assocFind_append_of_some hf1] at hfj
          injection hfj with hfj2
          have hold2 : assocFind g.index id = some j := by
            rw [hold, hfj2]
          have his : ¬ id = s := by
            intro hcc
            rw [hcc, hsf] at hold2
            exact Option.noConfusion hold2
          have hidt : ¬ id = t := by
            intro hcc
            rw [hcc, htf0] at hold2
            exact Option.noConfusion hold2
          have hjlt : j < g.index.length := (index_entry hidx hold2).1
          have hjlen : j < g.nodes.length := by omega
          refine ⟨?_, ?_, ?_⟩
          · rw [outOfS, linkS_find_nodes, if_neg his, if_neg hidt, hMne j hjlen]
            show outOfS gS.nodes id = _
            exact (hfacts id j hold2).1
          · intro tpos
            rw [linkS_find_edges, if_neg his, hMne j hjlen]
            have htr : trRow (g.Link s t w) ((assocFind gS.edges id).getD []) = trRow g ((assocFind gS.edges id).getD []) := trRow_extend hid2b (hfacts id j hold2).2.2
            rw [htr]
            exact (hfacts id j hold2).2.1 tpos
          · rw [linkS_find_edges, if_neg his]
            intro e he
            have h6 := (hfacts id j hold2).2.2 e he
            rcases hfe : assocFind g.index e.1 with _ | v
            · rw [hfe] at h6
              exact absurd h6 (by simp)
            · rw [hfindold hfe]
              rfl
      · intro id hfid
        rw [hid2] at hfid
        rcases hold : assocFind g.index id with _ | v
        · have his : ¬ id = s := by
            intro hcc
            have hf1 : assocFind (g.index ++ [(s, g.count)]) id = some g.count := by
              rw [assocFind_append_of_none hold, assocFind, if_pos hcc.symm]
            rw [assocFind_append_of_some hf1] at hfid
            exact Option.noConfusion hfid
          rw [linkS_find_edges, if_neg his]
          exact hnorow id hold
        · have hf1 : assocFind (g.index ++ [(s, g.count)]) id = some v :=
            assocFind_append_of_some hold
          rw [assocFind_append_of_some hf1] at hfid
          exact Option.noConfusion hfid
    · -- s absent (new at g.count), t present at ti in the extended index
      have hid2 : (g.Link s t w).index = g.index ++ [(s, g.count)] := by
        rw [link64_ap w hsf htf]
      have hnod : (g.Link s t w).nodes = modifyNode (modifyNode (g.nodes ++ [({} : Node64)]) g.count (fun n => { n with outbound := n.outbound + w })) g.count (fun n => { n with edges := bump n.edges ti w }) := by
        rw [link64_ap w hsf htf]
      have happlen : (g.nodes ++ [({} : Node64)]).length = g.nodes.length + 1 := by
        simp
      have hcnt_lt : g.count < (g.nodes ++ [({} : Node64)]).length := by
        omega
      have hcnt_lt2 : g.count < (modifyNode (g.nodes ++ [({} : Node64)]) g.count (fun n => { n with outbound := n.outbound + w })).length := by
        rw [length_modifyNode]
        exact hcnt_lt
      have hApp : nodeAt (g.nodes ++ [({} : Node64)]) g.count = ({} : Node64) := by
        rw [hc]
        exact nodeAt_append_self g.nodes {}
      have hM2 : nodeAt (g.Link s t w).nodes g.count = { weight0 := 0, weight1 := 0, outbound := 0 + w, edges := bump [] ti w } := by
        rw [hnod, nodeAt_modifyNode_self hcnt_lt2, nodeAt_modifyNode_self hcnt_lt, hApp]
      have hMne : ∀ j, j < g.nodes.length → nodeAt (g.Link s t w).nodes j = nodeAt g.nodes j := by
        intro j hjl
        have hne : ¬ g.count = j := by omega
        rw [hnod, nodeAt_modifyNode_ne hne, nodeAt_modifyNode_ne hne, nodeAt_append_lt hjl]
      have hfinds : assocFind (g.Link s t w).index s = some g.count := by
        rw [hid2]
        exact assocFind_append_self hsf g.count
      have hfindt : assocFind (g.Link s t w).index t = some ti := by
        rw [hid2]
        exact htf
      have hfindold : ∀ {id v : Nat}, assocFind g.index id = some v → assocFind (g.Link s t w).index id = some v := by
        intro id v h
        rw [hid2]
        exact assocFind_append_of_some h
      have hSnone_s : assocFind gS.nodes s = none := by
        rw [assocFind_eq_none, hkeys, ← assocFind_eq_none]
        exact hsf
      refine ⟨?_, ?_, ?_, ?_⟩
      · rw [hid2]
        show (ensureNode (assocModify (ensureNode gS.nodes s) s (fun nd => { nd with outbound := nd.outbound + w })) t).map Prod.fst = (g.index ++ [(s, g.count)]).map Prod.fst
        have h1 : (ensureNode gS.nodes s).map Prod.fst = gS.nodes.map Prod.fst ++ [s] := by
          rw [ensureNode_keys, if_neg (by rw [hSnone_s]; simp)]
        have h2 : (assocModify (ensureNode gS.nodes s) s (fun nd => { nd with outbound := nd.outbound + w })).map Prod.fst = gS.nodes.map Prod.fst ++ [s] := by
          rw [assocModify_map_fst, h1]
        have h3 : (assocFind (assocModify (ensureNode gS.nodes s) s (fun nd => { nd with outbound := nd.outbound + w })) t).isSome = true := by
          rw [assocFind_isSome_iff, h2, hkeys]
          have h4 : t ∈ (g.index ++ [(s, g.count)]).map Prod.fst := by
            rw [← assocFind_isSome_iff, htf]
            rfl
          simpa using h4
        rw [ensureNode_keys, if_pos h3, h2, hkeys, List.map_append]
        rfl
      · rw [hid2, List.map_append, List.nodup_append]
        refine ⟨hnd, by simp, ?_⟩
        intro a ha hb
        simp at hb
        rw [hb] at ha
        exact (assocFind_eq_none.mp hsf) ha
      · intro id j hfj
        rw [hid2] at hfj
        rcases hold : assocFind g.index id with _ | j0
        · rw [assocFind_append_of_none hold, assocFind] at hfj
          by_cases hsid : s = id
          · rw [if_pos hsid] at hfj
            injection hfj with hfj2
            have his : id = s := hsid.symm
            refine ⟨?_, ?_, ?_⟩
            · rw [outOfS, linkS_find_nodes, if_pos his, hSnone_s, ← hfj2, hM2]
              rfl
            · intro tpos
              rw [linkS_find_edges, if_pos his, Option.getD_some, hnorow s hsf, Option.getD_none, ← hfj2, hM2]
              show keySum (trRow (g.Link s t w) (bump [] t w)) tpos = keySum (bump [] ti w) tpos
              rw [keySum_trRow_bump, hfindt, Option.getD_some, keySum_bump]
              rfl
            · rw [linkS_find_edges, if_pos his, Option.getD_some, hnorow s hsf, Option.getD_none]
              intro e he
              rcases mem_bump he with he2 | he2
              · rw [he2, hfindt]
                rfl
              · exact absurd he2 (by simp)
          · rw [if_neg hsid, assocFind] at hfj
            exact absurd hfj (by simp)
        · rw [assocFind_append_of_some hold] at hfj
          injection hfj with hfj2
          have hold2 : assocFind g.index id = some j := by
            rw [hold, hfj2]
          have his : ¬ id = s := by
            intro hcc
            rw [hcc, hsf] at hold2
            exact Option.noConfusion hold2
          have hjlt : j < g.index.length := (index_entry hidx hold2).1
          have hjlen : j < g.nodes.length := by omega
          refine ⟨?_, ?_, ?_⟩
          · rw [outOfS, linkS_find_nodes, if_neg his, hMne j hjlen]
            by_cases hit : id = t
            · rw [if_pos hit]
              show outOfS gS.nodes id = _
              exact (hfacts id j hold2).1
            · rw [if_neg hit]
              show outOfS gS.nodes id = _
              exact (hfacts id j hold2).1
          · intro tpos
            rw [linkS_find_edges, if_neg his, hMne j hjlen]
            have htr : trRow (g.Link s t w) ((assocFind gS.edges id).getD []) = trRow g ((assocFind gS.edges id).getD []) := trRow_extend hid2 (hfacts id j hold2).2.2
            rw [htr]
            exact (hfacts id j hold2).2.1 tpos
          · rw [linkS_find_edges, if_neg his]
            intro e he
            have h6 := (hfacts id j hold2).2.2 e he
            rcases hfe : assocFind g.index e.1 with _ | v
            · rw [hfe] at h6
              exact absurd h6 (by simp)
            · rw [hfindold hfe]
              rfl
      · intro id hfid
        rw [hid2] at hfid
        rcases hold : assocFind g.index id with _ | v
        · have his : ¬ id = s := by
            intro hcc
            rw [assocFind_append_of_none hold, hcc, assocFind, if_pos rfl] at hfid
            exact Option.noConfusion hfid
          rw [linkS_find_edges, if_neg his]
          exact hnorow id hold
        · rw [assocFind_append_of_some hold] at hfid
          exact absurd hfid (by simp)
  · rcases htf : assocFind g.index t with _ | ti
    · -- s present at si, t absent
      have hts : ¬ t = s := by
        intro hcc
        rw [hcc, hsf] at htf
        exact Option.noConfusion htf
      have hid2 : (g.Link s t w).index = g.index ++ [(t, g.count)] := by
        rw [link64_pa w hsf htf]
      have hnod : (g.Link s t w).nodes = modifyNode ((modifyNode g.nodes si (fun n => { n with outbound := n.outbound + w })) ++ [({} : Node64)]) si (fun n => { n with edges := bump n.edges g.count w }) := by
        rw [link64_pa w hsf htf]
      have hsi_lt : si < g.index.length := (index_entry hidx hsf).1
      have hsi_len : si < g.nodes.length := by omega
      have hlen1 : si < (modifyNode g.nodes si (fun n => { n with outbound := n.outbound + w })).length := by
        rw [length_modifyNode]
        exact hsi_len
      have hlenapp : si < ((modifyNode g.nodes si (fun n => { n with outbound := n.outbound + w })) ++ [({} : Node64)]).length := by
        have h4 : ((modifyNode g.nodes si (fun n => { n with outbound := n.outbound + w })) ++ [({} : Node64)]).length = g.nodes.length + 1 := by
          simp [length_modifyNode]
        omega
      have hM2 : nodeAt (g.Link s t w).nodes si = { nodeAt g.nodes si with outbound := (nodeAt g.nodes si).outbound + w, edges := bump (nodeAt g.nodes si).edges g.count w } := by
        rw [hnod, nodeAt_modifyNode_self hlenapp, nodeAt_append_lt hlen1, nodeAt_modifyNode_self hsi_len]
      have hMne : ∀ j, ¬ j = si → j < g.nodes.length → nodeAt (g.Link s t w).nodes j = nodeAt g.nodes j := by
        intro j hj hjl
        rw [hnod, nodeAt_modifyNode_ne (fun hc2 => hj hc2.symm), nodeAt_append_lt (by rw [length_modifyNode]; exact hjl), nodeAt_modifyNode_ne (fun hc2 => hj hc2.symm)]
      have hMnew : nodeAt (g.Link s t w).nodes g.count = ({} : Node64) := by
        have hne : ¬ si = g.count := by omega
        have hlen2 : (modifyNode g.nodes si (fun n => { n with outbound := n.outbound + w })).length = g.count := by
          rw [length_modifyNode, hc]
        rw [hnod, nodeAt_modifyNode_ne hne, ← hlen2, nodeAt_append_self]
      have hfindt : assocFind (g.Link s t w).index t = some g.count := by
        rw [hid2]
        exact assocFind_append_self htf g.count
      have hfindold : ∀ {id v : Nat}, assocFind g.index id = some v → assocFind (g.Link s t w).index id = some v := by
        intro id v h
        rw [hid2]
        exact assocFind_append_of_some h
      have hSsome : (assocFind gS.nodes s).isSome = true := by
        rw [assocFind_isSome_iff, hkeys, ← assocFind_isSome_iff, hsf]
        rfl
      have hSnonet : assocFind gS.nodes t = none := by
        rw [assocFind_eq_none, hkeys, ← assocFind_eq_none]
        exact htf
      refine ⟨?_, ?_, ?_, ?_⟩
      · rw [hid2]
        show (ensureNode (assocModify (ensureNode gS.nodes s) s (fun nd => { nd with outbound := nd.outbound + w })) t).map Prod.fst = (g.index ++ [(t, g.count)]).map Prod.fst
        have h1 : (ensureNode gS.nodes s).map Prod.fst = gS.nodes.map Prod.fst := by
          rw [ensureNode_keys, if_pos hSsome]
        have h2 : (assocModify (ensureNode gS.nodes s) s (fun nd => { nd with outbound := nd.outbound + w })).map Prod.fst = gS.nodes.map Prod.fst := by
          rw [assocModify_map_fst, h1]
        have h3 : ¬ (assocFind (assocModify (ensureNode gS.nodes s) s (fun nd => { nd with outbound := nd.outbound + w })) t).isSome = true := by
          rw [assocFind_isSome_iff, h2, hkeys]
          exact assocFind_eq_none.mp htf
        rw [ensureNode_keys, if_neg h3, h2, hkeys, List.map_append]
        rfl
      · rw [hid2, List.map_append, List.nodup_append]
        refine ⟨hnd, by simp, ?_⟩
        intro a ha hb
        simp at hb
        rw [hb] at ha
        exact (assocFind_eq_none.mp htf) ha
      · intro id j hfj
        rw [hid2] at hfj
        rcases hold : assocFind g.index id with _ | j0
        · rw [assocFind_append_of_none hold, assocFind] at hfj
          by_cases htid : t = id
          · rw [if_pos htid] at hfj
            injection hfj with hfj2
            refine ⟨?_, ?_, ?_⟩
            · rw [outOfS, linkS_find_nodes, if_neg (fun hc2 => hts (htid.trans hc2)), if_pos htid.symm, ← htid, hSnonet, ← hfj2, hMnew]
              rfl
            · intro tpos
              rw [linkS_find_edges, if_neg (fun hc2 => hts (htid.trans hc2)), ← htid, hnorow t htf, ← hfj2, hMnew]
              rfl
            · rw [linkS_find_edges, if_neg (fun hc2 => hts (htid.trans hc2)), ← htid, hnorow t htf]
              intro e he
              exact absurd he (by simp)
          · rw [if_neg htid, assocFind] at hfj
            exact absurd hfj (by simp)
        · rw [assocFind_append_of_some hold] at hfj
          injection hfj with hfj2
          have hold2 : assocFind g.index id = some j := by
            rw [hold, hfj2]
          have hidt : ¬ id = t := by
            intro hcc
            rw [hcc, htf] at hold2
            exact Option.noConfusion hold2
          have hjlt : j < g.index.length := (index_entry hidx hold2).1
          have hjlen : j < g.nodes.length := by omega
          refine ⟨?_, ?_, ?_⟩
          · rw [outOfS, linkS_find_nodes]
            by_cases his : id = s
            · rw [if_pos his]
              have hjsi : j = si := by
                rw [his, hsf] at hold2
                injection hold2 with h
                exact h.symm
              rw [hjsi, hM2]
              show outOfS gS.nodes s + w = (nodeAt g.nodes si).outbound + w
              rw [(hfacts s si hsf).1]
            · have hjsi : ¬ j = si := by
                intro hcc
                apply his
                refine find_inj hidx hold2 ?_
                rw [hsf, hcc]
              rw [if_neg his, if_neg hidt, hMne j hjsi hjlen]
              show outOfS gS.nodes id = _
              exact (hfacts id j hold2).1
          · intro tpos
            rw [linkS_find_edges]
            by_cases his : id = s
            · rw [if_pos his]
              have hjsi : j = si := by
                rw [his, hsf] at hold2
                injection hold2 with h
                exact h.symm
              rw [hjsi, Option.getD_some, keySum_trRow_bump, hfindt, Option.getD_some, hM2]
              show _ = keySum (bump (nodeAt g.nodes si).edges g.count w) tpos
              rw [keySum_bump]
              have htr : trRow (g.Link s t w) ((assocFind gS.edges s).getD []) = trRow g ((assocFind gS.edges s).getD []) := trRow_extend hid2 (hfacts s si hsf).2.2
              rw [htr, (hfacts s si hsf).2.1 tpos]
            · have hjsi : ¬ j = si := by
                intro hcc
                apply his
                refine find_inj hidx hold2 ?_
                rw [hsf, hcc]
              rw [if_neg his, hMne j hjsi hjlen]
              have htr : trRow (g.Link s t w) ((assocFind gS.edges id).getD []) = trRow g ((assocFind gS.edges id).getD []) := trRow_extend hid2 (hfacts id j hold2).2.2
              rw [htr]
              exact (hfacts id j hold2).2.1 tpos
          · rw [linkS_find_edges]
            by_cases his : id = s
            · rw [if_pos his, Option.getD_some]
              intro e he
              rcases mem_bump he with he2 | he2
              · rw [he2, hfindt]
                rfl
              · have h6 := (hfacts s si hsf).2.2 e he2
                rcases hfe : assocFind g.index e.1 with _ | v
                · rw [hfe] at h6
                  exact absurd h6 (by simp)
                · rw [hfindold hfe]
                  rfl
            · rw [if_neg his]
              intro e he
              have h6 := (hfacts id j hold2).2.2 e he
              rcases hfe : assocFind g.index e.1 with _ | v
              · rw [hfe] at h6
                exact absurd h6 (by simp)
              · rw [hfindold hfe]
                rfl
      · intro id hfid
        rw [hid2] at hfid
        rcases hold : assocFind g.index id with _ | v
        · have his : ¬ id = s := by
            intro hcc
            rw [hcc, hsf] at hold
            exact Option.noConfusion hold
          rw [linkS_find_edges, if_neg his]
          exact hnorow id hold
        · rw [assocFind_append_of_some hold] at hfid
          exact absurd hfid (by simp)
    · -- s present at si, t present at ti
      rw [link64_pp w hsf htf]
      have hsi_lt : si < g.index.length := (index_entry hidx hsf).1
      have hsi_len : si < g.nodes.length := by omega
      have hlen1 : si < (modifyNode g.nodes si (fun n => { n with outbound := n.outbound + w })).length := by
        rw [length_modifyNode]
        exact hsi_len
      have hM2 : nodeAt (modifyNode (modifyNode g.nodes si (fun n => { n with outbound := n.outbound + w })) si (fun n => { n with edges := bump n.edges ti w })) si
          = { nodeAt g.nodes si with outbound := (nodeAt g.nodes si).outbound + w, edges := bump (nodeAt g.nodes si).edges ti w } := by
        rw [nodeAt_modifyNode_self hlen1, nodeAt_modifyNode_self hsi_len]
      have hMne : ∀ j, ¬ j = si →
          nodeAt (modifyNode (modifyNode g.nodes si (fun n => { n with outbound := n.outbound + w })) si (fun n => { n with edges := bump n.edges ti w })) j
            = nodeAt g.nodes j := by
        intro j hj
        rw [nodeAt_modifyNode_ne (fun hc2 => hj hc2.symm), nodeAt_modifyNode_ne (fun hc2 => hj hc2.symm)]
      have hSsome : (assocFind gS.nodes s).isSome = true := by
        rw [assocFind_isSome_iff, hkeys, ← assocFind_isSome_iff, hsf]
        rfl
      refine ⟨?_, ?_, ?_, ?_⟩
      · show (gS.Link s t w).nodes.map Prod.fst = g.index.map Prod.fst
        show (ensureNode (assocModify (ensureNode gS.nodes s) s (fun nd => { nd with outbound := nd.outbound + w })) t).map Prod.fst = g.index.map Prod.fst
        have h1 : (ensureNode gS.nodes s).map Prod.fst = gS.nodes.map Prod.fst := by
          rw [ensureNode_keys, if_pos hSsome]
        have h2 : (assocModify (ensureNode gS.nodes s) s (fun nd => { nd with outbound := nd.outbound + w })).map Prod.fst = gS.nodes.map Prod.fst := by
          rw [assocModify_map_fst, h1]
        have h3 : (assocFind (assocModify (ensureNode gS.nodes s) s (fun nd => { nd with outbound := nd.outbound + w })) t).isSome = true := by
          rw [assocFind_isSome_iff, h2, hkeys, ← assocFind_isSome_iff, htf]
          rfl
        rw [ensureNode_keys, if_pos h3, h2, hkeys]
      · show (g.index.map Prod.fst).Nodup
        exact hnd
      · intro id j hfj
        have hfj' : assocFind g.index id = some j := hfj
        refine ⟨?_, ?_, ?_⟩
        · show outOfS (gS.Link s t w).nodes id = _
          rw [outOfS, linkS_find_nodes]
          by_cases his : id = s
          · rw [if_pos his]
            have hjsi : j = si := by
              rw [his, hsf] at hfj'
              injection hfj' with h
              exact h.symm
            rw [hjsi, hM2]
            show outOfS gS.nodes s + w = (nodeAt g.nodes si).outbound + w
            rw [(hfacts s si hsf).1]
          · have hjsi : ¬ j = si := by
              intro hc
              apply his
              refine find_inj hidx hfj' ?_
              rw [hsf, hc]
            rw [if_neg his, hMne j hjsi]
            by_cases hit : id = t
            · rw [if_pos hit]
              show outOfS gS.nodes id = _
              exact (hfacts id j hfj').1
            · rw [if_neg hit]
              show outOfS gS.nodes id = _
              exact (hfacts id j hfj').1
        · intro tpos
          show keySum (trRow g ((assocFind (gS.Link s t w).edges id).getD [])) tpos = _
          rw [linkS_find_edges]
          by_cases his : id = s
          · rw [if_pos his]
            have hjsi : j = si := by
              rw [his, hsf] at hfj'
              injection hfj' with h
              exact h.symm
            rw [hjsi, Option.getD_some, keySum_trRow_bump, htf, Option.getD_some, hM2]
            show _ = keySum (bump (nodeAt g.nodes si).edges ti w) tpos
            rw [keySum_bump]
            rw [(hfacts s si hsf).2.1 tpos]
          · have hjsi : ¬ j = si := by
              intro hc
              apply his
              refine find_inj hidx hfj' ?_
              rw [hsf, hc]
            rw [if_neg his, hMne j hjsi]
            exact (hfacts id j hfj').2.1 tpos
        · show ∀ e ∈ (assocFind (gS.Link s t w).edges id).getD [], (assocFind g.index e.1).isSome = true
          rw [linkS_find_edges]
          by_cases his : id = s
          · rw [if_pos his, Option.getD_some]
            intro e he
            rcases mem_bump he with he2 | he2
            · rw [he2, htf]
              rfl
            · exact (hfacts s si hsf).2.2 e he2
          · rw [if_neg his]
            exact (hfacts id j hfj').2.2
      · intro id hfid
        have hfid' : assocFind g.index id = none := hfid
        have his : ¬ id = s := by
          intro hc
          rw [hc, hsf] at hfid'
          exact Option.noConfusion hfid'
        show assocFind (gS.Link s t w).edges id = none
        rw [linkS_find_edges, if_neg his]
        exact hnorow id hfid'

theorem emptyS_empty64_simInv : SimInv emptyS emptyG64 := by
  refine ⟨rfl, List.nodup_nil, ?_, ?_⟩
  · intro id j h
    have h2 : (none : Option Nat) = some j := h
    exact Option.noConfusion h2
  · intro id h
    rfl

theorem simInv_build_aux : ∀ (ts : List (Nat × Nat × ℚ)) (gS : Graph) (g : Graph64),
    SimInv gS g → G64Inv g →
    SimInv (ts.foldl (fun h e => h.Link e.1 e.2.1 e.2.2) gS)
      (ts.foldl (fun h e => h.Link e.1 e.2.1 e.2.2) g) := by
  intro ts
  induction ts with
  | nil =>
    intro gS g hS hG
    exact hS
  | cons e rest ih =>
    intro gS g hS hG
    rw [List.foldl_cons, List.foldl_cons]
    exact ih _ _ (simInv_link hS hG e.1 e.2.1 e.2.2) (link_inv hG e.1 e.2.1 e.2.2)

theorem simInv_build (ts : List (Nat × Nat × ℚ)) : SimInv (buildS ts) (buildG64 ts) :=
  simInv_build_aux ts emptyS emptyG64 emptyS_empty64_simInv emptyG64_inv

theorem keys_len {β : Type} {l : List (Nat × β)} {l2 : List (Nat × Nat)}
    (h : l.map Prod.fst = l2.map Prod.fst) : l.length = l2.length := by
  have h2 := congrArg List.length h
  simpa using h2

theorem fst_getD_eq {β : Type} (d : β) {l : List (Nat × β)} {idx : List (Nat × Nat)}
    (h : l.map Prod.fst = idx.map Prod.fst) {j : Nat} (hj : j < l.length) :
    (l.getD j (0, d)).1 = (idx.getD j (0, 0)).1 := by
  have hjl : j < idx.length := by rw [← keys_len h]; exact hj
  rw [getD_eq_getElem (0, d) hj, getD_eq_getElem (0, 0) hjl]
  have h1 : (l.map Prod.fst).getD j 0 = (idx.map Prod.fst).getD j 0 := by rw [h]
  rw [getD_eq_getElem 0 (by simpa using hj), getD_eq_getElem 0 (by simpa using hjl)] at h1
  simpa using h1

theorem find_key_pos {β : Type} (d : β) {l : List (Nat × β)} {g : Graph64}
    (hk : l.map Prod.fst = g.index.map Prod.fst)
    (hnd : (g.index.map Prod.fst).Nodup) {j : Nat} (hj : j < l.length) :
    assocFind l ((g.index.getD j (0, 0)).1) = some ((l.getD j (0, d)).2) := by
  have hndl : (l.map Prod.fst).Nodup := by rw [hk]; exact hnd
  have h1 := assocFind_pos l hndl j hj
  rw [← fst_getD_eq d hk hj, getD_eq_getElem (0, d) hj]
  exact h1

theorem modify_key_pos {β : Type} (d : β) {l : List (Nat × β)} {g : Graph64}
    (hk : l.map Prod.fst = g.index.map Prod.fst)
    (hnd : (g.index.map Prod.fst).Nodup) {j : Nat} (hj : j < l.length) (f : β → β) :
    assocModify l ((g.index.getD j (0, 0)).1) f
      = l.set j ((l.getD j (0, d)).1, f ((l.getD j (0, d)).2)) := by
  have hndl : (l.map Prod.fst).Nodup := by rw [hk]; exact hnd
  have h1 := assocModify_pos l hndl j hj f
  rw [← fst_getD_eq d hk hj, getD_eq_getElem (0, d) hj]
  exact h1

theorem find_key_posOf {β : Type} (d : β) {l : List (Nat × β)} {g : Graph64}
    (hk : l.map Prod.fst = g.index.map Prod.fst)
    (hnd : (g.index.map Prod.fst).Nodup)
    (hidx : g.index.map Prod.snd = List.range g.count)
    {k p : Nat} (hfind : assocFind g.index k = some p) :
    p < l.length ∧ assocFind l k = some ((l.getD p (0, d)).2) := by
  obtain ⟨hplt, hpe⟩ := index_entry hidx hfind
  have hpl : p < l.length := by rw [keys_len hk]; exact hplt
  have hkey : (g.index.getD p (0, 0)).1 = k := by rw [hpe]
  refine ⟨hpl, ?_⟩
  rw [← hkey]
  exact find_key_pos d hk hnd hpl

theorem modify_key_posOf {β : Type} (d : β) {l : List (Nat × β)} {g : Graph64}
    (hk : l.map Prod.fst = g.index.map Prod.fst)
    (hnd : (g.index.map Prod.fst).Nodup)
    (hidx : g.index.map Prod.snd = List.range g.count)
    {k p : Nat} (hfind : assocFind g.index k = some p) (f : β → β) :
    assocModify l k f = l.set p ((l.getD p (0, d)).1, f ((l.getD p (0, d)).2)) := by
  obtain ⟨hplt, hpe⟩ := index_entry hidx hfind
  have hpl : p < l.length := by rw [keys_len hk]; exact hplt
  have hkey : (g.index.getD p (0, 0)).1 = k := by rw [hpe]
  rw [← hkey]
  exact modify_key_pos d hk hnd hpl f

theorem getD_set {β : Type} (d : β) (l : List β) (p : Nat) (x : β) {j : Nat}
    (hj : j < l.length) : (l.set p x).getD j d = if p = j then x else l.getD j d := by
  have hj2 : j < (l.set p x).length := by simpa using hj
  rw [getD_eq_getElem d hj2, List.getElem_set]
  by_cases hpj : p = j
  · rw [if_pos hpj, if_pos hpj]
  · rw [if_neg hpj, if_neg hpj, getD_eq_getElem d hj]

theorem pushTgtFold_spec (α sw : ℚ) {g : Graph64}
    (hnd : (g.index.map Prod.fst).Nodup)
    (hidx : g.index.map Prod.snd = List.range g.count) :
    ∀ (row : List (Nat × ℚ)), (∀ e ∈ row, (assocFind g.index e.1).isSome = true) →
    ∀ (ns : List (Nat × node)), ns.map Prod.fst = g.index.map Prod.fst →
    ((row.foldl (pushTgt α sw) ns).map Prod.fst = g.index.map Prod.fst) ∧
    (∀ j, j < ns.length → (entryAt (row.foldl (pushTgt α sw) ns) j).2.outbound
      = (entryAt ns j).2.outbound) ∧
    (∀ j, j < ns.length → (entryAt (row.foldl (pushTgt α sw) ns) j).2.weight
      = (entryAt ns j).2.weight + α * sw * keySum (trRow g row) j) := by
  intro row
  induction row with
  | nil =>
    intro _ ns hk
    refine ⟨hk, fun j hj => rfl, fun j hj => ?_⟩
    show (entryAt ns j).2.weight = (entryAt ns j).2.weight + α * sw * keySum (trRow g []) j
    rw [show keySum (trRow g []) j = 0 from rfl]
    ring
  | cons e rest ih =>
    intro hpres ns hk
    rw [List.foldl_cons]
    obtain ⟨p, hp⟩ := Option.isSome_iff_exists.mp (hpres e (by simp))
    obtain ⟨hplt, hfind1⟩ := find_key_posOf ({} : node) hk hnd hidx hp
    have hmod : pushTgt α sw ns e = ns.set p ((ns.getD p (0, {})).1, { (ns.getD p (0, {})).2 with weight := (ns.getD p (0, {})).2.weight + α * sw * e.2 }) := by
      rw [pushTgt]
      exact modify_key_posOf ({} : node) hk hnd hidx hp _
    have hk2 : (pushTgt α sw ns e).map Prod.fst = g.index.map Prod.fst := by
      rw [pushTgt, assocModify_map_fst, hk]
    have hlen2 : (pushTgt α sw ns e).length = ns.length := by
      rw [pushTgt, length_assocModify]
    obtain ⟨ihk, iho, ihw⟩ := ih (fun e2 he2 => hpres e2 (by simp [he2])) (pushTgt α sw ns e) hk2
    refine ⟨ihk, ?_, ?_⟩
    · intro j hj
      rw [iho j (by rw [hlen2]; exact hj)]
      rw [entryAt, hmod, getD_set (0, {}) ns p _ hj]
      by_cases hpj : p = j
      · rw [if_pos hpj]
        show ((ns.getD p (0, {})).2).outbound = (entryAt ns j).2.outbound
        rw [entryAt, hpj]
      · rw [if_neg hpj]
        rfl
    · intro j hj
      rw [ihw j (by rw [hlen2]; exact hj)]
      have hwj : (entryAt (pushTgt α sw ns e) j).2.weight
          = (entryAt ns j).2.weight + (if p = j then α * sw * e.2 else 0) := by
        rw [entryAt, hmod, getD_set (0, {}) ns p _ hj]
        by_cases hpj : p = j
        · rw [if_pos hpj, if_pos hpj]
          show ((ns.getD p (0, {})).2).weight + α * sw * e.2 = _
          rw [entryAt, hpj]
        · rw [if_neg hpj, if_neg hpj, entryAt]
          ring
      have hks2 : keySum (trRow g (e :: rest)) j
          = (if p = j then e.2 else 0) + keySum (trRow g rest) j := by
        rw [trRow, List.map_cons, keySum_cons]
        have h5 : (((assocFind g.index e.1).getD 0, e.2) : Nat × ℚ).1 = p := by
          rw [hp]
          rfl
        rw [h5]
        rfl
      rw [hwj, hks2]
      by_cases hpj : p = j
      · rw [if_pos hpj, if_pos hpj]
        ring
      · rw [if_neg hpj, if_neg hpj]
        ring

theorem pushSrc_spec (α adj : ℚ) (snap : List (Nat × ℚ)) (es : List (Nat × List (Nat × ℚ)))
    {g : Graph64} (hnd : (g.index.map Prod.fst).Nodup)
    (hidx : g.index.map Prod.snd = List.range g.count)
    {k p : Nat} (hkp : assocFind g.index k = some p)
    (hpres : ∀ e ∈ (assocFind es k).getD [], (assocFind g.index e.1).isSome = true)
    (ns : List (Nat × node)) (hk : ns.map Prod.fst = g.index.map Prod.fst) :
    ((pushSrc α adj snap es ns k).map Prod.fst = g.index.map Prod.fst) ∧
    ((pushSrc α adj snap es ns k).length = ns.length) ∧
    (∀ j, j < ns.length → (entryAt (pushSrc α adj snap es ns k) j).2.outbound
      = (entryAt ns j).2.outbound) ∧
    (∀ j, j < ns.length → (entryAt (pushSrc α adj snap es ns k) j).2.weight
      = (entryAt ns j).2.weight
        + α * ((assocFind snap k).getD 0) * keySum (trRow g ((assocFind es k).getD [])) j
        + (if p = j then adj else 0)) := by
  obtain ⟨fk, fo, fw⟩ := pushTgtFold_spec α ((assocFind snap k).getD 0) hnd hidx
    ((assocFind es k).getD []) hpres ns hk
  rw [pushSrc]
  set F := ((assocFind es k).getD []).foldl (pushTgt α ((assocFind snap k).getD 0)) ns with hF
  have hFlen : F.length = ns.length := by
    rw [keys_len fk, ← keys_len hk]
  have hmod : assocModify F k (fun nd => { nd with weight := nd.weight + adj })
      = F.set p ((F.getD p (0, {})).1, { (F.getD p (0, {})).2 with weight := (F.getD p (0, {})).2.weight + adj }) :=
    modify_key_posOf ({} : node) fk hnd hidx hkp _
  refine ⟨?_, ?_, ?_, ?_⟩
  · rw [assocModify_map_fst, fk]
  · rw [length_assocModify, hFlen]
  · intro j hj
    have hjF : j < F.length := by rw [hFlen]; exact hj
    rw [entryAt, hmod, getD_set (0, {}) F p _ hjF]
    by_cases hpj : p = j
    · rw [if_pos hpj]
      show ((F.getD p (0, {})).2).outbound = (entryAt ns j).2.outbound
      rw [hpj]
      show (entryAt F j).2.outbound = (entryAt ns j).2.outbound
      exact fo j hj
    · rw [if_neg hpj]
      show (entryAt F j).2.outbound = (entryAt ns j).2.outbound
      exact fo j hj
  · intro j hj
    have hjF : j < F.length := by rw [hFlen]; exact hj
    rw [entryAt, hmod, getD_set (0, {}) F p _ hjF]
    by_cases hpj : p = j
    · rw [if_pos hpj, if_pos hpj]
      show (F.getD p (0, {})).2.weight + adj = _
      rw [hpj]
      have h6 : (F.getD j (0, {})).2.weight
          = (entryAt ns j).2.weight
            + α * ((assocFind snap k).getD 0) * keySum (trRow g ((assocFind es k).getD [])) j :=
        fw j hj
      rw [h6]
    · rw [if_neg hpj, if_neg hpj]
      show (entryAt F j).2.weight = _
      rw [fw j hj]
      ring

theorem pushKeysFold_spec (α adj : ℚ) (snap : List (Nat × ℚ)) (es : List (Nat × List (Nat × ℚ)))
    {g : Graph64} (hnd : (g.index.map Prod.fst).Nodup)
    (hidx : g.index.map Prod.snd = List.range g.count)
    (hespres : ∀ k2 : Nat, ∀ e ∈ (assocFind es k2).getD [], (assocFind g.index e.1).isSome = true) :
    ∀ (ks : List Nat), (∀ k2 ∈ ks, (assocFind g.index k2).isSome = true) →
    ∀ ns : List (Nat × node), ns.map Prod.fst = g.index.map Prod.fst →
    ((ks.foldl (pushSrc α adj snap es) ns).map Prod.fst = g.index.map Prod.fst) ∧
    ((ks.foldl (pushSrc α adj snap es) ns).length = ns.length) ∧
    (∀ j, j < ns.length → (entryAt (ks.foldl (pushSrc α adj snap es) ns) j).2.outbound
      = (entryAt ns j).2.outbound) ∧
    (∀ j, j < ns.length → (entryAt (ks.foldl (pushSrc α adj snap es) ns) j).2.weight
      = (entryAt ns j).2.weight
        + (ks.map (fun k2 => α * ((assocFind snap k2).getD 0) * keySum (trRow g ((assocFind es k2).getD [])) j
            + (if (assocFind g.index k2).getD 0 = j then adj else 0))).sum) := by
  intro ks
  induction ks with
  | nil =>
    intro _ ns hk
    refine ⟨hk, rfl, fun j hj => rfl, fun j hj => ?_⟩
    show (entryAt ns j).2.weight = (entryAt ns j).2.weight + ([] : List ℚ).sum
    rw [List.sum_nil]
    ring
  | cons k ks ih =>
    intro hkpres ns hk
    rw [List.foldl_cons]
    obtain ⟨p, hp⟩ := Option.isSome_iff_exists.mp (hkpres k (by simp))
    obtain ⟨sk, sl, so, swt⟩ := pushSrc_spec α adj snap es hnd hidx hp (hespres k) ns hk
    obtain ⟨ik, il, io, iw⟩ := ih (fun k2 hk2 => hkpres k2 (by simp [hk2])) (pushSrc α adj snap es ns k) sk
    refine ⟨ik, by rw [il, sl], ?_, ?_⟩
    · intro j hj
      rw [io j (by rw [sl]; exact hj), so j hj]
    · intro j hj
      rw [iw j (by rw [sl]; exact hj), swt j hj, List.map_cons, List.sum_cons, hp, Option.getD_some]
      ring

theorem map_fst_zeroWeights (ns : List (Nat × node)) :
    (zeroWeights ns).map Prod.fst = ns.map Prod.fst := by
  simp [zeroWeights]

theorem length_zeroWeights (ns : List (Nat × node)) :
    (zeroWeights ns).length = ns.length := by
  simp [zeroWeights]

theorem entryAt_zeroWeights {ns : List (Nat × node)} {j : Nat} (hj : j < ns.length) :
    entryAt (zeroWeights ns) j = ((entryAt ns j).1, { (entryAt ns j).2 with weight := 0 }) := by
  have hj2 : j < (zeroWeights ns).length := by rw [length_zeroWeights]; exact hj
  rw [entryAt_eq_getElem hj2, entryAt_eq_getElem hj]
  simp [zeroWeights]

theorem map_fst_snapOf (ns : List (Nat × node)) :
    (snapOf ns).map Prod.fst = ns.map Prod.fst := by
  simp [snapOf]

theorem length_snapOf (ns : List (Nat × node)) : (snapOf ns).length = ns.length := by
  simp [snapOf]

theorem snapOf_getD {ns : List (Nat × node)} {j : Nat} (hj : j < ns.length) :
    (snapOf ns).getD j (0, 0) = ((entryAt ns j).1, (entryAt ns j).2.weight) := by
  have hj2 : j < (snapOf ns).length := by rw [length_snapOf]; exact hj
  rw [getD_eq_getElem (0, 0) hj2, entryAt_eq_getElem hj]
  simp [snapOf]

theorem map_fst_initWeights (inv : ℚ) (ns : List (Nat × node)) :
    (initWeights inv ns).map Prod.fst = ns.map Prod.fst := by
  simp [initWeights]

theorem length_initWeights (inv : ℚ) (ns : List (Nat × node)) :
    (initWeights inv ns).length = ns.length := by
  simp [initWeights]

theorem entryAt_initWeights (inv : ℚ) {ns : List (Nat × node)} {j : Nat} (hj : j < ns.length) :
    entryAt (initWeights inv ns) j = ((entryAt ns j).1, { (entryAt ns j).2 with weight := inv }) := by
  have hj2 : j < (initWeights inv ns).length := by rw [length_initWeights]; exact hj
  rw [entryAt_eq_getElem hj2, entryAt_eq_getElem hj]
  simp [initWeights]

theorem leakOf_eq (ns : List (Nat × node)) :
    leakOf ns = Finset.sum (Finset.range ns.length)
      (fun j => if (entryAt ns j).2.outbound = 0 then (entryAt ns j).2.weight else 0) := by
  rw [leakOf, list_map_sum_getD (0, ({} : node))]
  rfl

theorem idxkeys_getD {g : Graph64} {s : Nat} (hs : s < g.index.length) :
    (g.index.map Prod.fst).getD s 0 = (g.index.getD s (0, 0)).1 := by
  rw [getD_eq_getElem 0 (by simpa using hs), getD_eq_getElem (0, 0) hs]
  simp

theorem assocFind_normEdges (nsn : List (Nat × node)) (k : Nat) :
    ∀ es : List (Nat × List (Nat × ℚ)),
    assocFind (normEdges nsn es) k
      = (assocFind es k).map (fun row =>
          if 0 < outOfS nsn k then row.map (fun e => (e.1, e.2 / outOfS nsn k)) else row) := by
  intro es
  induction es with
  | nil => rfl
  | cons p rest ih =>
    rw [normEdges, List.map_cons]
    by_cases hcond : 0 < outOfS nsn p.1
    · rw [if_pos hcond, assocFind]
      by_cases hpk : p.1 = k
      · rw [if_pos hpk, assocFind, if_pos hpk, Option.map_some']
        rw [hpk] at hcond
        rw [if_pos hcond, hpk]
      · rw [if_neg hpk, assocFind, if_neg hpk]
        show assocFind (normEdges nsn rest) k = _
        exact ih
    · rw [if_neg hcond, assocFind]
      by_cases hpk : p.1 = k
      · rw [if_pos hpk, assocFind, if_pos hpk, Option.map_some']
        rw [hpk] at hcond
        rw [if_neg hcond]
      · rw [if_neg hpk, assocFind, if_neg hpk]
        show assocFind (normEdges nsn rest) k = _
        exact ih

theorem trRow_map_div (g : Graph64) (l : List (Nat × ℚ)) (c : ℚ) :
    trRow g (l.map (fun e => (e.1, e.2 / c))) = (trRow g l).map (fun e => (e.1, e.2 / c)) := by
  simp only [trRow, List.map_map]
  rfl

theorem normEdges_rows {gS : Graph} {g : Graph64} (hS : SimInv gS g) (hG : G64Inv g) :
    (∀ j, j < g.nodes.length → ∀ tpos : Nat,
      keySum (trRow g ((assocFind (normEdges gS.nodes gS.edges) ((g.index.getD j (0, 0)).1)).getD [])) tpos
        = keySum (nodeAt (normalizePass g.nodes) j).edges tpos) ∧
    (∀ k : Nat, ∀ e ∈ (assocFind (normEdges gS.nodes gS.edges) k).getD [],
      (assocFind g.index e.1).isSome = true) := by
  obtain ⟨hkeys, hnd, hfacts, hnorow⟩ := hS
  obtain ⟨hc, hidx, hedge, hval, hwz⟩ := hG
  have hIdxLen : g.index.length = g.count := by
    have h2 := congrArg List.length hidx
    simpa using h2
  constructor
  · intro j hj tpos
    have hjlt : j < g.index.length := by omega
    have hkfind : assocFind g.index ((g.index.getD j (0, 0)).1) = some j :=
      index_find_key hnd hidx hjlt
    obtain ⟨hob, hrow, hpres⟩ := hfacts _ j hkfind
    rw [assocFind_normEdges, nodeAt_normalizePass, normNode]
    rcases hfe : assocFind gS.edges ((g.index.getD j (0, 0)).1) with _ | raw
    · rw [hfe] at hrow
      have hz : keySum (nodeAt g.nodes j).edges tpos = 0 := by
        rw [← hrow tpos]
        rfl
      by_cases hpos : 0 < (nodeAt g.nodes j).outbound
      · rw [if_pos hpos]
        show keySum (trRow g []) tpos
          = keySum ((nodeAt g.nodes j).edges.map (fun e => (e.1, e.2 / (nodeAt g.nodes j).outbound))) tpos
        rw [keySum_map_div, hz, zero_div]
        rfl
      · rw [if_neg hpos]
        show keySum (trRow g []) tpos = keySum (nodeAt g.nodes j).edges tpos
        rw [hz]
        rfl
    · rw [hfe, Option.getD_some] at hrow
      rw [Option.map_some', Option.getD_some, hob]
      by_cases hpos : 0 < (nodeAt g.nodes j).outbound
      · rw [if_pos hpos, if_pos hpos, trRow_map_div, keySum_map_div, keySum_map_div, hrow tpos]
      · rw [if_neg hpos, if_neg hpos]
        exact hrow tpos
  · intro k e he
    rw [assocFind_normEdges] at he
    rcases hfe : assocFind gS.edges k with _ | raw
    · rw [hfe] at he
      exact absurd he (by simp)
    · rw [hfe, Option.map_some', Option.getD_some] at he
      have hsome : ∃ v, assocFind g.index k = some v := by
        rcases hfk : assocFind g.index k with _ | v
        · rw [hnorow k hfk] at hfe
          exact Option.noConfusion hfe
        · exact ⟨v, rfl⟩
      obtain ⟨v, hv⟩ := hsome
      obtain ⟨_, _, hpres⟩ := hfacts k v hv
      rw [hfe, Option.getD_some] at hpres
      by_cases hpos : 0 < outOfS gS.nodes k
      · rw [if_pos hpos] at he
        obtain ⟨e0, he0, hee⟩ := List.mem_map.mp he
        rw [← hee]
        exact hpres e0 he0
      · rw [if_neg hpos] at he
        exact hpres e he

theorem iterS_corr {g : Graph64} (hG : G64Inv g)
    (hnd : (g.index.map Prod.fst).Nodup)
    (esN : List (Nat × List (Nat × ℚ)))
    (hrowfact : ∀ j, j < g.nodes.length → ∀ tpos : Nat,
      keySum (trRow g ((assocFind esN ((g.index.getD j (0, 0)).1)).getD [])) tpos
        = keySum (nodeAt (normalizePass g.nodes) j).edges tpos)
    (hespres : ∀ k : Nat, ∀ e ∈ (assocFind esN k).getD [], (assocFind g.index e.1).isSome = true)
    (α δ : ℚ) {ns : List (Nat × node)} {st : RState}
    (hstinv : StInv g st) (hcorr : SCorr g ns st) :
    (iterBodyS α g.inv esN (δ, ns)).1 = (iterBody α g.inv st).delta ∧
    SCorr g (iterBodyS α g.inv esN (δ, ns)).2 (iterBody α g.inv st) := by
  obtain ⟨hc, hidx, hedge, hval, hwz⟩ := hG
  obtain ⟨hsl, hsedges, hsout, hszero, hsleak⟩ := hstinv
  obtain ⟨hck, hco, hcw⟩ := hcorr
  have hIdxLen : g.index.length = g.count := by
    have h2 := congrArg List.length hidx
    simpa using h2
  have hnlen : ns.length = g.nodes.length := by
    have h3 := keys_len hck
    omega
  have hnodes2 : (iterBodyS α g.inv esN (δ, ns)).2
      = pushPass α ((1 - α) * g.inv + (α * leakOf ns) * g.inv) (snapOf ns) esN (zeroWeights ns) := rfl
  have hdelta2 : (iterBodyS α g.inv esN (δ, ns)).1
      = ((pushPass α ((1 - α) * g.inv + (α * leakOf ns) * g.inv) (snapOf ns) esN (zeroWeights ns)).map
          (fun p => |p.2.weight - (assocFind (snapOf ns) p.1).getD 0|)).sum := rfl
  have hleakS : leakOf ns = st.leak := by
    rw [leakOf_eq, hsleak, hnlen]
    refine Finset.sum_congr rfl ?_
    intro j hjm
    have hj : j < g.nodes.length := Finset.mem_range.mp hjm
    rw [hco j hj, hcw j hj, hsout j]
  have hadj : (1 - α) * g.inv + (α * leakOf ns) * g.inv = adjOf α g.inv st.leak := by
    rw [adjOf, hleakS]
  have hkzero : (zeroWeights ns).map Prod.fst = g.index.map Prod.fst := by
    rw [map_fst_zeroWeights, hck]
  have hkspres : ∀ k2 ∈ (zeroWeights ns).map Prod.fst, (assocFind g.index k2).isSome = true := by
    intro k2 hk2
    rw [assocFind_isSome_iff]
    rw [hkzero] at hk2
    exact hk2
  obtain ⟨pk, pl, po, pw⟩ := pushKeysFold_spec α ((1 - α) * g.inv + (α * leakOf ns) * g.inv)
    (snapOf ns) esN hnd hidx hespres ((zeroWeights ns).map Prod.fst) hkspres (zeroWeights ns) hkzero
  have hsnapfind : ∀ s, s < g.nodes.length →
      assocFind (snapOf ns) ((g.index.getD s (0, 0)).1) = some (curW st s) := by
    intro s hs
    have hsnapkeys : (snapOf ns).map Prod.fst = g.index.map Prod.fst := by
      rw [map_fst_snapOf, hck]
    have hslen : s < (snapOf ns).length := by
      rw [length_snapOf, hnlen]
      exact hs
    rw [find_key_pos (0 : ℚ) hsnapkeys hnd hslen, snapOf_getD (by rw [hnlen]; exact hs)]
    rw [hcw s hs]
  have hkslen : ((zeroWeights ns).map Prod.fst).length = g.nodes.length := by
    rw [hkzero]
    simp only [List.length_map]
    omega
  have hnewW : ∀ j, j < g.nodes.length →
      (entryAt (pushPass α ((1 - α) * g.inv + (α * leakOf ns) * g.inv) (snapOf ns) esN (zeroWeights ns)) j).2.weight
        = α * Finset.sum (Finset.range g.nodes.length)
            (fun s => curW st s * keySum (nodeAt st.nodes s).edges j)
          + adjOf α g.inv st.leak := by
    intro j hj
    have hjz : j < (zeroWeights ns).length := by
      rw [length_zeroWeights, hnlen]
      exact hj
    show (entryAt (((zeroWeights ns).map Prod.fst).foldl
        (pushSrc α ((1 - α) * g.inv + (α * leakOf ns) * g.inv) (snapOf ns) esN) (zeroWeights ns)) j).2.weight = _
    rw [pw j hjz]
    have hbase : (entryAt (zeroWeights ns) j).2.weight = 0 := by
      rw [entryAt_zeroWeights (by rw [hnlen]; exact hj)]
    rw [hbase, list_map_sum_getD 0, hkslen]
    have hterm : ∀ s ∈ Finset.range g.nodes.length,
        α * ((assocFind (snapOf ns) (((zeroWeights ns).map Prod.fst).getD s 0)).getD 0)
            * keySum (trRow g ((assocFind esN (((zeroWeights ns).map Prod.fst).getD s 0)).getD [])) j
          + (if (assocFind g.index (((zeroWeights ns).map Prod.fst).getD s 0)).getD 0 = j
              then (1 - α) * g.inv + (α * leakOf ns) * g.inv else 0)
          = α * (curW st s * keySum (nodeAt st.nodes s).edges j)
            + (if s = j then (1 - α) * g.inv + (α * leakOf ns) * g.inv else 0) := by
      intro s hsm
      have hs : s < g.nodes.length := Finset.mem_range.mp hsm
      have hkat : ((zeroWeights ns).map Prod.fst).getD s 0 = (g.index.getD s (0, 0)).1 := by
        rw [hkzero]
        exact idxkeys_getD (by omega)
      rw [hkat, hsnapfind s hs, Option.getD_some, hrowfact s hs j, ← hsedges s,
        index_find_key hnd hidx (by omega), Option.getD_some]
      ring
    rw [Finset.sum_congr rfl hterm, Finset.sum_add_distrib, ← Finset.mul_sum,
      Finset.sum_ite_eq' (Finset.range g.nodes.length) j
        (fun _ => (1 - α) * g.inv + (α * leakOf ns) * g.inv)]
    rw [if_pos (Finset.mem_range.mpr hj), hadj]
    ring
  obtain ⟨ul, uwa, ue, uo, uwb⟩ := updatePass_spec α (adjOf α g.inv st.leak) st.a st.nodes
  obtain ⟨dl, dnode, dd, dlk⟩ :=
    deltaPass_spec st.a (updatePass α (adjOf α g.inv st.leak) st.a st.nodes)
  have hnew64 : ∀ s, s < g.nodes.length →
      (nodeAt (updatePass α (adjOf α g.inv st.leak) st.a st.nodes) s).w (!st.a)
        = α * Finset.sum (Finset.range g.nodes.length)
            (fun s2 => curW st s2 * keySum (nodeAt st.nodes s2).edges s)
          + adjOf α g.inv st.leak := by
    intro s hs
    rw [uwb s (by rw [hsl]; exact hs), hszero s, hsl]
    simp only [curW]
    ring
  have hpplen : (pushPass α ((1 - α) * g.inv + (α * leakOf ns) * g.inv) (snapOf ns) esN (zeroWeights ns)).length
      = g.nodes.length := by
    show (((zeroWeights ns).map Prod.fst).foldl
        (pushSrc α ((1 - α) * g.inv + (α * leakOf ns) * g.inv) (snapOf ns) esN) (zeroWeights ns)).length = _
    rw [pl, length_zeroWeights, hnlen]
  have hppkeys : (pushPass α ((1 - α) * g.inv + (α * leakOf ns) * g.inv) (snapOf ns) esN (zeroWeights ns)).map Prod.fst
      = g.index.map Prod.fst := pk
  have hdeltagoal : (iterBodyS α g.inv esN (δ, ns)).1 = (iterBody α g.inv st).delta := by
    rw [hdelta2, iterBody_delta, dd, list_map_sum_getD (0, ({} : node)), hpplen, ul, hsl]
    refine Finset.sum_congr rfl ?_
    intro s hsm
    have hs : s < g.nodes.length := Finset.mem_range.mp hsm
    have hskey : ((pushPass α ((1 - α) * g.inv + (α * leakOf ns) * g.inv) (snapOf ns) esN (zeroWeights ns)).getD s (0, {})).1
        = (g.index.getD s (0, 0)).1 :=
      fst_getD_eq ({} : node) hppkeys (by rw [hpplen]; exact hs)
    show |(entryAt (pushPass α ((1 - α) * g.inv + (α * leakOf ns) * g.inv) (snapOf ns) esN (zeroWeights ns)) s).2.weight
        - (assocFind (snapOf ns) ((pushPass α ((1 - α) * g.inv + (α * leakOf ns) * g.inv) (snapOf ns) esN (zeroWeights ns)).getD s (0, {})).1).getD 0| = _
    rw [hskey, hsnapfind s hs, Option.getD_some, hnewW s hs, uwa s]
    rw [hnew64 s hs]
    show _ = |curW st s - _|
    rw [abs_sub_comm]
  refine ⟨hdeltagoal, ?_, ?_, ?_⟩
  · rw [hnodes2]
    exact hppkeys
  · intro j hj
    rw [hnodes2]
    show (entryAt (((zeroWeights ns).map Prod.fst).foldl
        (pushSrc α ((1 - α) * g.inv + (α * leakOf ns) * g.inv) (snapOf ns) esN) (zeroWeights ns)) j).2.outbound = _
    rw [po j (by rw [length_zeroWeights, hnlen]; exact hj)]
    rw [entryAt_zeroWeights (by rw [hnlen]; exact hj)]
    show (entryAt ns j).2.outbound = _
    exact hco j hj
  · intro j hj
    rw [hnodes2]
    have hcur2 : curW (iterBody α g.inv st) j
        = (nodeAt (updatePass α (adjOf α g.inv st.leak) st.a st.nodes) j).w (!st.a) := by
      show (nodeAt (iterBody α g.inv st).nodes j).w (iterBody α g.inv st).a = _
      rw [iterBody_nodes, iterBody_a, dnode j, w_setW_other]
    rw [hcur2, hnew64 j hj]
    exact hnewW j hj

theorem loopS_corr {g : Graph64} (hG : G64Inv g)
    (hnd : (g.index.map Prod.fst).Nodup)
    (esN : List (Nat × List (Nat × ℚ)))
    (hrowfact : ∀ j, j < g.nodes.length → ∀ tpos : Nat,
      keySum (trRow g ((assocFind esN ((g.index.getD j (0, 0)).1)).getD [])) tpos
        = keySum (nodeAt (normalizePass g.nodes) j).edges tpos)
    (hespres : ∀ k : Nat, ∀ e ∈ (assocFind esN k).getD [], (assocFind g.index e.1).isSome = true)
    (α ε : ℚ) :
    ∀ (f : Nat) (st : RState) (ns : List (Nat × node)) (δ : ℚ),
    StInv g st → SCorr g ns st → δ = st.delta →
    (rankLoop α ε g.inv f st = none → rankLoopS α ε g.inv esN f (δ, ns) = none) ∧
    (∀ stF, rankLoop α ε g.inv f st = some stF →
      ∃ nsF, rankLoopS α ε g.inv esN f (δ, ns) = some nsF ∧ SCorr g nsF stF) := by
  intro f
  induction f with
  | zero =>
    intro st ns δ hstinv hcorr hdel
    constructor
    · intro hnone
      rw [rankLoop] at hnone
      rw [rankLoopS]
      by_cases hguard : st.delta ≤ ε
      · rw [if_pos hguard] at hnone
        exact Option.noConfusion hnone
      · rw [if_neg (by rw [hdel]; exact hguard)]
    · intro stF hsome
      rw [rankLoop] at hsome
      by_cases hguard : st.delta ≤ ε
      · rw [if_pos hguard] at hsome
        injection hsome with h2
        refine ⟨ns, ?_, ?_⟩
        · rw [rankLoopS, if_pos (by rw [hdel]; exact hguard)]
        · rw [← h2]
          exact hcorr
      · rw [if_neg hguard] at hsome
        exact absurd hsome (by simp)
  | succ f ih =>
    intro st ns δ hstinv hcorr hdel
    obtain ⟨hd1, hd2⟩ := iterS_corr hG hnd esN hrowfact hespres α δ hstinv hcorr
    constructor
    · intro hnone
      rw [rankLoop] at hnone
      rw [rankLoopS]
      by_cases hguard : st.delta ≤ ε
      · rw [if_pos hguard] at hnone
        exact Option.noConfusion hnone
      · rw [if_neg (by rw [hdel]; exact hguard)]
        rw [if_neg hguard] at hnone
        have hih := ih (iterBody α g.inv st) (iterBodyS α g.inv esN (δ, ns)).2
          (iterBodyS α g.inv esN (δ, ns)).1 (iterBody_inv hstinv α g.inv) hd2 hd1
        exact hih.1 hnone
    · intro stF hsome
      rw [rankLoop] at hsome
      by_cases hguard : st.delta ≤ ε
      · rw [if_pos hguard] at hsome
        injection hsome with h2
        refine ⟨ns, ?_, ?_⟩
        · rw [rankLoopS, if_pos (by rw [hdel]; exact hguard)]
        · rw [← h2]
          exact hcorr
      · rw [if_neg hguard] at hsome
        have hih := ih (iterBody α g.inv st) (iterBodyS α g.inv esN (δ, ns)).2
          (iterBodyS α g.inv esN (δ, ns)).1 (iterBody_inv hstinv α g.inv) hd2 hd1
        obtain ⟨nsF, hns1, hns2⟩ := hih.2 stF hsome
        refine ⟨nsF, ?_, hns2⟩
        rw [rankLoopS, if_neg (by rw [hdel]; exact hguard)]
        exact hns1

/-- Claim C9: the sequential `Graph` variant and the concurrent `Graph64`
variant are algorithmically identical: building both from the same list of
`(source, target, weight)` triples and ranking with the same `α`, `ε` (and
fuel) yields the same `(id, rank)` output, id for id — including agreement
on whether the loop exits at all. -/
theorem c9_equivalence (ts : List (Nat × Nat × ℚ)) (α ε : ℚ) (fuel : Nat) :
    rankRunS (buildS ts) α ε fuel
      = (rankRun64 (buildG64 ts) α ε fuel).map (fun p => p.1) := by
  obtain ⟨hkeys, hnd, hfacts, hnorow⟩ := simInv_build ts
  have hG := buildG64_inv ts
  obtain ⟨hc, hidx, hedge, hval, hwz⟩ := buildG64_inv ts
  have hIdxLen : (buildG64 ts).index.length = (buildG64 ts).count := by
    have h2 := congrArg List.length hidx
    simpa using h2
  have hlenGS : (buildS ts).nodes.length = (buildG64 ts).nodes.length := by
    have h3 := keys_len hkeys
    omega
  have hinv : (1 : ℚ) / (((buildS ts).nodes.length : Nat) : ℚ) = (buildG64 ts).inv := by
    rw [Graph64.inv, hlenGS]
  obtain ⟨hrowfact, hespres⟩ := normEdges_rows (simInv_build ts) hG
  have hg1 : ∀ i, (nodeAt (buildG64 ts).nodes i).weight1 = 0 := fun i => (hwz i).2
  have hstinv0 : StInv (buildG64 ts) (initSt (buildG64 ts)) := initSt_inv hg1
  have hcorr0 : SCorr (buildG64 ts) (initWeights (buildG64 ts).inv (buildS ts).nodes)
      (initSt (buildG64 ts)) := by
    refine ⟨?_, ?_, ?_⟩
    · rw [map_fst_initWeights, hkeys]
    · intro j hj
      have hjns : j < (buildS ts).nodes.length := by omega
      rw [entryAt_initWeights _ hjns]
      show (entryAt (buildS ts).nodes j).2.outbound = _
      have hjlt : j < (buildG64 ts).index.length := by omega
      have hkf := index_find_key hnd hidx hjlt
      have hob := (hfacts _ j hkf).1
      rw [outOfS, find_key_pos ({} : node) hkeys hnd hjns, Option.getD_some] at hob
      exact hob
    · intro j hj
      have hjns : j < (buildS ts).nodes.length := by omega
      rw [entryAt_initWeights _ hjns]
      show (buildG64 ts).inv = _
      rw [curW_initSt hj]
  have hloop := loopS_corr hG hnd (normEdges (buildS ts).nodes (buildS ts).edges)
    hrowfact hespres α ε fuel (initSt (buildG64 ts))
    (initWeights (buildG64 ts).inv (buildS ts).nodes) 1 hstinv0 hcorr0 rfl
  rw [rankRunS, rankRun64, rankRunA, hinv]
  rcases hlp : rankLoop α ε (buildG64 ts).inv fuel (initSt (buildG64 ts)) with _ | stF
  · rw [hloop.1 hlp]
    rfl
  · obtain ⟨nsF, hns1, hns2⟩ := hloop.2 stF hlp
    rw [hns1]
    simp only [Option.map_some']
    congr 1
    obtain ⟨hfk, hfo, hfw⟩ := hns2
    refine List.ext_getElem ?_ ?_
    · rw [length_snapOf, keys_len hfk]
      simp
    · intro j hj1 hj2
      have hjn : j < nsF.length := by
        rw [length_snapOf] at hj1
        exact hj1
      have hjidx : j < (buildG64 ts).index.length := by simpa using hj2
      have hjlen : j < (buildG64 ts).nodes.length := by omega
      have hL : (snapOf nsF)[j] = ((entryAt nsF j).1, (entryAt nsF j).2.weight) := by
        rw [← getD_eq_getElem (0, 0) hj1]
        exact snapOf_getD hjn
      rw [hL, List.getElem_map]
      have hkey : (entryAt nsF j).1 = ((buildG64 ts).index.getD j (0, 0)).1 := by
        rw [entryAt]
        exact fst_getD_eq ({} : node) hfk hjn
      have hsnd : ((buildG64 ts).index.getD j (0, 0)).2 = j := index_snd_getD hidx hjidx
      have hidxj : (buildG64 ts).index.getD j (0, 0) = (buildG64 ts).index[j] :=
        getD_eq_getElem (0, 0) hjidx
      rw [hkey, hfw j hjlen, ← hidxj, hsnd]
      rfl
